import Mathlib

/-!
Verification of the Markdown translation pipeline of the NKS repository
(scripts/translate_chapters.py and scripts/translate_to_ja.py).

Strings are modelled as `List Char`.  Python built-ins used by the scripts
(`str.splitlines`, `str.split("\n\n")`, `str.strip`, `str.replace`,
`str.title`) and the regex substitutions (`re.sub`) are embedded as
executable recursive functions that reproduce the scanning semantics of the
CPython implementations on the character sets the scripts deal with:
`\s` and the set stripped by `str.strip` are modelled by the six ASCII
whitespace characters, and the cased characters of `str.title` by the
ASCII letters.
-/

namespace NKS

/-- The six ASCII whitespace characters: model of Python's `\s` class and of
the characters removed by `str.strip`. -/
def pySpace (c : Char) : Bool :=
  c = ' ' || c = '\t' || c = '\n' || c = '\r' || c = '\x0b' || c = '\x0c'

/-- The backtick character. -/
def btick : Char := Char.ofNat 96

/-- Python `str.strip()`: remove leading and trailing whitespace. -/
def pyStrip (s : List Char) : List Char :=
  ((s.dropWhile pySpace).reverse.dropWhile pySpace).reverse

/-- `leadsWith pat s` is true iff `pat` is a prefix of `s`. -/
def leadsWith : List Char → List Char → Bool
  | [], _ => true
  | _ :: _, [] => false
  | p :: ps, c :: cs => p = c && leadsWith ps cs

theorem leadsWith_len_le {p q : List Char} (h : leadsWith p q = true) :
    p.length ≤ q.length := by
  induction p generalizing q with
  | nil => simp
  | cons a as ih =>
    cases q with
    | nil => simp [leadsWith] at h
    | cons b bs =>
      simp only [leadsWith, Bool.and_eq_true] at h
      have := ih h.2
      simp only [List.length_cons]
      omega

theorem leadsWith_iff {p q : List Char} :
    leadsWith p q = true ↔ ∃ t, q = p ++ t := by
  induction p generalizing q with
  | nil => simp [leadsWith]
  | cons a as ih =>
    cases q with
    | nil =>
      simp only [leadsWith, List.cons_append]
      constructor
      · intro h; exact absurd h (by simp)
      · rintro ⟨t, ht⟩; exact absurd ht (by simp)
    | cons b bs =>
      simp only [leadsWith, Bool.and_eq_true, decide_eq_true_eq, ih, List.cons_append,
        List.cons.injEq]
      constructor
      · rintro ⟨rfl, t, rfl⟩; exact ⟨t, rfl, rfl⟩
      · rintro ⟨t, rfl, rfl⟩; exact ⟨rfl, t, rfl⟩

theorem leadsWith_refl_append (p t : List Char) : leadsWith p (p ++ t) = true :=
  leadsWith_iff.mpr ⟨t, rfl⟩

/-- `containsSeq pat s` is true iff `pat` occurs as a contiguous
subsequence of `s` (Python's `pat in s`). -/
def containsSeq (pat : List Char) : List Char → Bool
  | [] => pat.isEmpty
  | c :: cs => leadsWith pat (c :: cs) || containsSeq pat cs

/-- Worker for `pySplitlines`: accumulates the current line reversed in
`cur`, breaking at `\n`, `\r` and `\r\n`. -/
def slGo (cur : List Char) : List Char → List (List Char)
  | [] => [cur.reverse]
  | '\r' :: '\n' :: rest => cur.reverse :: (if rest.isEmpty then [] else slGo [] rest)
  | '\r' :: rest => cur.reverse :: (if rest.isEmpty then [] else slGo [] rest)
  | '\n' :: rest => cur.reverse :: (if rest.isEmpty then [] else slGo [] rest)
  | c :: cs => slGo (c :: cur) cs

/-- Python `str.splitlines()` (for the separators `\n`, `\r`, `\r\n`):
no trailing empty line, and the empty string yields `[]`. -/
def pySplitlines (s : List Char) : List (List Char) :=
  if s.isEmpty then [] else slGo [] s

/-- Worker for `splitPar`: split at each non-overlapping occurrence of the
two-character separator `\n\n`, leftmost first. -/
def spGo (cur : List Char) : List Char → List (List Char)
  | [] => [cur.reverse]
  | '\n' :: '\n' :: rest => cur.reverse :: spGo [] rest
  | c :: cs => spGo (c :: cur) cs

/-- Python `s.split("\n\n")`. -/
def splitPar (s : List Char) : List (List Char) := spGo [] s

/-- Python `"\n".join(...)`. -/
def joinNl (l : List (List Char)) : List Char := List.intercalate ['\n'] l

/-- Python `"\n\n".join(...)`. -/
def joinPar (l : List (List Char)) : List Char := List.intercalate ['\n', '\n'] l

/-- Worker for `pyReplace`; `pat` is assumed nonempty (guarded by
`pyReplace`).  Replaces the non-overlapping occurrences of `pat`,
leftmost first, by `rep`. -/
def replGo (pat rep : List Char) : List Char → List Char
  | [] => []
  | c :: cs =>
    if leadsWith pat (c :: cs) ∧ pat ≠ [] then
      rep ++ replGo pat rep (cs.drop (pat.length - 1))
    else c :: replGo pat rep cs
termination_by l => l.length
decreasing_by
  · simp only [List.length_cons, List.length_drop]
    omega
  · simp only [List.length_cons]
    omega

/-- Python `s.replace(pat, rep)` (the scripts only call it with nonempty
`pat`; for an empty `pat` this model returns `s` unchanged). -/
def pyReplace (s pat rep : List Char) : List Char :=
  if pat = [] then s else replGo pat rep s

/-- Worker for `chunkParagraphs` (translate_chapters.py): `current` holds
the paragraphs of the chunk being built, in reverse, and `currentLen` the
running length counter of the source. -/
def chunkGo (maxChars : Nat) (current : List (List Char)) (currentLen : Nat) :
    List (List Char) → List (List Char)
  | [] => if current.isEmpty then [] else [joinPar current.reverse]
  | p :: ps =>
    if currentLen + (p.length + 2) > maxChars ∧ current ≠ [] then
      joinPar current.reverse :: chunkGo maxChars [p] p.length ps
    else chunkGo maxChars (p :: current) (currentLen + (p.length + 2)) ps

/-- `chunk_paragraphs` of scripts/translate_chapters.py (the scripts call
it with the default budget `max_chars=800`). -/
def chunkParagraphs (maxChars : Nat) (paragraphs : List (List Char)) : List (List Char) :=
  chunkGo maxChars [] 0 paragraphs

/-- Worker for `chunkParagraphsJa`; the flush condition of
scripts/translate_to_ja.py writes the two conjuncts in the other order. -/
def chunkGoJa (maxChars : Nat) (current : List (List Char)) (currentLen : Nat) :
    List (List Char) → List (List Char)
  | [] => if current.isEmpty then [] else [joinPar current.reverse]
  | p :: ps =>
    if current ≠ [] ∧ currentLen + (p.length + 2) > maxChars then
      joinPar current.reverse :: chunkGoJa maxChars [p] p.length ps
    else chunkGoJa maxChars (p :: current) (currentLen + (p.length + 2)) ps

/-- `chunk_paragraphs` of scripts/translate_to_ja.py. -/
def chunkParagraphsJa (maxChars : Nat) (paragraphs : List (List Char)) : List (List Char) :=
  chunkGoJa maxChars [] 0 paragraphs

/-- A paragraph's placeholder mapping: association list from placeholder
key to original span, in insertion order (Python dict iteration order). -/
abbrev PhMap := List (List Char × List Char)

/-- The placeholder key `__INLINE_CODE_{n}__`. -/
def phKey (n : Nat) : List Char :=
  "__INLINE_CODE_".data ++ (Nat.repr n).data ++ "__".data

/-- `dropWhile` does not lengthen a list (termination helper). -/
theorem dropWhile_len_le (p : Char → Bool) (l : List Char) :
    (l.dropWhile p).length ≤ l.length := by
  induction l with
  | nil => simp [List.dropWhile]
  | cons c cs ih =>
    by_cases h : p c
    · simp only [List.dropWhile_cons, h, if_true, List.length_cons]
      omega
    · simp [List.dropWhile_cons, h]

/-- Worker for `protectInline`: scans for matches of the regex
`` `([^`]+)` `` left to right, replacing each with `phKey n` (`n` counts
the placeholders recorded so far, as `len(placeholders)` does) and
recording the mapping. -/
def picGo (n : Nat) : List Char → List Char × PhMap
  | [] => ([], [])
  | c :: cs =>
    if c = btick then
      if (cs.takeWhile (fun d => d ≠ btick)).isEmpty ∨
          (cs.dropWhile (fun d => d ≠ btick)).isEmpty then
        -- no match starting here: an empty span or an unclosed backtick
        let r := picGo n cs
        (c :: r.1, r.2)
      else
        let run := cs.takeWhile (fun d => d ≠ btick)
        let r := picGo (n + 1) (cs.dropWhile (fun d => d ≠ btick)).tail
        (phKey n ++ r.1, (phKey n, c :: (run ++ [btick])) :: r.2)
    else
      let r := picGo n cs
      (c :: r.1, r.2)
termination_by l => l.length
decreasing_by
  · simp only [List.length_cons]
    omega
  · have h := dropWhile_len_le (fun d => d ≠ btick) cs
    simp only [List.length_cons, List.length_tail]
    omega
  · simp only [List.length_cons]
    omega

/-- `protect_inline_code` of scripts/translate_chapters.py: returns the
protected text and the placeholder mapping of the paragraph. -/
def protectInline (text : List Char) : List Char × PhMap := picGo 0 text

/-- `restore_inline_code`: replace each placeholder key by its original
span, in insertion order. -/
def restoreInline (text : List Char) (phs : PhMap) : List Char :=
  phs.foldl (fun t kv => pyReplace t kv.1 kv.2) text

/-- The external translation call, `translator.translate`: an opaque
fallible function (`none` models a raised exception). -/
abbrev TranslateFn := List Char → Option (List Char)

/-- The per-chunk loop body of `translate_markdown`: strip the chunk; an
empty result passes through; otherwise translate, falling back to the
stripped text when the call fails. -/
def translateChunk (tf : TranslateFn) (ch : List Char) : List Char :=
  let text := pyStrip ch
  if text.isEmpty then text
  else
    match tf text with
    | some tr => tr
    | none => text

/-- The positional restoration loop of `translate_markdown`: paragraph `i`
of the translated output is restored with the mapping recorded for
original paragraph `i`; paragraphs beyond the recorded mappings pass
through unchanged. -/
def restoreLoop : List PhMap → List (List Char) → List (List Char)
  | _, [] => []
  | [], tp :: tps => tp :: restoreLoop [] tps
  | ph :: phs, tp :: tps => restoreInline tp ph :: restoreLoop phs tps

/-- The body of `translate_markdown` for one non-code segment:
split into paragraphs, protect inline code, chunk, translate chunk by
chunk, reassemble, re-split and restore positionally. -/
def translateSegment (tf : TranslateFn) (seg : List Char) : List Char :=
  let protPairs := (splitPar seg).map protectInline
  let chunks := chunkParagraphs 800 (protPairs.map Prod.fst)
  let translatedSeg := joinPar (chunks.map (translateChunk tf))
  let trParas := if translatedSeg.isEmpty then [] else splitPar translatedSeg
  joinPar (restoreLoop (protPairs.map Prod.snd) trParas)

/-- `FENCE_RE.match(line)`: the line's leading whitespace is followed by
three backticks. -/
def fenceLine (l : List Char) : Bool :=
  leadsWith "```".data (l.dropWhile pySpace)

/-- The segmentation loop of `translate_markdown`: buffered non-fence
lines are flushed as one segment tagged with the state before the fence;
each fence line is its own Code segment and toggles the state. -/
def segGo (inCode : Bool) (buf : List (List Char)) : List (List Char) → List (Bool × List Char)
  | [] => if buf.isEmpty then [] else [(inCode, joinNl buf.reverse)]
  | l :: ls =>
    if fenceLine l then
      (if buf.isEmpty then [] else [(inCode, joinNl buf.reverse)]) ++
        (true, l) :: segGo (!inCode) [] ls
    else segGo inCode (l :: buf) ls

/-- The Segmenter: ordered list of `(is_code, content)` segments. -/
def segmentDoc (content : List Char) : List (Bool × List Char) :=
  segGo false [] (pySplitlines content)

/-- `translate_markdown` of scripts/translate_chapters.py: code segments
pass through, text segments are translated, and the per-segment outputs
are joined by a newline. -/
def translateMarkdown (content : List Char) (tf : TranslateFn) : List Char :=
  joinNl ((segmentDoc content).map (fun s => if s.1 then s.2 else translateSegment tf s.2))

/-! ### The annotation normalizer (`normalize_annotations`) -/

/-- The slug character class `[a-z0-9-]`. -/
def slugChar (c : Char) : Bool :=
  ('a' ≤ c && c ≤ 'z') || ('0' ≤ c && c ≤ '9') || c = '-'

/-- Worker for `pyTitle`: `prevCased` records whether the previous
character was cased. -/
def titleGo (prevCased : Bool) : List Char → List Char
  | [] => []
  | c :: cs =>
    (if c.isAlpha then (if prevCased then c.toLower else c.toUpper) else c) ::
      titleGo c.isAlpha cs

/-- Python `str.title()` (for ASCII): the first character of each maximal
run of cased characters is uppercased, the rest lowercased. -/
def pyTitle (s : List Char) : List Char := titleGo false s

/-- `slug_to_title`: replace hyphens by spaces, strip, title-case. -/
def slugToTitle (slug : List Char) : List Char :=
  pyTitle (pyStrip (slug.map (fun c => if c = '-' then ' ' else c)))

/-- The canonical link text `[Title](annotation:slug)` produced by the
bracketed and bare rewrites. -/
def annLink (slug : List Char) : List Char :=
  '[' :: (slugToTitle slug ++ ("](annotation:".data ++ (slug ++ [')'])))

/-- Parse `\s*([a-z0-9-]+)` greedily: the whitespace run, then a nonempty
slug; returns the slug and the remainder. -/
def parseWsSlug (t : List Char) : Option (List Char × List Char) :=
  if ((t.dropWhile pySpace).takeWhile slugChar).isEmpty then none
  else some ((t.dropWhile pySpace).takeWhile slugChar,
    (t.dropWhile pySpace).dropWhile slugChar)

theorem parseWsSlug_rest_lt {t slug r : List Char}
    (h : parseWsSlug t = some (slug, r)) : r.length < t.length + 1 ∧ slug ≠ [] := by
  unfold parseWsSlug at h
  split at h
  · exact absurd h (by simp)
  · rename_i hne
    injection h with h'
    injection h' with h1 h2
    subst h1; subst h2
    refine ⟨?_, by simpa using hne⟩
    have h3 : ((t.dropWhile pySpace).takeWhile slugChar).length +
        ((t.dropWhile pySpace).dropWhile slugChar).length = (t.dropWhile pySpace).length := by
      rw [← List.length_append, List.takeWhile_append_dropWhile]
    have h4 := dropWhile_len_le pySpace t
    have h5 : ((t.dropWhile pySpace).takeWhile slugChar) ≠ [] := by simpa using hne
    have h6 : 0 < ((t.dropWhile pySpace).takeWhile slugChar).length :=
      List.length_pos.mpr h5
    omega

/-- Matcher of pass 1, `\[annotation:\s*([a-z0-9\-]+)\]`, at the head of
the input; returns the group and the remainder after the match. -/
def tm1 (s : List Char) : Option (List Char × List Char) :=
  if leadsWith "[annotation:".data s then
    (parseWsSlug (s.drop 12)).bind (fun sr =>
      if sr.2.head? = some ']' then some (sr.1, sr.2.tail) else none)
  else none

theorem tm1_rest_lt {s slug r : List Char}
    (h : tm1 s = some (slug, r)) : r.length < s.length := by
  unfold tm1 at h
  split at h
  · rename_i hl
    obtain ⟨sr, hp, hif⟩ := Option.bind_eq_some.mp h
    split at hif
    · rename_i hh
      injection hif with h'
      injection h' with h1 h2
      subst h2
      obtain ⟨u, hu⟩ := sr
      have h3 := (parseWsSlug_rest_lt hp).1
      have h7 := List.length_drop 12 s
      have h8 : 12 ≤ s.length := by
        have h9 : ("[annotation:".data).length = 12 := by decide
        have := leadsWith_len_le hl
        omega
      have h11 := List.length_tail hu
      simp only at h3 ⊢
      omega
    · exact absurd hif (by simp)
  · exact absurd h (by simp)

/-- Pass 1: rewrite each match of `\[annotation:\s*([a-z0-9\-]+)\]` into
the canonical link (the Python replacement strips the group first). -/
def annPass1 : List Char → List Char
  | [] => []
  | c :: cs =>
    match h : tm1 (c :: cs) with
    | some sr => annLink (pyStrip sr.1) ++ annPass1 sr.2
    | none => c :: annPass1 cs
termination_by l => l.length
decreasing_by
  · have := tm1_rest_lt h
    simp only [List.length_cons] at this ⊢
    omega
  · simp only [List.length_cons]
    omega

/-- Matcher of pass 2, `\]\s+\(`: returns the remainder after the match. -/
def tm2 (s : List Char) : Option (List Char) :=
  if s.head? = some ']' ∧ ¬((s.tail).takeWhile pySpace).isEmpty ∧
      ((s.tail).dropWhile pySpace).head? = some '(' then
    some ((s.tail).dropWhile pySpace).tail
  else none

theorem tm2_rest_lt {s r : List Char}
    (h : tm2 s = some r) : r.length < s.length := by
  unfold tm2 at h
  split at h
  · rename_i hc
    injection h with h'
    subst h'
    obtain ⟨h1, h2, h3⟩ := hc
    have h4 := dropWhile_len_le pySpace s.tail
    have h5 : s ≠ [] := by
      intro he
      rw [he] at h1
      exact absurd h1 (by simp)
    have h6 : ((s.tail).dropWhile pySpace) ≠ [] := by
      intro he
      rw [he] at h3
      exact absurd h3 (by simp)
    have h7 : ¬((s.tail).takeWhile pySpace).length = 0 := by
      intro he
      exact h2 (by simpa [List.isEmpty_iff, List.length_eq_zero] using he)
    have h8 : ((s.tail).takeWhile pySpace).length +
        ((s.tail).dropWhile pySpace).length = (s.tail).length := by
      rw [← List.length_append, List.takeWhile_append_dropWhile]
    have h9 := List.length_tail ((s.tail).dropWhile pySpace)
    have h10 := List.length_tail s
    have h11 : 0 < s.length := List.length_pos.mpr h5
    omega
  · exact absurd h (by simp)

/-- Pass 2: collapse `] (` (any whitespace run) into `](`. -/
def annPass2 : List Char → List Char
  | [] => []
  | c :: cs =>
    match h : tm2 (c :: cs) with
    | some r => ']' :: '(' :: annPass2 r
    | none => c :: annPass2 cs
termination_by l => l.length
decreasing_by
  · have := tm2_rest_lt h
    simp only [List.length_cons] at this ⊢
    omega
  · simp only [List.length_cons]
    omega

/-- Matcher of pass 3, `\(annotation:\s*([a-z0-9\-]+)\)`. -/
def tm3 (s : List Char) : Option (List Char × List Char) :=
  if leadsWith "(annotation:".data s then
    (parseWsSlug (s.drop 12)).bind (fun sr =>
      if sr.2.head? = some ')' then some (sr.1, sr.2.tail) else none)
  else none

theorem tm3_rest_lt {s slug r : List Char}
    (h : tm3 s = some (slug, r)) : r.length < s.length := by
  unfold tm3 at h
  split at h
  · rename_i hl
    obtain ⟨sr, hp, hif⟩ := Option.bind_eq_some.mp h
    split at hif
    · rename_i hh
      injection hif with h'
      injection h' with h1 h2
      subst h2
      obtain ⟨u, hu⟩ := sr
      have h3 := (parseWsSlug_rest_lt hp).1
      have h7 := List.length_drop 12 s
      have h8 : 12 ≤ s.length := by
        have h9 : ("(annotation:".data).length = 12 := by decide
        have := leadsWith_len_le hl
        omega
      have h11 := List.length_tail hu
      simp only at h3 ⊢
      omega
    · exact absurd hif (by simp)
  · exact absurd h (by simp)

/-- The replacement of pass 3, `(annotation:slug)`. -/
def annTarget (slug : List Char) : List Char :=
  '(' :: ("annotation:".data ++ (slug ++ [')']))

/-- Pass 3: remove whitespace after the colon inside a parenthesized
annotation target. -/
def annPass3 : List Char → List Char
  | [] => []
  | c :: cs =>
    match h : tm3 (c :: cs) with
    | some sr => annTarget sr.1 ++ annPass3 sr.2
    | none => c :: annPass3 cs
termination_by l => l.length
decreasing_by
  · have := tm3_rest_lt h
    simp only [List.length_cons] at this ⊢
    omega
  · simp only [List.length_cons]
    omega

/-- Matcher of pass 4, `(?<!\()annotation:\s*([a-z0-9\-]+)`: `prev` is the
character preceding the current position in the string being scanned. -/
def tm4 (prev : Option Char) (s : List Char) : Option (List Char × List Char) :=
  if prev = some '(' then none
  else if leadsWith "annotation:".data s then parseWsSlug (s.drop 11)
  else none

theorem tm4_rest_lt {prev : Option Char} {s slug r : List Char}
    (h : tm4 prev s = some (slug, r)) : r.length < s.length ∧ slug ≠ [] := by
  unfold tm4 at h
  split at h
  · exact absurd h (by simp)
  · split at h
    · rename_i hno hl
      have h1 := parseWsSlug_rest_lt h
      have h7 := List.length_drop 11 s
      have h8 : 11 ≤ s.length := by
        have h9 : ("annotation:".data).length = 11 := by decide
        have := leadsWith_len_le hl
        omega
      exact ⟨by omega, h1.2⟩
    · exact absurd h (by simp)

/-- Pass 4: rewrite each bare `annotation:slug` occurrence not directly
preceded by `(` into the canonical link.  After a match, scanning resumes
after the matched text, whose last character (the slug's last character)
becomes the lookbehind character, as in the source string scanned by
`re.sub`. -/
def pass4Go (prev : Option Char) : List Char → List Char
  | [] => []
  | c :: cs =>
    match h : tm4 prev (c :: cs) with
    | some sr => annLink sr.1 ++ pass4Go sr.1.getLast? sr.2
    | none => c :: pass4Go (some c) cs
termination_by l => l.length
decreasing_by
  · have := (tm4_rest_lt h).1
    simp only [List.length_cons] at this ⊢
    omega
  · simp only [List.length_cons]
    omega

/-- Pass 4 starting at the beginning of the string (no preceding
character). -/
def annPass4 (s : List Char) : List Char := pass4Go none s

/-- `normalize_annotations` of scripts/translate_chapters.py: the four
ordered rewrite passes. -/
def normalizeAnnoLinks (md : List Char) : List Char :=
  annPass4 (annPass3 (annPass2 (annPass1 md)))

/-! ### Distinguished translation functions -/

/-- The identity translation (a translator succeeding with its input). -/
def idTf : TranslateFn := fun t => some t

/-- A translation call that raises on every input. -/
def failTf : TranslateFn := fun _ => none

/-! ### Claim C10 -/

/-- C10: for every translation function, `translate_markdown` applied to
the empty document returns the empty string, the result does not depend on
the translation function (it is never invoked), and the empty document is
a fixed point of the whole per-document pipeline, including
`normalize_annotations`. -/
theorem c10_empty_doc_fixed_point : ∀ tf tf' : TranslateFn,
    translateMarkdown [] tf = [] ∧
    normalizeAnnoLinks (translateMarkdown [] tf) = [] ∧
    translateMarkdown [] tf = translateMarkdown [] tf' := by
  intro tf tf'
  have h : ∀ g : TranslateFn, translateMarkdown [] g = [] := by
    intro g
    simp [translateMarkdown, segmentDoc, pySplitlines, segGo, joinNl, List.intercalate]
  refine ⟨h tf, ?_, by rw [h tf, h tf']⟩
  rw [h tf]
  simp [normalizeAnnoLinks, annPass1, annPass2, annPass3, annPass4, pass4Go]

/-! ### Claim C3 -/

/-- C3: when the translation call raises for a chunk, the result used for
that chunk is the protected, not-yet-restored text submitted to the call
(the stripped chunk), and `translate_markdown` still returns normally: a
run where every call fails produces exactly the same document as a run
with a translator that succeeds with its input unchanged — the failure is
never propagated. -/
theorem c3_translation_failure_fallback : ∀ content : List Char,
    (∀ ch : List Char, translateChunk failTf ch = pyStrip ch) ∧
    translateMarkdown content failTf = translateMarkdown content idTf := by
  intro content
  have hch : ∀ ch : List Char, translateChunk failTf ch = pyStrip ch := by
    intro ch
    simp only [translateChunk, failTf]
    split
    · rfl
    · rfl
  refine ⟨hch, ?_⟩
  have hfz : translateChunk failTf = translateChunk idTf := by
    funext ch
    rw [hch ch]
    simp only [translateChunk, idTf]
    split
    · rfl
    · rfl
  unfold translateMarkdown translateSegment
  rw [hfz]

/-! ### Claim C7 -/

/-- C7: the three concrete annotation-normalization cases: the bracketed
form is rewritten to a canonical link, a bare reference is wrapped into a
canonical link, and whitespace inside an existing link target is removed
with the bracketed title text left untouched. -/
theorem c7_concrete_normalization_cases :
    normalizeAnnoLinks ("[annotation: red-queen-race]".data) =
      ("[Red Queen Race](annotation:red-queen-race)".data) ∧
    normalizeAnnoLinks ("See annotation:dead-letter-queue for details.".data) =
      ("See [Dead Letter Queue](annotation:dead-letter-queue) for details.".data) ∧
    normalizeAnnoLinks ("[Dead Letter](annotation: dead-letter-queue)".data) =
      ("[Dead Letter](annotation:dead-letter-queue)".data) := by
  refine ⟨?_, ?_, ?_⟩ <;>
    simp [normalizeAnnoLinks, annPass1, annPass2, annPass3, annPass4, pass4Go,
      tm1, tm2, tm3, tm4, parseWsSlug, leadsWith, pySpace, slugChar, annLink, pyStrip,
      slugToTitle, pyTitle, titleGo, annTarget]

/-! ### Claim C5 -/

/-- C5: the restoration loop of `translate_markdown` restores the
translated paragraph at index `i` with exactly the mapping recorded for
the original paragraph at index `i`, passes translated paragraphs beyond
the recorded mappings through unchanged, and drops no translated
paragraph. -/
theorem c5_positional_restoration :
    ∀ (phs : List PhMap) (tps : List (List Char)),
    (restoreLoop phs tps).length = tps.length ∧
    ∀ i : Nat, (restoreLoop phs tps).get? i =
      (tps.get? i).map (fun tp =>
        match phs.get? i with
        | some ph => restoreInline tp ph
        | none => tp) := by
  intro phs tps
  induction tps generalizing phs with
  | nil =>
    cases phs <;> simp [restoreLoop]
  | cons tp tps ih =>
    cases phs with
    | nil =>
      refine ⟨by simp [restoreLoop, (ih []).1], ?_⟩
      intro i
      cases i with
      | zero => simp [restoreLoop]
      | succ j => simpa [restoreLoop] using (ih []).2 j
    | cons ph phs =>
      refine ⟨by simp [restoreLoop, (ih phs).1], ?_⟩
      intro i
      cases i with
      | zero => simp [restoreLoop]
      | succ j => simpa [restoreLoop] using (ih phs).2 j

/-! ### Claim C9 -/

/-- C9 counterexample: a whitespace-only chunk does not pass through
unchanged — the loop appends the stripped (empty) string in its place, so
for the single-space chunk the recorded result differs from the chunk's
content. -/
theorem c9_counterexample :
    (pyStrip (" ".data)).isEmpty = true ∧
    translateChunk idTf (" ".data) ≠ (" ".data) := by
  constructor
  · rfl
  · intro h
    have : translateChunk idTf (" ".data) = [] := by rfl
    rw [this] at h
    exact absurd h (by simp)

/-- C9 (amended): for a chunk whose content is empty or whitespace-only,
the translation function is not invoked (the result is independent of it)
and the empty stripped string — not the original chunk content — is what
passes into the reassembled segment. -/
theorem c9_blank_chunk_not_translated (ch : List Char)
    (h : (pyStrip ch).isEmpty = true) :
    (∀ tf tf' : TranslateFn, translateChunk tf ch = translateChunk tf' ch) ∧
    (∀ tf : TranslateFn, translateChunk tf ch = []) := by
  have hz : ∀ tf : TranslateFn, translateChunk tf ch = [] := by
    intro tf
    simp only [translateChunk]
    rw [if_pos h]
    exact List.isEmpty_iff.mp h
  exact ⟨fun tf tf' => by rw [hz tf, hz tf'], hz⟩

/-- C9 witness: the amended claim applied to the single-space chunk. -/
theorem c9_blank_chunk_not_translated_witness :
    (pyStrip (" ".data)).isEmpty = true ∧
    translateChunk failTf (" ".data) = translateChunk idTf (" ".data) ∧
    translateChunk idTf (" ".data) = [] := by
  refine ⟨by rfl, ?_, ?_⟩
  · exact (c9_blank_chunk_not_translated (" ".data) (by rfl)).1 failTf idTf
  · exact (c9_blank_chunk_not_translated (" ".data) (by rfl)).2 idTf

/-! ### Claim C4 -/

theorem intercalate_single (sep a : List Char) : List.intercalate sep [a] = a := by
  simp [List.intercalate, List.intersperse]

theorem intercalate_cons₂ (sep a b : List Char) (l : List (List Char)) :
    List.intercalate sep (a :: b :: l) = a ++ sep ++ List.intercalate sep (b :: l) := by
  simp [List.intercalate, List.intersperse_cons_cons, List.append_assoc]

theorem joinPar_single (p : List Char) : joinPar [p] = p :=
  intercalate_single _ p

theorem joinPar_cons₂ (a b : List Char) (l : List (List Char)) :
    joinPar (a :: b :: l) = a ++ '\n' :: '\n' :: joinPar (b :: l) := by
  simpa using intercalate_cons₂ ['\n', '\n'] a b l

theorem joinPar_append_single (xs : List (List Char)) (p : List Char) (h : xs ≠ []) :
    joinPar (xs ++ [p]) = joinPar xs ++ '\n' :: '\n' :: p := by
  induction xs with
  | nil => exact absurd rfl h
  | cons a l ih =>
    cases l with
    | nil => simp [joinPar_single, joinPar_cons₂]
    | cons b t =>
      have h2 := ih (by simp)
      simp only [List.cons_append, joinPar_cons₂] at h2 ⊢
      rw [h2]
      simp [List.append_assoc]

theorem spGo_no_newline (s : List Char) : ∀ cur : List Char, '\n' ∉ s →
    spGo cur s = [cur.reverse ++ s] := by
  induction s with
  | nil => intro cur _; simp [spGo]
  | cons c cs ih =>
    intro cur h
    rw [spGo.eq_def]
    split
    · simp_all
    · rename_i heq
      exact absurd (heq ▸ List.mem_cons_self '\n' _) (by simp_all)
    · rename_i c' cs' heq
      injection heq with h1 h2
      subst h1; subst h2
      rw [ih (c :: cur) (fun hm => h (List.mem_cons_of_mem c hm))]
      simp

/-- Paragraphs of a chunk, recovered by re-splitting on the blank line. -/
def splitParOf (c : List Char) : List (List Char) := splitPar c

/-- The counted length of a chunk as defined by the claim: each paragraph
contributes its length plus 2. -/
def countedLen (c : List Char) : Nat :=
  ((splitParOf c).map (fun p => p.length + 2)).sum

/-- A single paragraph is always emitted as the one chunk, whatever its
length. -/
theorem chunkParagraphs_singleton (p : List Char) :
    chunkParagraphs 800 [p] = [p] := by
  simp [chunkParagraphs, chunkGo, joinPar_single]

/-- Counted length of a newline-free chunk. -/
theorem countedLen_no_newline (p : List Char) (h : '\n' ∉ p) :
    countedLen p = p.length + 2 := by
  have h4 : splitPar p = [p] := by simpa [splitPar] using spGo_no_newline p [] h
  simp [countedLen, splitParOf, h4]

/-- C4 counterexample: for the single input paragraph of 799 characters,
the produced chunk has counted length 801 > 800 yet consists of one
paragraph whose own length does not exceed the budget, so the claimed
disjunction fails. -/
theorem c4_counterexample :
    ¬ ∀ c ∈ chunkParagraphs 800 [List.replicate 799 'a'],
        countedLen c ≤ 800 ∨ (c ∈ [List.replicate 799 'a'] ∧ 800 < c.length) := by
  intro hall
  have h1 := chunkParagraphs_singleton (List.replicate 799 'a')
  have h2 := hall (List.replicate 799 'a') (by rw [h1]; exact List.mem_singleton.mpr rfl)
  have h3 := countedLen_no_newline (List.replicate 799 'a')
    (by rw [List.mem_replicate]; rintro ⟨-, h⟩; exact absurd h (by decide))
  rw [List.length_replicate] at h3
  rcases h2 with h5 | h5
  · omega
  · rw [List.length_replicate] at h5
    omega

theorem chunkGo_spec : ∀ (ps : List (List Char)) (cur : List (List Char)) (curLen : Nat),
    cur ≠ [] →
    (joinPar cur.reverse).length ≤ curLen →
    (cur.length = 1 ∨ curLen ≤ 800) →
    ∃ pss : List (List (List Char)),
      pss.flatten = cur.reverse ++ ps ∧
      (∀ g ∈ pss, g ≠ []) ∧
      chunkGo 800 cur curLen ps = pss.map joinPar ∧
      ∀ g ∈ pss, (joinPar g).length ≤ 800 ∨ g.length = 1 := by
  intro ps
  induction ps with
  | nil =>
    intro cur curLen hne hlen hinv
    refine ⟨[cur.reverse], by simp, by simpa using hne, ?_, ?_⟩
    · simp [chunkGo, List.isEmpty_iff, hne]
    · intro g hg
      rw [List.mem_singleton] at hg
      subst hg
      rcases hinv with h | h
      · right; simpa using h
      · left; omega
  | cons p ps ih =>
    intro cur curLen hne hlen hinv
    rw [chunkGo.eq_def]
    simp only
    split
    · -- flush: the running chunk is emitted, a new one starts with p
      rename_i hcond
      obtain ⟨pss', h1, h2, h3, h4⟩ := ih [p] p.length (by simp)
        (by simp [joinPar_single]) (Or.inl (by simp))
      refine ⟨cur.reverse :: pss', ?_, ?_, ?_, ?_⟩
      · simp only [List.flatten_cons, h1]
        simp
      · intro g hg
        rcases List.mem_cons.mp hg with h | h
        · subst h; simpa using hne
        · exact h2 g h
      · rw [h3]; simp
      · intro g hg
        rcases List.mem_cons.mp hg with h | h
        · subst h
          rcases hinv with h | h
          · right; simpa using h
          · left; omega
        · exact h4 g h
    · -- append p to the running chunk
      rename_i hcond
      have hle : curLen + (p.length + 2) ≤ 800 := by
        rcases Decidable.em (curLen + (p.length + 2) > 800) with h | h
        · exact absurd ⟨h, hne⟩ hcond
        · omega
      have hrev : (p :: cur).reverse = cur.reverse ++ [p] := by simp
      have hjoin : joinPar ((p :: cur).reverse) = joinPar cur.reverse ++ '\n' :: '\n' :: p := by
        rw [hrev, joinPar_append_single _ _ (by simpa using hne)]
      obtain ⟨pss', h1, h2, h3, h4⟩ := ih (p :: cur) (curLen + (p.length + 2))
        (by simp)
        (by rw [hjoin]; simp only [List.length_append, List.length_cons]; omega)
        (Or.inr hle)
      refine ⟨pss', ?_, h2, h3, h4⟩
      rw [h1, hrev]
      simp

/-- C4 (amended): the chunks produced with the 800-character budget are
the blank-line joins of an in-order partition of the paragraph list into
nonempty consecutive groups — no paragraph is split or truncated — and
every chunk's protected-text length (its own string length, i.e. each
paragraph after the first contributing its length plus 2) is at most 800
unless the chunk consists of exactly one paragraph whose own length
exceeds the budget.  Both scripts' `chunk_paragraphs` agree. -/
theorem c4_chunk_bound_amended : ∀ ps : List (List Char),
    chunkParagraphsJa 800 ps = chunkParagraphs 800 ps ∧
    ∃ pss : List (List (List Char)),
      pss.flatten = ps ∧
      (∀ g ∈ pss, g ≠ []) ∧
      chunkParagraphs 800 ps = pss.map joinPar ∧
      ∀ g ∈ pss, (joinPar g).length ≤ 800 ∨ (∃ p, g = [p] ∧ 800 < p.length) := by
  intro ps
  constructor
  · -- the two scripts' flush conditions are the same conjunction
    suffices h : ∀ (l : List (List Char)) (cur : List (List Char)) (n : Nat),
        chunkGoJa 800 cur n l = chunkGo 800 cur n l by
      exact h ps [] 0
    intro l
    induction l with
    | nil => intro cur n; simp [chunkGo, chunkGoJa]
    | cons p t ih =>
      intro cur n
      rw [chunkGo.eq_def, chunkGoJa.eq_def]
      simp only
      rw [ih, ih]
      rcases Decidable.em (cur = []) with h1 | h1 <;>
        rcases Decidable.em (n + (p.length + 2) > 800) with h2 | h2 <;>
          simp [h1, h2]
  · cases ps with
    | nil => exact ⟨[], by simp, by simp, by simp [chunkParagraphs, chunkGo], by simp⟩
    | cons p ps =>
      have hstep : chunkParagraphs 800 (p :: ps) =
          chunkGo 800 [p] (0 + (p.length + 2)) ps := by
        rw [chunkParagraphs, chunkGo.eq_def]
        simp
      obtain ⟨pss, h1, h2, h3, h4⟩ := chunkGo_spec ps [p] (0 + (p.length + 2))
        (by simp) (by simp [joinPar_single]) (Or.inl (by simp))
      refine ⟨pss, by simpa using h1, h2, by rw [hstep, h3], ?_⟩
      intro g hg
      rcases h4 g hg with h | h
      · exact Or.inl h
      · rcases Decidable.em ((joinPar g).length ≤ 800) with h5 | h5
        · exact Or.inl h5
        · right
          obtain ⟨q, hq⟩ : ∃ q, g = [q] := by
            cases g with
            | nil => simp at h
            | cons a t =>
              cases t with
              | nil => exact ⟨a, rfl⟩
              | cons b t2 => simp at h
          refine ⟨q, hq, ?_⟩
          rw [hq, joinPar_single] at h5
          omega

/-! ### Claim C1 -/

/-- A document whose fenced code block contains a bracketed annotation
reference. -/
def c1doc : List Char := "```\n[annotation: a]\n```".data

/-- C1 counterexample: the middle segment of `c1doc` is Code-tagged with
content `[annotation: a]`, yet that content does not appear in the final
pipeline output (`translate_markdown` then `normalize_annotations`): the
normalizer rewrites it inside the code fence. -/
theorem c1_counterexample :
    (segmentDoc c1doc)[1]? = some (true, "[annotation: a]".data) ∧
    containsSeq ("[annotation: a]".data)
      (normalizeAnnoLinks (translateMarkdown c1doc idTf)) = false := by
  constructor
  · simp [c1doc, segmentDoc, pySplitlines, slGo, segGo, fenceLine, leadsWith, pySpace,
      joinNl, List.intercalate, List.intersperse]
  · simp [c1doc, segmentDoc, pySplitlines, slGo, segGo, fenceLine, leadsWith, pySpace,
      translateMarkdown, translateSegment, splitPar, spGo, protectInline, picGo, btick,
      chunkParagraphs, chunkGo, joinPar, joinNl, translateChunk, pyStrip, restoreLoop,
      restoreInline, List.intercalate, List.intersperse, idTf,
      normalizeAnnoLinks, annPass1, annPass2, annPass3, annPass4, pass4Go,
      tm1, tm2, tm3, tm4, parseWsSlug, slugChar, annLink, slugToTitle, pyTitle, titleGo,
      annTarget, containsSeq]

/-- C1 (amended): the content of every Code-tagged segment is unchanged
through `translate_markdown` — it appears verbatim, at its segment's
position, in the per-segment outputs that are joined into the reassembled
document.  (The subsequent `normalize_annotations` pass can still alter
code content, as the counterexample shows.) -/
theorem c1_code_immunity_amended : ∀ (content : List Char) (tf : TranslateFn),
    ∃ outs : List (List Char),
      translateMarkdown content tf = joinNl outs ∧
      outs.length = (segmentDoc content).length ∧
      ∀ (i : Nat) (seg : Bool × List Char),
        (segmentDoc content)[i]? = some seg → seg.1 = true →
          outs[i]? = some seg.2 := by
  intro content tf
  refine ⟨(segmentDoc content).map (fun s => if s.1 then s.2 else translateSegment tf s.2),
    by rfl, by simp, ?_⟩
  intro i seg h1 h2
  rw [List.getElem?_map, h1]
  simp [h2]

/-- C1 witness: the amended claim applied to `c1doc` and the identity
translator, at the Code-tagged segment of index 1. -/
theorem c1_code_immunity_amended_witness :
    ∃ outs : List (List Char),
      translateMarkdown c1doc idTf = joinNl outs ∧
      outs.length = (segmentDoc c1doc).length ∧
      outs[1]? = some ("[annotation: a]".data) := by
  obtain ⟨outs, h1, h2, h3⟩ := c1_code_immunity_amended c1doc idTf
  refine ⟨outs, h1, h2, ?_⟩
  refine h3 1 (true, "[annotation: a]".data) ?_ rfl
  simp [c1doc, segmentDoc, pySplitlines, slGo, segGo, fenceLine, leadsWith, pySpace,
    joinNl, List.intercalate, List.intersperse]

/-! ### Claim C2 -/

theorem intercalate_append_sep (sep : List Char) :
    ∀ (xs ys : List (List Char)), xs ≠ [] → ys ≠ [] →
    List.intercalate sep (xs ++ ys) =
      List.intercalate sep xs ++ sep ++ List.intercalate sep ys := by
  intro xs
  induction xs with
  | nil => intro ys h _; exact absurd rfl h
  | cons a t ih =>
    intro ys _ hy
    cases t with
    | nil =>
      cases ys with
      | nil => exact absurd rfl hy
      | cons b yt =>
        have h1 : ([a] ++ b :: yt) = a :: b :: yt := by simp
        rw [h1, intercalate_cons₂, intercalate_single]
    | cons c t2 =>
      have h2 := ih ys (by simp) hy
      have h3 : ((a :: c :: t2) ++ ys) = a :: ((c :: t2) ++ ys) := by simp
      rw [h3]
      have h4 : ((c :: t2) ++ ys) = c :: (t2 ++ ys) := by simp
      rw [h4, intercalate_cons₂, intercalate_cons₂]
      rw [h4] at h2
      rw [h2]
      simp [List.append_assoc]

theorem joinNl_single (a : List Char) : joinNl [a] = a :=
  intercalate_single _ a

theorem joinNl_cons₂ (a b : List Char) (l : List (List Char)) :
    joinNl (a :: b :: l) = a ++ '\n' :: joinNl (b :: l) := by
  simpa using intercalate_cons₂ ['\n'] a b l

theorem joinPar_append (xs ys : List (List Char)) (hx : xs ≠ []) (hy : ys ≠ []) :
    joinPar (xs ++ ys) = joinPar xs ++ '\n' :: '\n' :: joinPar ys := by
  simp only [joinPar]
  rw [intercalate_append_sep ['\n', '\n'] xs ys hx hy]
  simp

theorem joinNl_append (xs ys : List (List Char)) (hx : xs ≠ []) (hy : ys ≠ []) :
    joinNl (xs ++ ys) = joinNl xs ++ '\n' :: joinNl ys := by
  simp only [joinNl]
  rw [intercalate_append_sep ['\n'] xs ys hx hy]
  simp

theorem spGo_join_aux : ∀ (n : Nat) (s : List Char), s.length ≤ n → ∀ cur : List Char,
    spGo cur s ≠ [] ∧ joinPar (spGo cur s) = cur.reverse ++ s := by
  intro n
  induction n with
  | zero =>
    intro s hs cur
    have h0 : s = [] := List.length_eq_zero.mp (Nat.le_zero.mp hs)
    subst h0
    exact ⟨by simp [spGo], by simp [spGo, joinPar_single]⟩
  | succ n ih =>
    intro s hs cur
    cases s with
    | nil => exact ⟨by simp [spGo], by simp [spGo, joinPar_single]⟩
    | cons c cs =>
      rw [spGo.eq_def]
      split
      · simp_all
      · rename_i rest heq
        injection heq with h1 h2
        subst h2
        have hlen : rest.length ≤ n := by
          simp only [List.length_cons] at hs
          omega
        obtain ⟨hne, hjoin⟩ := ih rest hlen []
        constructor
        · simp
        · cases hR : spGo [] rest with
          | nil => exact absurd hR hne
          | cons r0 rt =>
            rw [hR] at hjoin
            rw [joinPar_cons₂, hjoin]
            simp [h1]
      · rename_i c' cs' heq
        injection heq with h1 h2
        subst h1; subst h2
        have hlen : cs.length ≤ n := by
          simp only [List.length_cons] at hs
          omega
        obtain ⟨hne, hjoin⟩ := ih cs hlen (c :: cur)
        refine ⟨hne, ?_⟩
        rw [hjoin]
        simp

theorem splitPar_ne_nil (s : List Char) : splitPar s ≠ [] :=
  (spGo_join_aux s.length s le_rfl []).1

theorem joinPar_splitPar (s : List Char) : joinPar (splitPar s) = s := by
  have := (spGo_join_aux s.length s le_rfl []).2
  simpa [splitPar] using this

theorem segGo_ne_nil : ∀ (lines : List (List Char)) (inCode : Bool) (buf : List (List Char)),
    ¬(buf = [] ∧ lines = []) → segGo inCode buf lines ≠ [] := by
  intro lines
  induction lines with
  | nil =>
    intro inCode buf h
    have hb : buf ≠ [] := fun he => h ⟨he, rfl⟩
    simp [segGo, List.isEmpty_iff, hb]
  | cons l ls ih =>
    intro inCode buf _
    rw [segGo.eq_def]
    split
    · simp_all
    · rename_i l2 ls2 heq
      injection heq with h1 h2
      subst h1; subst h2
      by_cases hf : fenceLine l
      · rw [if_pos hf]
        simp
      · rw [if_neg hf]
        exact ih inCode (l :: buf) (by simp)

theorem nonempty_flatten {pss : List (List (List Char))}
    (h : ∀ g ∈ pss, g ≠ []) (hne : pss ≠ []) : pss.flatten ≠ [] := by
  cases pss with
  | nil => exact absurd rfl hne
  | cons g t =>
    have hg := h g (by simp)
    cases g with
    | nil => exact absurd rfl hg
    | cons p pt => simp

theorem joinPar_map_joinPar : ∀ (pss : List (List (List Char))),
    (∀ g ∈ pss, g ≠ []) → joinPar (pss.map joinPar) = joinPar pss.flatten := by
  intro pss
  induction pss with
  | nil => intro _; rfl
  | cons g t ih =>
    intro h
    cases t with
    | nil => simp [joinPar_single]
    | cons g2 t2 =>
      have h2 := ih (fun x hx => h x (List.mem_cons_of_mem g hx))
      have hg : g ≠ [] := h g (by simp)
      have htne : (g2 :: t2).flatten ≠ [] :=
        nonempty_flatten (fun x hx => h x (List.mem_cons_of_mem g hx)) (by simp)
      rw [List.map_cons, List.flatten_cons]
      have hx : joinPar (joinPar g :: List.map joinPar (g2 :: t2)) =
          joinPar g ++ '\n' :: '\n' :: joinPar (List.map joinPar (g2 :: t2)) := by
        rw [List.map_cons, joinPar_cons₂]
      rw [hx, h2, joinPar_append g ((g2 :: t2).flatten) hg htne]

/-- The blank-line join of the chunks is the blank-line join of the
paragraphs. -/
theorem joinPar_chunkParagraphs (ps : List (List Char)) :
    joinPar (chunkParagraphs 800 ps) = joinPar ps := by
  cases ps with
  | nil => rfl
  | cons p t =>
    have hstep : chunkParagraphs 800 (p :: t) =
        chunkGo 800 [p] (0 + (p.length + 2)) t := by
      rw [chunkParagraphs, chunkGo.eq_def]
      simp
    obtain ⟨pss, h1, h2, h3, _⟩ := chunkGo_spec t [p] (0 + (p.length + 2))
      (by simp) (by simp [joinPar_single]) (Or.inl (by simp))
    rw [hstep, h3, joinPar_map_joinPar pss h2, h1]
    simp

theorem restoreLoop_trivial : ∀ (phs : List PhMap) (tps : List (List Char)),
    (∀ m ∈ phs, m = []) → restoreLoop phs tps = tps := by
  intro phs tps
  induction tps generalizing phs with
  | nil => intro _; cases phs <;> rfl
  | cons tp t ih =>
    intro h
    cases phs with
    | nil => simp [restoreLoop, ih [] (by simp)]
    | cons m mt =>
      have hm : m = [] := h m (by simp)
      subst hm
      simp [restoreLoop, restoreInline, ih mt (fun x hx => h x (List.mem_cons_of_mem [] hx))]

/-- With the identity translator every chunk becomes its stripped self. -/
theorem translateChunk_id (ch : List Char) : translateChunk idTf ch = pyStrip ch := by
  simp only [translateChunk, idTf]
  split
  · rfl
  · rfl

/-- A text segment whose paragraphs are protection-trivial and whose
chunks are strip-invariant passes through the identity translation
unchanged. -/
theorem translateSegment_id (seg : List Char)
    (hprot : ∀ p ∈ splitPar seg, protectInline p = (p, []))
    (hstrip : ∀ ch ∈ chunkParagraphs 800 (splitPar seg), pyStrip ch = ch) :
    translateSegment idTf seg = seg := by
  have hmap : (splitPar seg).map protectInline = (splitPar seg).map (fun p => (p, [])) :=
    List.map_congr_left hprot
  have hfst : ((splitPar seg).map protectInline).map Prod.fst = splitPar seg := by
    rw [hmap, List.map_map]
    simp [Function.comp_def]
  have hsnd : ∀ m ∈ ((splitPar seg).map protectInline).map Prod.snd, m = ([] : PhMap) := by
    intro m hm
    rw [hmap, List.map_map] at hm
    obtain ⟨p, -, hp⟩ := List.mem_map.mp hm
    exact hp.symm
  have hchunks : (chunkParagraphs 800 (splitPar seg)).map (translateChunk idTf) =
      chunkParagraphs 800 (splitPar seg) := by
    rw [List.map_congr_left (fun ch hch => (translateChunk_id ch).trans (hstrip ch hch))]
    exact List.map_id _
  simp only [translateSegment]
  rw [hfst, hchunks, joinPar_chunkParagraphs, joinPar_splitPar]
  by_cases hse : seg.isEmpty
  · have h0 : seg = [] := List.isEmpty_iff.mp hse
    subst h0
    simp [restoreLoop, joinPar, List.intercalate]
  · rw [if_neg (by simp [hse])]
    rw [restoreLoop_trivial _ _ hsnd, joinPar_splitPar]

/-- The newline-join of the segment contents is the newline-join of the
lines, whatever the fence structure. -/
theorem segGo_join : ∀ (lines : List (List Char)) (inCode : Bool) (buf : List (List Char)),
    joinNl ((segGo inCode buf lines).map Prod.snd) = joinNl (buf.reverse ++ lines) := by
  intro lines
  induction lines with
  | nil =>
    intro inCode buf
    by_cases hb : buf.isEmpty
    · have h0 : buf = [] := List.isEmpty_iff.mp hb
      subst h0
      simp [segGo]
    · simp [segGo, hb, joinNl_single]
  | cons l ls ih =>
    intro inCode buf
    rw [segGo.eq_def]
    simp only
    by_cases hf : fenceLine l
    · rw [if_pos hf]
      have hinner : joinNl (l :: (segGo (!inCode) [] ls).map Prod.snd) = joinNl (l :: ls) := by
        cases hls : ls with
        | nil => simp [segGo, joinNl_single]
        | cons m mt =>
          have hne : segGo (!inCode) [] (m :: mt) ≠ [] := segGo_ne_nil _ _ _ (by simp)
          cases hsg : segGo (!inCode) [] (m :: mt) with
          | nil => exact absurd hsg hne
          | cons s0 st =>
            have hih := ih (!inCode) []
            rw [hls, hsg] at hih
            simp only [List.reverse_nil, List.nil_append] at hih
            rw [List.map_cons, joinNl_cons₂]
            rw [List.map_cons] at hih
            rw [hih, ← joinNl_cons₂]
      by_cases hb : buf.isEmpty
      · have h0 : buf = [] := List.isEmpty_iff.mp hb
        subst h0
        rw [if_pos hb]
        simpa using hinner
      · have hbn : buf ≠ [] := fun he => hb (by rw [he]; rfl)
        rw [if_neg hb]
        have hlhs : ((inCode, joinNl buf.reverse) :: (true, l) :: segGo (!inCode) [] ls).map
            Prod.snd = joinNl buf.reverse :: l :: (segGo (!inCode) [] ls).map Prod.snd := by
          simp
        rw [List.singleton_append, hlhs, joinNl_cons₂, hinner,
          joinNl_append buf.reverse (l :: ls) (by simpa using hbn) (by simp)]
    · rw [if_neg hf]
      rw [ih inCode (l :: buf)]
      simp

/-- The contents of the Segmenter's output join back to the newline-join
of the document's lines. -/
theorem segment_contents_join (content : List Char) :
    joinNl ((segmentDoc content).map Prod.snd) = joinNl (pySplitlines content) := by
  have := segGo_join (pySplitlines content) false []
  simpa [segmentDoc] using this

/-- C2 counterexample: the document `" a\n"` has an even (zero) number of
fence lines and no protected span, yet the concatenation of the segment
contents is `" a"` (the trailing newline is lost by `splitlines`) and the
identity translation returns `"a"` (the chunk is stripped). -/
theorem c2_counterexample :
    ((pySplitlines (" a\n".data)).filter fenceLine).length = 0 ∧
    protectInline (" a".data) = ((" a".data), []) ∧
    joinNl ((segmentDoc (" a\n".data)).map Prod.snd) ≠ (" a\n".data) ∧
    translateMarkdown (" a\n".data) idTf ≠ (" a\n".data) := by
  refine ⟨?_, ?_, ?_, ?_⟩
  · simp [pySplitlines, slGo, fenceLine, leadsWith, pySpace]
  · simp [protectInline, picGo, btick]
  · have h1 : joinNl ((segmentDoc (" a\n".data)).map Prod.snd) = (" a".data) := by
      simp [segmentDoc, pySplitlines, slGo, segGo, fenceLine, leadsWith, pySpace,
        joinNl, List.intercalate, List.intersperse]
    rw [h1]
    decide
  · have h2 : translateMarkdown (" a\n".data) idTf = ("a".data) := by
      simp [translateMarkdown, segmentDoc, pySplitlines, slGo, segGo, fenceLine, leadsWith,
        pySpace, translateSegment, splitPar, spGo, protectInline, picGo, btick,
        chunkParagraphs, chunkGo, joinPar, joinNl, translateChunk, pyStrip,
        restoreLoop, restoreInline, List.intercalate, List.intersperse, idTf]
    rw [h2]
    decide

/-- C2 (amended): for every document that its line splitting reproduces
(all line separators are `\n` and there is no trailing one), the
concatenation of all segment contents joined by `\n` reproduces the
document exactly — no fence-parity condition is needed; and
`translate_markdown` with the identity translation returns the document
unchanged provided additionally that every paragraph of every text
segment is protection-trivial (no protected span) and every produced
chunk equals its own stripped form. -/
theorem c2_fence_roundtrip_amended (content : List Char)
    (hsep : joinNl (pySplitlines content) = content)
    (hseg : ∀ s ∈ segmentDoc content, s.1 = false →
      (∀ p ∈ splitPar s.2, protectInline p = (p, [])) ∧
      (∀ ch ∈ chunkParagraphs 800 (splitPar s.2), pyStrip ch = ch)) :
    joinNl ((segmentDoc content).map Prod.snd) = content ∧
    translateMarkdown content idTf = content := by
  have ha : joinNl ((segmentDoc content).map Prod.snd) = content := by
    rw [segment_contents_join, hsep]
  refine ⟨ha, ?_⟩
  rw [translateMarkdown]
  have hm : (segmentDoc content).map (fun s => if s.1 then s.2 else translateSegment idTf s.2)
      = (segmentDoc content).map Prod.snd := by
    apply List.map_congr_left
    intro s hs
    by_cases h1 : s.1 = true
    · simp [h1]
    · rw [if_neg h1]
      have h2 := hseg s hs (by simpa using h1)
      exact translateSegment_id s.2 h2.1 h2.2
  rw [hm, ha]

/-- A document with two text paragraphs and a fenced block, reproduced by
its line splitting. -/
def c2doc : List Char := "a\n\nb\n```\nc\n```".data

/-- C2 witness: the amended claim applied to `c2doc`. -/
theorem c2_fence_roundtrip_amended_witness :
    joinNl (pySplitlines c2doc) = c2doc ∧
    joinNl ((segmentDoc c2doc).map Prod.snd) = c2doc ∧
    translateMarkdown c2doc idTf = c2doc := by
  have hsep : joinNl (pySplitlines c2doc) = c2doc := by
    simp [c2doc, pySplitlines, slGo, joinNl, List.intercalate, List.intersperse]
  have hsegs : segmentDoc c2doc =
      [(false, "a\n\nb".data), (true, "```".data), (true, "c".data), (true, "```".data)] := by
    simp [c2doc, segmentDoc, pySplitlines, slGo, segGo, fenceLine, leadsWith, pySpace,
      joinNl, List.intercalate, List.intersperse]
  have hmain := c2_fence_roundtrip_amended c2doc hsep ?_
  · exact ⟨hsep, hmain.1, hmain.2⟩
  · intro s hs h1
    rw [hsegs] at hs
    simp only [List.mem_cons, List.not_mem_nil, or_false] at hs
    rcases hs with rfl | rfl | rfl | rfl
    · constructor
      · intro p hp
        have hsp : splitPar ("a\n\nb".data) = [("a".data), ("b".data)] := by
          simp [splitPar, spGo]
        rw [hsp] at hp
        simp only [List.mem_cons, List.not_mem_nil, or_false] at hp
        rcases hp with rfl | rfl
        · simp [protectInline, picGo, btick]
        · simp [protectInline, picGo, btick]
      · intro ch hch
        have hsp : splitPar ("a\n\nb".data) = [("a".data), ("b".data)] := by
          simp [splitPar, spGo]
        have hck : chunkParagraphs 800 [("a".data), ("b".data)] = [("a\n\nb".data)] := by
          simp [chunkParagraphs, chunkGo, joinPar, List.intercalate, List.intersperse]
        rw [hsp, hck] at hch
        simp only [List.mem_cons, List.not_mem_nil, or_false] at hch
        subst hch
        simp [pyStrip, pySpace, List.dropWhile]
    · exact absurd h1 (by simp)
    · exact absurd h1 (by simp)
    · exact absurd h1 (by simp)


/-! ### Claim C8: occurrence infrastructure -/

/-- `pat` occurs contiguously somewhere in `s`. -/
def Occurs (pat s : List Char) : Prop := ∃ X Y, s = X ++ pat ++ Y

theorem occurs_of_leadsWith {pat s : List Char} (h : leadsWith pat s = true) :
    Occurs pat s := by
  obtain ⟨t, ht⟩ := leadsWith_iff.mp h
  exact ⟨[], t, by simpa using ht⟩

theorem containsSeq_iff_occurs {pat s : List Char} :
    containsSeq pat s = true ↔ Occurs pat s := by
  induction s with
  | nil =>
    simp only [containsSeq, List.isEmpty_iff]
    constructor
    · rintro rfl; exact ⟨[], [], rfl⟩
    · rintro ⟨X, Y, hXY⟩
      exact (List.append_eq_nil.mp (List.append_eq_nil.mp hXY.symm).1).2
  | cons c cs ih =>
    simp only [containsSeq, Bool.or_eq_true, ih]
    constructor
    · rintro (h | ⟨X, Y, hXY⟩)
      · exact occurs_of_leadsWith h
      · exact ⟨c :: X, Y, by simp [hXY]⟩
    · rintro ⟨X, Y, hXY⟩
      cases X with
      | nil =>
        left
        rw [leadsWith_iff]
        exact ⟨Y, by simpa using hXY⟩
      | cons x X' =>
        right
        injection hXY with h1 h2
        exact ⟨X', Y, h2⟩

theorem not_occurs_of_containsSeq_false {pat s : List Char}
    (h : containsSeq pat s = false) : ¬ Occurs pat s := by
  intro ho
  rw [← containsSeq_iff_occurs] at ho
  rw [h] at ho
  exact absurd ho (by simp)

theorem occurs_infix {pat a X Y : List Char} (h : Occurs pat a) :
    Occurs pat (X ++ a ++ Y) := by
  obtain ⟨A, B, hab⟩ := h
  exact ⟨X ++ A, B ++ Y, by simp [hab, List.append_assoc]⟩

theorem occurs_mid (pat X Y : List Char) : Occurs pat (X ++ pat ++ Y) := ⟨X, Y, rfl⟩

/-- Splitting an occurrence of `pat` across an append: it lies in the left
part, in the right part, or spans the junction. -/
theorem split_three {u v x y pat : List Char} (h : u ++ v = x ++ pat ++ y) :
    (∃ w, u = x ++ pat ++ w ∧ y = w ++ v) ∨
    (∃ w, x = u ++ w ∧ v = w ++ pat ++ y) ∨
    (∃ p1 p2, pat = p1 ++ p2 ∧ p1 ≠ [] ∧ p2 ≠ [] ∧ u = x ++ p1 ∧ v = p2 ++ y) := by
  rcases le_or_lt (x.length + pat.length) u.length with h1 | h1
  · left
    have hu : u = x ++ pat ++ y.take (u.length - x.length - pat.length) := by
      have hu0 : u = (u ++ v).take u.length := by simp
      rw [h, List.append_assoc, List.take_append_eq_append_take,
        List.take_append_eq_append_take] at hu0
      rw [List.take_of_length_le (by omega), List.take_of_length_le (by omega)] at hu0
      rw [hu0]
      simp [List.append_assoc]
    refine ⟨y.take (u.length - x.length - pat.length), hu, ?_⟩
    have hv : v = y.drop (u.length - x.length - pat.length) := by
      have hv0 : v = (u ++ v).drop u.length := by simp
      rw [h, List.append_assoc, List.drop_append_eq_append_drop,
        List.drop_append_eq_append_drop] at hv0
      rw [List.drop_of_length_le (by omega), List.drop_of_length_le (by omega)] at hv0
      simpa using hv0
    rw [hv, List.take_append_drop]
  · rcases le_or_lt u.length x.length with h2 | h2
    · right; left
      refine ⟨v.take (x.length - u.length), ?_, ?_⟩
      · have hx0 : x = (x ++ (pat ++ y)).take x.length := by simp
        rw [← List.append_assoc, ← h, List.take_append_eq_append_take,
          List.take_of_length_le h2] at hx0
        exact hx0
      · have hv0 : v.drop (x.length - u.length) = pat ++ y := by
          have : (u ++ v).drop x.length = (x ++ (pat ++ y)).drop x.length := by
            rw [← List.append_assoc, ← h]
          rw [List.drop_append_eq_append_drop, List.drop_of_length_le h2,
            List.nil_append] at this
          simpa using this
        rw [List.append_assoc, ← hv0, List.take_append_drop]
    · right; right
      refine ⟨pat.take (u.length - x.length), pat.drop (u.length - x.length), by simp, ?_, ?_, ?_, ?_⟩
      · intro he
        have hl2 := congrArg List.length he
        rw [List.length_take] at hl2
        simp only [List.length_nil] at hl2
        omega
      · intro he
        have hl2 := congrArg List.length he
        rw [List.length_drop] at hl2
        simp only [List.length_nil] at hl2
        omega
      · have hu0 : u = (u ++ v).take u.length := by simp
        rw [h, List.append_assoc, List.take_append_eq_append_take,
          List.take_append_eq_append_take] at hu0
        rw [List.take_of_length_le (by omega)] at hu0
        have hz : u.length - x.length - pat.length = 0 := by omega
        rw [hz] at hu0
        simpa [List.append_assoc] using hu0
      · have hv0 : v = (u ++ v).drop u.length := by simp
        rw [h, List.append_assoc, List.drop_append_eq_append_drop,
          List.drop_append_eq_append_drop] at hv0
        rw [List.drop_of_length_le (by omega)] at hv0
        have hz : u.length - x.length - pat.length = 0 := by omega
        rw [hz] at hv0
        simpa using hv0


/-! ### Decimal numerals: `Nat.repr` as a character list -/

/-- The decimal digit characters of `n`, most significant first:
specification of core's `Nat.toDigits 10`. -/
def natChars (n : Nat) : List Char :=
  if n < 10 then [Nat.digitChar n] else natChars (n / 10) ++ [Nat.digitChar (n % 10)]
termination_by n
decreasing_by
  exact Nat.div_lt_self (by omega) (by omega)

theorem digitChar_isDigit {k : Nat} (h : k < 10) : (Nat.digitChar k).isDigit = true := by
  interval_cases k <;> decide

theorem digitChar_toNat {k : Nat} (h : k < 10) : (Nat.digitChar k).toNat = k + 48 := by
  interval_cases k <;> decide

theorem natChars_ne_nil (n : Nat) : natChars n ≠ [] := by
  rw [natChars]
  split
  · simp
  · simp

theorem natChars_digits : ∀ n : Nat, ∀ c ∈ natChars n, c.isDigit = true := by
  intro n
  induction n using Nat.strong_induction_on with
  | _ n ih =>
    intro c hc
    rw [natChars] at hc
    split at hc
    · rename_i h
      rw [List.mem_singleton] at hc
      subst hc
      exact digitChar_isDigit h
    · rename_i h
      rcases List.mem_append.mp hc with h2 | h2
      · exact ih (n / 10) (Nat.div_lt_self (by omega) (by omega)) c h2
      · rw [List.mem_singleton] at h2
        subst h2
        exact digitChar_isDigit (Nat.mod_lt n (by omega))

/-- Evaluate a digit string back to the number. -/
def evalDigits (l : List Char) : Nat :=
  l.foldl (fun a c => 10 * a + (c.toNat - 48)) 0

theorem evalDigits_go : ∀ (l : List Char) (a : Nat),
    l.foldl (fun a c => 10 * a + (c.toNat - 48)) a =
      a * 10 ^ l.length + evalDigits l := by
  intro l
  induction l with
  | nil => intro a; simp [evalDigits]
  | cons c cs ih =>
    intro a
    simp only [List.foldl_cons, evalDigits] at ih ⊢
    rw [ih, ih (10 * 0 + (c.toNat - 48))]
    simp only [List.length_cons]
    ring

theorem evalDigits_natChars : ∀ n : Nat, evalDigits (natChars n) = n := by
  intro n
  induction n using Nat.strong_induction_on with
  | _ n ih =>
    rw [natChars]
    split
    · rename_i h
      simp [evalDigits, digitChar_toNat h]
    · rename_i h
      have ih2 := ih (n / 10) (Nat.div_lt_self (by omega) (by omega))
      simp only [evalDigits, List.foldl_append, List.foldl_cons, List.foldl_nil]
      rw [show (List.foldl (fun a c => 10 * a + (c.toNat - 48)) 0 (natChars (n / 10))) =
        evalDigits (natChars (n / 10)) from rfl, ih2,
        digitChar_toNat (Nat.mod_lt n (by omega))]
      omega

theorem natChars_inj {a b : Nat} (h : natChars a = natChars b) : a = b := by
  have := congrArg evalDigits h
  rwa [evalDigits_natChars, evalDigits_natChars] at this

theorem toDigitsCore_eq_natChars : ∀ (f n : Nat) (acc : List Char), n < f →
    Nat.toDigitsCore 10 f n acc = natChars n ++ acc := by
  intro f
  induction f with
  | zero => intro n acc h; omega
  | succ f ih =>
    intro n acc h
    rw [Nat.toDigitsCore]
    by_cases h0 : n / 10 = 0
    · have hn : n < 10 := by omega
      simp only [h0, if_true]
      rw [natChars, if_pos hn, Nat.mod_eq_of_lt hn]
      simp
    · have hn : ¬ n < 10 := by
        intro h2
        exact h0 (Nat.div_eq_of_lt h2)
      simp only [h0, if_false]
      rw [ih (n / 10) _ (by
        have := Nat.div_lt_self (show 0 < n by omega) (show 1 < 10 by omega)
        omega)]
      conv_rhs => rw [natChars]
      rw [if_neg hn]
      simp [List.append_assoc]

theorem repr_data_eq_natChars (n : Nat) : (Nat.repr n).data = natChars n := by
  show (Nat.toDigits 10 n).asString.data = natChars n
  rw [Nat.toDigits, toDigitsCore_eq_natChars (n + 1) n [] (by omega)]
  simp [List.asString]


/-! ### Placeholder-key shape facts -/

/-- The distinctive placeholder core `INLINE_CODE_`. -/
def ICU : List Char := "INLINE_CODE_".data

theorem phKey_eq (n : Nat) :
    phKey n = ('_' :: '_' :: ICU) ++ natChars n ++ ['_', '_'] := by
  rw [phKey, repr_data_eq_natChars]
  rfl

theorem digit_not_special {c : Char} (h : c.isDigit = true) :
    c ≠ '_' ∧ c ≠ btick := by
  constructor
  · rintro rfl
    exact absurd h (by decide)
  · rintro rfl
    exact absurd h (by decide)

theorem btick_not_mem_phKey (n : Nat) : btick ∉ phKey n := by
  rw [phKey_eq]
  intro hmem
  rcases List.mem_append.mp hmem with h1 | h1
  · rcases List.mem_append.mp h1 with h2 | h2
    · exact absurd h2 (by decide)
    · exact ((digit_not_special (natChars_digits n _ h2)).2 rfl).elim
  · exact absurd h1 (by decide)

theorem occurs_ICU_phKey (n : Nat) : Occurs ICU (phKey n) :=
  ⟨['_', '_'], natChars n ++ ['_', '_'], by rw [phKey_eq]; simp [List.append_assoc]⟩

theorem phKey_ne_nil (n : Nat) : phKey n ≠ [] := by
  rw [phKey_eq]
  simp

theorem leadsWith_append_left {A B s : List Char} (h : leadsWith (A ++ B) s = true) :
    leadsWith A s = true := by
  obtain ⟨t, ht⟩ := leadsWith_iff.mp h
  exact leadsWith_iff.mpr ⟨B ++ t, by rw [ht]; simp [List.append_assoc]⟩

theorem digits_prefix_eq : ∀ (d1 d2 u v : List Char),
    (∀ c ∈ d1, c.isDigit = true) → (∀ c ∈ d2, c.isDigit = true) →
    d1 ++ ('_' :: u) = d2 ++ ('_' :: v) → d1 = d2 := by
  intro d1
  induction d1 with
  | nil =>
    intro d2 u v _ h2 he
    cases d2 with
    | nil => rfl
    | cons b d2' =>
      injection he with hb _
      exact (((digit_not_special (h2 b (by simp))).1) hb.symm).elim
  | cons a d1' ih =>
    intro d2 u v h1 h2 he
    cases d2 with
    | nil =>
      injection he with hb _
      exact (((digit_not_special (h1 a (by simp))).1) hb).elim
    | cons b d2' =>
      injection he with hb ht
      rw [hb, ih d2' u v (fun c hc => h1 c (by simp [hc])) (fun c hc => h2 c (by simp [hc])) ht]

/-- A placeholder key can be a prefix of another key (plus arbitrary tail)
only when the indices agree. -/
theorem phKey_prefix_phKey {j m : Nat} {z : List Char}
    (h : leadsWith (phKey j) (phKey m ++ z) = true) : j = m := by
  obtain ⟨t, ht⟩ := leadsWith_iff.mp h
  rw [phKey_eq, phKey_eq] at ht
  have ht2 : ('_' :: '_' :: ICU) ++ (natChars m ++ ('_' :: '_' :: z)) =
      ('_' :: '_' :: ICU) ++ (natChars j ++ ('_' :: '_' :: t)) := by
    have h1 : (('_' :: '_' :: ICU) ++ natChars m ++ ['_', '_']) ++ z =
        ('_' :: '_' :: ICU) ++ (natChars m ++ ('_' :: '_' :: z)) := by
      simp [List.append_assoc]
    have h2 : (('_' :: '_' :: ICU) ++ natChars j ++ ['_', '_']) ++ t =
        ('_' :: '_' :: ICU) ++ (natChars j ++ ('_' :: '_' :: t)) := by
      simp [List.append_assoc]
    rw [← h1, ← h2, ht]
  have ht3 := List.append_cancel_left ht2
  have hd := digits_prefix_eq (natChars m) (natChars j) ('_' :: z) ('_' :: t)
    (natChars_digits m) (natChars_digits j) ht3
  exact (natChars_inj hd).symm

/-! ### The structure of protected text -/

/-- The protected form of a parsed paragraph: fragments interleaved with
placeholder keys numbered consecutively from `n`. -/
def protStr : Nat → List (List Char × List Char) → List Char → List Char
  | _, [], tf => tf
  | n, (a, _run) :: rest, tf => a ++ phKey n ++ protStr (n + 1) rest tf

/-- The original form: fragments interleaved with the backtick spans. -/
def origStr : List (List Char × List Char) → List Char → List Char
  | [], tf => tf
  | (a, run) :: rest, tf => a ++ (btick :: (run ++ [btick])) ++ origStr rest tf

/-- The recorded placeholder mapping of a parsed paragraph. -/
def phsOf : Nat → List (List Char × List Char) → PhMap
  | _, [] => []
  | n, (a, run) :: rest => (phKey n, btick :: (run ++ [btick])) :: phsOf (n + 1) rest

/-- Well-formedness: no fragment, no span body and no tail fragment
contains the placeholder core. -/
def ItemsOK (items : List (List Char × List Char)) (tf : List Char) : Prop :=
  (∀ it ∈ items, ¬ Occurs ICU it.1 ∧ ¬ Occurs ICU it.2) ∧ ¬ Occurs ICU tf


theorem occurs_trans {p q s : List Char} (h1 : Occurs p q) (h2 : Occurs q s) :
    Occurs p s := by
  obtain ⟨u, v, huv⟩ := h1
  obtain ⟨x, y, hxy⟩ := h2
  exact ⟨x ++ u, v ++ y, by rw [hxy, huv]; simp [List.append_assoc]⟩

theorem occurs_of_suffix {p s w : List Char} (h : Occurs ICU p) (hw : s = w ++ p) :
    Occurs ICU s :=
  occurs_trans h ⟨w, [], by simp [hw]⟩

theorem occurs_of_infix_piece {p s w w2 : List Char} (h : Occurs ICU p)
    (hw : s = w ++ p ++ w2) : Occurs ICU s :=
  occurs_trans h ⟨w, w2, hw⟩

/-- No double underscore inside `INLINE_CODE_` followed by digits. -/
theorem no_du_icu_digits {dl : List Char} (hdl : ∀ c ∈ dl, c.isDigit = true) :
    ¬ Occurs ['_', '_'] (ICU ++ dl) := by
  rintro ⟨X, Y, hXY⟩
  rcases split_three hXY with ⟨w, hw1, hw2⟩ | ⟨w, hw1, hw2⟩ | ⟨p1, p2, hp, hp1, hp2, ha, hv⟩
  · have hocc : Occurs ['_', '_'] ICU := ⟨X, w, hw1⟩
    rw [← containsSeq_iff_occurs] at hocc
    exact absurd hocc (by decide)
  · have hu : '_' ∈ dl := by
      rw [hw2]
      simp
    exact absurd (hdl '_' hu) (by decide)
  · have h1 : p1 = ['_'] ∧ p2 = ['_'] := by
      cases p1 with
      | nil => exact absurd rfl hp1
      | cons c p1' =>
        injection hp with hc ht
        cases p1' with
        | nil =>
          refine ⟨by rw [← hc], ?_⟩
          simpa using ht.symm
        | cons c2 p1'' =>
          injection ht with hc2 ht2
          rcases List.append_eq_nil.mp ht2.symm with ⟨-, h3⟩
          exact absurd h3 hp2
    have hu : '_' ∈ dl := by
      rw [hv, h1.2]
      simp
    exact absurd (hdl '_' hu) (by decide)

/-- In `INLINE_CODE_` ++ digits ++ `__`, the double underscore occurs only
at the very end. -/
theorem sub_du {dl p q : List Char} (hdl : ∀ c ∈ dl, c.isDigit = true)
    (hne : dl ≠ []) (h : ICU ++ dl ++ ['_', '_'] = p ++ ('_' :: '_' :: q)) :
    p = ICU ++ dl ∧ q = [] := by
  have h' : (ICU ++ dl) ++ ['_', '_'] = p ++ ['_', '_'] ++ q := by
    rw [List.append_assoc] at h ⊢
    rw [h]
    simp
  rcases split_three h' with ⟨w, hw1, hw2⟩ | ⟨w, hw1, hw2⟩ | ⟨p1, p2, hp, hp1, hp2, ha, hv⟩
  · exact absurd ⟨p, w, hw1⟩ (no_du_icu_digits hdl)
  · have hw0 : w = [] ∧ q = [] := by
      have hl := congrArg List.length hw2
      simp at hl
      constructor
      · rw [← List.length_eq_zero]; omega
      · rw [← List.length_eq_zero]; omega
    refine ⟨?_, hw0.2⟩
    rw [hw1, hw0.1]
    simp
  · have h1 : p1 = ['_'] := by
      cases p1 with
      | nil => exact absurd rfl hp1
      | cons c p1' =>
        injection hp with hc ht
        cases p1' with
        | nil => rw [← hc]
        | cons c2 p1'' =>
          injection ht with hc2 ht2
          rcases List.append_eq_nil.mp ht2.symm with ⟨-, h3⟩
          exact absurd h3 hp2
    obtain ⟨dl', c, rfl⟩ : ∃ dl' c, dl = dl' ++ [c] :=
      ⟨dl.dropLast, dl.getLast hne, (List.dropLast_append_getLast hne).symm⟩
    have ha2 : (ICU ++ dl') ++ [c] = p ++ ['_'] := by
      rw [← h1, ← ha]
      simp [List.append_assoc]
    have hc : c = '_' := by
      have h2 := congrArg (fun l => l.getLast?) ha2
      simp only [List.getLast?_concat] at h2
      injection h2
    have hcd : c ∈ dl' ++ [c] := by simp
    have hdc := hdl c hcd
    rw [hc] at hdc
    exact absurd hdc (by decide)
/-- The double underscore occurs in a placeholder key only at its two
ends. -/
theorem lemDU {m : Nat} {p1 q : List Char}
    (h : phKey m = p1 ++ ('_' :: '_' :: q)) :
    p1 = [] ∨ (p1 = ('_' :: '_' :: ICU) ++ natChars m ∧ q = []) := by
  rw [phKey_eq] at h
  simp only [List.cons_append, List.append_assoc] at h
  cases p1 with
  | nil => exact Or.inl rfl
  | cons c p1' =>
    right
    injection h with hc ht
    subst hc
    cases p1' with
    | nil =>
      injection ht with _ ht2
      rw [show ICU = 'I' :: "NLINE_CODE_".data from by decide] at ht2
      simp only [List.cons_append] at ht2
      injection ht2 with h6 _
      exact absurd h6 (by decide)
    | cons c2 p1'' =>
      injection ht with hc2 ht2
      subst hc2
      rw [← List.append_assoc] at ht2
      have h7 := sub_du (natChars_digits m) (natChars_ne_nil m) ht2
      refine ⟨?_, h7.2⟩
      rw [h7.1]
      simp

/-- The placeholder key in cons-normal form. -/
theorem phKey_cons (n : Nat) :
    phKey n = '_' :: '_' :: (ICU ++ (natChars n ++ ['_', '_'])) := by
  rw [phKey_eq]
  simp [List.append_assoc]

/-- A nonempty proper prefix of a placeholder key that is free of the
placeholder core cannot be completed by text that begins with a key. -/
theorem lemE {n m : Nat} {p1 p2 T Y1 : List Char}
    (hk : phKey n = p1 ++ p2) (hp1 : p1 ≠ []) (hp2 : p2 ≠ [])
    (hfree : ¬ Occurs ICU p1)
    (heq : phKey m ++ T = p2 ++ Y1) : False := by
  cases p2 with
  | nil => exact hp2 rfl
  | cons c1 p2t =>
    cases p2t with
    | nil =>
      have hk2 : ((('_' :: '_' :: ICU) ++ natChars n ++ ['_']) ++ ['_'] : List Char)
          = p1 ++ [c1] := by
        rw [← hk, phKey_eq]
        simp [List.append_assoc]
      have hinj := List.append_inj' hk2 (by simp)
      refine hfree ?_
      rw [← hinj.1]
      exact ⟨['_', '_'], natChars n ++ ['_'], by simp [List.append_assoc]⟩
    | cons c2 p2tt =>
      rw [phKey_cons m] at heq
      simp only [List.cons_append] at heq
      injection heq with hc1 heq2
      injection heq2 with hc2 _
      rw [← hc1, ← hc2] at hk
      rcases lemDU hk with h0 | h0
      · exact hp1 h0
      · refine hfree ?_
        rw [h0.1]
        exact ⟨['_', '_'], natChars n, by simp [List.append_assoc]⟩

/-- A split of the placeholder core whose right part is followed by a
digit cannot head a string that begins with a key. -/
theorem icu_split_contra {k : Nat} {p1 p2 T Z : List Char} {d : Char}
    (hsplit : ICU = p1 ++ p2) (hp2 : p2 ≠ [])
    (heq : phKey k ++ T = p2 ++ ([d] ++ Z)) (hd : d.isDigit = true) : False := by
  cases p2 with
  | nil => exact hp2 rfl
  | cons c1 p2t =>
    rw [phKey_cons k] at heq
    cases p2t with
    | nil =>
      simp only [List.cons_append, List.nil_append] at heq
      injection heq with hc1 heq2
      injection heq2 with hd2 _
      rw [← hd2] at hd
      exact absurd hd (by decide)
    | cons c2 p2tt =>
      simp only [List.cons_append] at heq
      injection heq with hc1 heq2
      injection heq2 with hc2 _
      have hocc : Occurs ['_', '_'] ICU :=
        ⟨p1, p2tt, by rw [hsplit, ← hc1, ← hc2]; simp [List.append_assoc]⟩
      rw [← containsSeq_iff_occurs] at hocc
      exact absurd hocc (by decide)

/-- A protected string never starts with the placeholder core followed by
a digit. -/
theorem lemA (items : List (List Char × List Char)) (k : Nat) (tf Z : List Char)
    (d : Char) (hok : ItemsOK items tf) (hd : d.isDigit = true)
    (h : protStr k items tf = ICU ++ ([d] ++ Z)) : False := by
  cases items with
  | nil => exact hok.2 ⟨[], [d] ++ Z, by simpa using h⟩
  | cons it rest =>
    obtain ⟨a, run⟩ := it
    have ha : ¬ Occurs ICU a := (hok.1 (a, run) (by simp)).1
    have h2 : a ++ (phKey k ++ protStr (k + 1) rest tf) = [] ++ ICU ++ ([d] ++ Z) := by
      rw [show (([] : List Char) ++ ICU ++ ([d] ++ Z)) = ICU ++ ([d] ++ Z) from by simp, ← h]
      simp [protStr, List.append_assoc]
    rcases split_three h2 with ⟨w, hw1, _⟩ | ⟨w, hw1, hw2⟩ |
      ⟨q1, q2, hq, hq1, hq2, ha2, hv2⟩
    · exact ha ⟨[], w, by simpa using hw1⟩
    · have haw := List.append_eq_nil.mp hw1.symm
      rw [haw.2] at hw2
      rw [phKey_cons k, show ICU = 'I' :: "NLINE_CODE_".data from by decide] at hw2
      simp only [List.nil_append, List.cons_append] at hw2
      injection hw2 with hI _
      exact absurd hI (by decide)
    · exact icu_split_contra hq hq2 hv2 hd

/-- A protected string never starts with an underscore, the placeholder
core and a digit. -/
theorem lemA2 (items : List (List Char × List Char)) (k : Nat) (tf Z : List Char)
    (d : Char) (hok : ItemsOK items tf) (hd : d.isDigit = true)
    (h : protStr k items tf = '_' :: (ICU ++ ([d] ++ Z))) : False := by
  cases items with
  | nil => exact hok.2 ⟨['_'], [d] ++ Z, by simpa [List.append_assoc] using h⟩
  | cons it rest =>
    obtain ⟨a, run⟩ := it
    have ha : ¬ Occurs ICU a := (hok.1 (a, run) (by simp)).1
    have h2 : a ++ (phKey k ++ protStr (k + 1) rest tf) = ['_'] ++ ICU ++ ([d] ++ Z) := by
      rw [show ((['_'] : List Char) ++ ICU ++ ([d] ++ Z)) = '_' :: (ICU ++ ([d] ++ Z))
        from by simp [List.append_assoc], ← h]
      simp [protStr, List.append_assoc]
    rcases split_three h2 with ⟨w, hw1, _⟩ | ⟨w, hw1, hw2⟩ |
      ⟨q1, q2, hq, hq1, hq2, ha2, hv2⟩
    · exact ha ⟨['_'], w, hw1⟩
    · cases a with
      | nil =>
        have hw : w = ['_'] := by simpa using hw1.symm
        rw [hw, phKey_cons k, show ICU = 'I' :: "NLINE_CODE_".data from by decide] at hw2
        simp only [List.cons_append, List.nil_append] at hw2
        injection hw2 with _ hw3
        injection hw3 with hI _
        exact absurd hI (by decide)
      | cons a0 a1 =>
        simp only [List.cons_append] at hw1
        injection hw1 with h01 h02
        have haw := List.append_eq_nil.mp h02.symm
        rw [haw.2] at hw2
        rw [phKey_cons k, show ICU = 'I' :: "NLINE_CODE_".data from by decide] at hw2
        simp only [List.nil_append, List.cons_append] at hw2
        injection hw2 with hI _
        exact absurd hI (by decide)
    · exact icu_split_contra hq hq2 hv2 hd

/-- In a string made of a core-free head followed by a key, every
occurrence of that key starts at or after the head's end. -/
theorem key_leftmost {n : Nat} {S T X1 Y1 : List Char} (hS : ¬ Occurs ICU S)
    (h : S ++ (phKey n ++ T) = X1 ++ phKey n ++ Y1) : S.length ≤ X1.length := by
  rcases split_three h with ⟨w, hw1, _⟩ | ⟨w, hw1, _⟩ |
    ⟨p1, p2, hp, hp1, hp2, ha, hv⟩
  · exact absurd (occurs_trans (occurs_ICU_phKey n) ⟨X1, w, hw1⟩) hS
  · rw [hw1]; simp
  · have hfree : ¬ Occurs ICU p1 := fun oc =>
      hS (occurs_trans oc ⟨X1, [], by simp [ha]⟩)
    exact (lemE hp hp1 hp2 hfree hv).elim

/-- A key with an index smaller than every key of a protected string does
not occur in it. -/
theorem lemD : ∀ (items : List (List Char × List Char)) (m j : Nat) (tf : List Char),
    j < m → ItemsOK items tf → ¬ Occurs (phKey j) (protStr m items tf) := by
  intro items
  induction items with
  | nil =>
    intro m j tf hjm hok hocc
    exact hok.2 (occurs_trans (occurs_ICU_phKey j) hocc)
  | cons it rest ih =>
    intro m j tf hjm hok hocc
    obtain ⟨a, run⟩ := it
    have ha : ¬ Occurs ICU a := (hok.1 (a, run) (by simp)).1
    have hokr : ItemsOK rest tf := ⟨fun x hx => hok.1 x (by simp [hx]), hok.2⟩
    obtain ⟨d0, ds, hnc⟩ : ∃ d0 ds, natChars j = d0 :: ds := by
      cases hh : natChars j with
      | nil => exact absurd hh (natChars_ne_nil j)
      | cons x xs => exact ⟨x, xs, rfl⟩
    have hd0 : d0.isDigit = true := natChars_digits j d0 (by rw [hnc]; simp)
    obtain ⟨X, Y, hXY⟩ := hocc
    have h2 : a ++ (phKey m ++ protStr (m + 1) rest tf) = X ++ phKey j ++ Y := by
      rw [← hXY]
      simp [protStr, List.append_assoc]
    rcases split_three h2 with ⟨w, hw1, _⟩ | ⟨w, hw1, hw2⟩ |
      ⟨p1, p2, hp, hp1, hp2, ha2, hv2⟩
    · exact ha (occurs_trans (occurs_ICU_phKey j) ⟨X, w, hw1⟩)
    · rcases split_three hw2 with ⟨w2, hx1, _⟩ | ⟨w2, hx1, hx2⟩ |
        ⟨q1, q2, hq, hq1, hq2, hb2, hv3⟩
      · have hx1a : phKey m = w ++ ('_' :: '_' :: (ICU ++ (natChars j ++ (['_', '_'] ++ w2)))) := by
          rw [hx1, phKey_cons j]
          simp [List.append_assoc]
        rcases lemDU hx1a with h0 | h0
        · rw [h0] at hx1
          simp only [List.nil_append] at hx1
          have hlw : leadsWith (phKey j) (phKey m ++ ([] : List Char)) = true :=
            leadsWith_iff.mpr ⟨w2, by simpa using hx1⟩
          have : j = m := phKey_prefix_phKey hlw
          omega
        · rcases List.append_eq_nil.mp h0.2 with ⟨hicu, -⟩
          exact absurd hicu (by decide)
      · exact ih (m + 1) j tf (by omega) hokr ⟨w2, Y, hx2⟩
      · rw [phKey_cons j] at hq
        cases q1 with
        | nil => exact hq1 rfl
        | cons c1 q1t =>
          simp only [List.cons_append] at hq
          injection hq with hc1 hq2c
          cases q1t with
          | nil =>
            simp only [List.nil_append] at hq2c
            have hA2 : protStr (m + 1) rest tf
                = '_' :: (ICU ++ ([d0] ++ (ds ++ (['_', '_'] ++ Y)))) := by
              rw [hv3, ← hq2c, hnc]
              simp [List.append_assoc]
            exact lemA2 rest (m + 1) tf _ d0 hokr hd0 hA2
          | cons c2 q1tt =>
            simp only [List.cons_append] at hq2c
            injection hq2c with hc2 hq3
            rw [← hc1, ← hc2] at hb2
            rcases lemDU hb2 with h0 | h0
            · have hbm : phKey m = '_' :: '_' :: q1tt := by
                rw [hb2, h0, List.nil_append]
              have hlw : leadsWith (phKey m) (phKey j ++ ([] : List Char)) = true := by
                refine leadsWith_iff.mpr ⟨q2, ?_⟩
                rw [List.append_nil, phKey_cons j, hq3, hbm]
                simp
              have : m = j := phKey_prefix_phKey hlw
              omega
            · rw [h0.2] at hq3
              simp only [List.nil_append] at hq3
              have hA : protStr (m + 1) rest tf
                  = ICU ++ ([d0] ++ (ds ++ (['_', '_'] ++ Y))) := by
                rw [hv3, ← hq3, hnc]
                simp [List.append_assoc]
              exact lemA rest (m + 1) tf _ d0 hokr hd0 hA
    · have hfree : ¬ Occurs ICU p1 := fun oc =>
        ha (occurs_trans oc ⟨X, [], by simp [ha2]⟩)
      exact lemE hp hp1 hp2 hfree hv2


/-- `replGo` leaves a string without an occurrence of the pattern
unchanged. -/
theorem replGo_no_occ {pat rep s : List Char} (h : ¬ Occurs pat s) :
    replGo pat rep s = s := by
  induction s with
  | nil => simp [replGo]
  | cons c cs ih =>
    have hcond : ¬ (leadsWith pat (c :: cs) = true ∧ pat ≠ []) := by
      rintro ⟨hl1, -⟩
      exact h (occurs_of_leadsWith hl1)
    have hcs : ¬ Occurs pat cs := by
      rintro ⟨X, Y, hXY⟩
      exact h ⟨c :: X, Y, by simp [hXY]⟩
    simp only [replGo]
    rw [if_neg hcond, ih hcs]

/-- `replGo` on a string holding a leftmost occurrence of the pattern with
no occurrence after it replaces exactly that occurrence. -/
theorem replGo_step {pat rep : List Char} (hpat : pat ≠ []) :
    ∀ (Q R : List Char),
      (∀ X1 Y1, Q ++ pat ++ R = X1 ++ pat ++ Y1 → Q.length ≤ X1.length) →
      ¬ Occurs pat R →
      replGo pat rep (Q ++ pat ++ R) = Q ++ rep ++ R := by
  intro Q
  induction Q with
  | nil =>
    intro R hleft hR
    obtain ⟨p0, pt, rfl⟩ : ∃ p0 pt, pat = p0 :: pt := by
      cases pat with
      | nil => exact absurd rfl hpat
      | cons a b => exact ⟨a, b, rfl⟩
    have hcond : leadsWith (p0 :: pt) (p0 :: (pt ++ R)) = true ∧ (p0 :: pt) ≠ [] := by
      refine ⟨?_, by simp⟩
      rw [show (p0 :: (pt ++ R)) = (p0 :: pt) ++ R from rfl]
      exact leadsWith_refl_append _ _
    have hdrop : (pt ++ R).drop ((p0 :: pt).length - 1) = R := by
      simp only [List.length_cons, Nat.add_sub_cancel]
      exact List.drop_left pt R
    simp only [List.nil_append]
    rw [show ((p0 :: pt) ++ R) = p0 :: (pt ++ R) from rfl]
    simp only [replGo]
    rw [if_pos hcond, hdrop, replGo_no_occ hR]
  | cons c Q2 ih =>
    intro R hleft hR
    have hstep : (c :: Q2) ++ pat ++ R = c :: (Q2 ++ pat ++ R) := by simp
    have hleft2 : ∀ X1 Y1, Q2 ++ pat ++ R = X1 ++ pat ++ Y1 → Q2.length ≤ X1.length := by
      intro X1 Y1 hx
      have h3 : (c :: Q2) ++ pat ++ R = (c :: X1) ++ pat ++ Y1 := by
        rw [hstep, hx]
        simp
      have := hleft (c :: X1) Y1 h3
      simpa using this
    have hcond : ¬ (leadsWith pat (c :: (Q2 ++ pat ++ R)) = true ∧ pat ≠ []) := by
      rintro ⟨hl1, -⟩
      obtain ⟨t, ht⟩ := leadsWith_iff.mp hl1
      have h3 : (c :: Q2) ++ pat ++ R = [] ++ pat ++ t := by
        rw [hstep, ht]
        simp
      have := hleft [] t h3
      simp at this
    rw [hstep]
    simp only [replGo]
    rw [if_neg hcond, ih R hleft2 hR]
    simp

/-- `pyReplace` under the same conditions. -/
theorem pyReplace_step {pat rep Q R : List Char} (hpat : pat ≠ [])
    (hleft : ∀ X1 Y1, Q ++ pat ++ R = X1 ++ pat ++ Y1 → Q.length ≤ X1.length)
    (hR : ¬ Occurs pat R) :
    pyReplace (Q ++ pat ++ R) pat rep = Q ++ rep ++ R := by
  rw [pyReplace, if_neg hpat, replGo_step hpat Q R hleft hR]

/-- The restoration fold: replacing the keys of a protected string in
insertion order, behind an already restored core-free head, rebuilds the
original interleaving. -/
theorem lemC : ∀ (items : List (List Char × List Char)) (n : Nat) (P tf : List Char),
    ItemsOK items tf →
    ¬ Occurs ICU (P ++ origStr items tf) →
    restoreInline (P ++ protStr n items tf) (phsOf n items) = P ++ origStr items tf := by
  intro items
  induction items with
  | nil =>
    intro n P tf hok hfree
    simp [restoreInline, phsOf, protStr, origStr]
  | cons it rest ih =>
    intro n P tf hok hfree
    obtain ⟨a, run⟩ := it
    have hokr : ItemsOK rest tf := ⟨fun x hx => hok.1 x (by simp [hx]), hok.2⟩
    have hfold : restoreInline (P ++ protStr n ((a, run) :: rest) tf)
        (phsOf n ((a, run) :: rest))
        = restoreInline (pyReplace (P ++ protStr n ((a, run) :: rest) tf) (phKey n)
            (btick :: (run ++ [btick]))) (phsOf (n + 1) rest) := by
      simp [restoreInline, phsOf]
    have harr : P ++ protStr n ((a, run) :: rest) tf
        = (P ++ a) ++ phKey n ++ protStr (n + 1) rest tf := by
      simp [protStr, List.append_assoc]
    have hSfree : ¬ Occurs ICU (P ++ a) := by
      intro oc
      refine hfree (occurs_trans oc
        ⟨[], btick :: (run ++ [btick]) ++ origStr rest tf, ?_⟩)
      simp [origStr, List.append_assoc]
    have hleft : ∀ X1 Y1, (P ++ a) ++ phKey n ++ protStr (n + 1) rest tf
        = X1 ++ phKey n ++ Y1 → (P ++ a).length ≤ X1.length := by
      intro X1 Y1 hx
      have hx2 : (P ++ a) ++ (phKey n ++ protStr (n + 1) rest tf)
          = X1 ++ phKey n ++ Y1 := by
        rw [← hx]
        simp [List.append_assoc]
      exact key_leftmost hSfree hx2
    have hRocc : ¬ Occurs (phKey n) (protStr (n + 1) rest tf) :=
      lemD rest (n + 1) n tf (by omega) hokr
    have hrepl : pyReplace ((P ++ a) ++ phKey n ++ protStr (n + 1) rest tf)
        (phKey n) (btick :: (run ++ [btick]))
        = (P ++ a) ++ (btick :: (run ++ [btick])) ++ protStr (n + 1) rest tf :=
      pyReplace_step (phKey_ne_nil n) hleft hRocc
    have harr2 : (P ++ a) ++ (btick :: (run ++ [btick])) ++ protStr (n + 1) rest tf
        = (P ++ a ++ (btick :: (run ++ [btick]))) ++ protStr (n + 1) rest tf := by
      simp [List.append_assoc]
    have hfree2 : ¬ Occurs ICU
        ((P ++ a ++ (btick :: (run ++ [btick]))) ++ origStr rest tf) := by
      have he : (P ++ a ++ (btick :: (run ++ [btick]))) ++ origStr rest tf
          = P ++ origStr ((a, run) :: rest) tf := by
        simp [origStr, List.append_assoc]
      rw [he]
      exact hfree
    rw [hfold, harr, hrepl, harr2,
      ih (n + 1) (P ++ a ++ (btick :: (run ++ [btick]))) tf hokr hfree2]
    simp [origStr, List.append_assoc]

theorem icu_not_occurs_nil : ¬ Occurs ICU [] := by
  rintro ⟨X, Y, h⟩
  rcases List.append_eq_nil.mp h.symm with ⟨h1, -⟩
  rcases List.append_eq_nil.mp h1 with ⟨-, h2⟩
  exact absurd h2 (by decide)

/-- A nonempty `dropWhile` by the not-a-backtick test starts with a
backtick. -/
theorem dropWhile_btick_head {l : List Char}
    (h : l.dropWhile (fun d => d ≠ btick) ≠ []) :
    l.dropWhile (fun d => d ≠ btick)
      = btick :: (l.dropWhile (fun d => d ≠ btick)).tail := by
  induction l with
  | nil => simp at h
  | cons c cs ih =>
    rw [List.dropWhile_cons] at h ⊢
    by_cases hc : c = btick
    · rw [if_neg (by simp [hc])]
      rw [hc]
      rfl
    · rw [if_pos (by simp [hc])] at h ⊢
      exact ih h

/-- One scanning step of `picGo` for a character that opens no span keeps
the structural decomposition, prepending the character to the head
fragment. -/
theorem picGo_prepend {c : Char} {cs : List Char} {n : Nat}
    (hfree : ¬ Occurs ICU (c :: cs))
    (hstep : picGo n (c :: cs) = (c :: (picGo n cs).1, (picGo n cs).2))
    (items : List (List Char × List Char)) (tf : List Char)
    (hor : cs = origStr items tf) (hok : ItemsOK items tf)
    (hpic : picGo n cs = (protStr n items tf, phsOf n items)) :
    ∃ items2 tf2, c :: cs = origStr items2 tf2 ∧ ItemsOK items2 tf2 ∧
      picGo n (c :: cs) = (protStr n items2 tf2, phsOf n items2) := by
  cases items with
  | nil =>
    simp only [origStr] at hor
    refine ⟨[], c :: tf, ?_, ⟨by simp, ?_⟩, ?_⟩
    · simp only [origStr]
      rw [hor]
    · rw [← hor]
      exact hfree
    · rw [hstep, hpic]
      simp [protStr, phsOf]
  | cons it rest =>
    obtain ⟨a, run⟩ := it
    refine ⟨(c :: a, run) :: rest, tf, ?_, ⟨?_, hok.2⟩, ?_⟩
    · simp only [origStr] at hor ⊢
      rw [hor]
      simp
    · intro x hx
      rcases List.mem_cons.mp hx with h1 | h1
      · subst h1
        refine ⟨?_, (hok.1 (a, run) (by simp)).2⟩
        intro oc
        refine hfree (occurs_trans oc
          ⟨[], (btick :: (run ++ [btick])) ++ origStr rest tf, ?_⟩)
        rw [hor]
        simp [origStr, List.append_assoc]
      · exact hok.1 x (by simp [h1])
    · rw [hstep, hpic]
      simp [protStr, phsOf]


/-- Structure of the protection scan: on a paragraph free of the
placeholder core, `picGo` decomposes the text into fragments and spans,
produces the corresponding protected string and records the placeholder
mapping. -/
theorem picGo_struct : ∀ (L : Nat) (p : List Char), p.length ≤ L → ∀ n : Nat,
    ¬ Occurs ICU p →
    ∃ items tf, p = origStr items tf ∧ ItemsOK items tf ∧
      picGo n p = (protStr n items tf, phsOf n items) := by
  intro L
  induction L with
  | zero =>
    intro p hp n hfree
    have hpz : p = [] := by
      cases p with
      | nil => rfl
      | cons c cs => simp at hp
    subst hpz
    exact ⟨[], [], rfl, ⟨by simp, icu_not_occurs_nil⟩, by simp [picGo, protStr, phsOf]⟩
  | succ L ihL =>
    intro p hp n hfree
    cases p with
    | nil =>
      exact ⟨[], [], rfl, ⟨by simp, icu_not_occurs_nil⟩, by simp [picGo, protStr, phsOf]⟩
    | cons c cs =>
      have hcs_len : cs.length ≤ L := by
        simp only [List.length_cons] at hp
        omega
      by_cases hcb : c = btick
      · subst hcb
        by_cases hguard : (cs.takeWhile (fun d => d ≠ btick)).isEmpty ∨
            (cs.dropWhile (fun d => d ≠ btick)).isEmpty
        · have hstep : picGo n (btick :: cs)
              = (btick :: (picGo n cs).1, (picGo n cs).2) := by
            simp only [picGo]
            rw [if_pos trivial, if_pos hguard]
          have hfree2 : ¬ Occurs ICU cs := by
            rintro ⟨X, Y, hXY⟩
            exact hfree ⟨btick :: X, Y, by simp [hXY]⟩
          obtain ⟨items, tf, hor, hok, hpic⟩ := ihL cs hcs_len n hfree2
          exact picGo_prepend hfree hstep items tf hor hok hpic
        · have hdw_ne : cs.dropWhile (fun d => d ≠ btick) ≠ [] := by
            intro hnil
            exact hguard (Or.inr (by rw [hnil]; rfl))
          have hhead : cs.dropWhile (fun d => d ≠ btick)
              = btick :: (cs.dropWhile (fun d => d ≠ btick)).tail :=
            dropWhile_btick_head hdw_ne
          have hcs2 : cs = cs.takeWhile (fun d => d ≠ btick)
              ++ btick :: (cs.dropWhile (fun d => d ≠ btick)).tail := by
            conv_lhs => rw [← List.takeWhile_append_dropWhile (p := fun d => d ≠ btick) (l := cs)]
            rw [← hhead]
          have htail_len : ((cs.dropWhile (fun d => d ≠ btick)).tail).length ≤ L := by
            have h1 := dropWhile_len_le (fun d => d ≠ btick) cs
            have h2 : ((cs.dropWhile (fun d => d ≠ btick)).tail).length
                = (cs.dropWhile (fun d => d ≠ btick)).length - 1 := by
              simp [List.length_tail]
            omega
          have hfree3 : ¬ Occurs ICU ((cs.dropWhile (fun d => d ≠ btick)).tail) := by
            rintro ⟨X, Y, hXY⟩
            refine hfree ⟨(btick :: (cs.takeWhile (fun d => d ≠ btick) ++ [btick])) ++ X, Y, ?_⟩
            conv_lhs => rw [hcs2]
            rw [hXY]
            simp [List.append_assoc]
          obtain ⟨items, tf, hor, hok, hpic⟩ :=
            ihL ((cs.dropWhile (fun d => d ≠ btick)).tail) htail_len (n + 1) hfree3
          refine ⟨([], cs.takeWhile (fun d => d ≠ btick)) :: items, tf, ?_, ⟨?_, hok.2⟩, ?_⟩
          · simp only [origStr, List.nil_append]
            rw [← hor]
            conv_lhs => rw [hcs2]
            simp [List.append_assoc]
          · intro x hx
            rcases List.mem_cons.mp hx with h1 | h1
            · subst h1
              dsimp only
              refine ⟨icu_not_occurs_nil, ?_⟩
              rintro ⟨X, Y, hXY⟩
              refine hfree ⟨btick :: X, Y ++ btick :: (cs.dropWhile (fun d => d ≠ btick)).tail, ?_⟩
              conv_lhs => rw [hcs2]
              rw [hXY]
              simp [List.append_assoc]
            · exact hok.1 x h1
          · have hstep2 : picGo n (btick :: cs)
                = (phKey n ++ (picGo (n + 1) ((cs.dropWhile (fun d => d ≠ btick)).tail)).1,
                   (phKey n, btick :: (cs.takeWhile (fun d => d ≠ btick) ++ [btick]))
                     :: (picGo (n + 1) ((cs.dropWhile (fun d => d ≠ btick)).tail)).2) := by
              simp only [picGo]
              rw [if_pos trivial, if_neg hguard]
            rw [hstep2, hpic]
            simp [protStr, phsOf]
      · have hstep : picGo n (c :: cs) = (c :: (picGo n cs).1, (picGo n cs).2) := by
          simp only [picGo]
          rw [if_neg hcb]
        have hfree2 : ¬ Occurs ICU cs := by
          rintro ⟨X, Y, hXY⟩
          exact hfree ⟨c :: X, Y, by simp [hXY]⟩
        obtain ⟨items, tf, hor, hok, hpic⟩ := ihL cs hcs_len n hfree2
        exact picGo_prepend hfree hstep items tf hor hok hpic


/-! ### Claim C8 -/

/-- A paragraph containing the span `` `foo_bar` `` together with literal
text that collides with the generated placeholder keys. -/
def c8doc : List Char := "`a``b`INLINE_CODE_0`foo_bar`".data

/-- C8 counterexample: `c8doc` contains the inline-code span
`` `foo_bar` ``, yet after `protect_inline_code`, the identity
translation and `restore_inline_code` the span is gone: the literal text
`INLINE_CODE_0` between the keys of the second and third span forms a
spurious occurrence of the first placeholder key, which the first
restoration step rewrites, destroying the keys of the remaining spans. -/
theorem c8_counterexample :
    containsSeq ("`foo_bar`".data) c8doc = true ∧
    containsSeq ("`foo_bar`".data)
      (restoreInline (protectInline c8doc).1 (protectInline c8doc).2) = false := by
  have h0 : phKey 0 = "__INLINE_CODE_0__".data := by decide
  have h1 : phKey 1 = "__INLINE_CODE_1__".data := by decide
  have h2 : phKey 2 = "__INLINE_CODE_2__".data := by decide
  constructor
  · decide
  · simp [c8doc, protectInline, restoreInline, picGo, btick, h0, h1, h2, pyReplace,
      replGo, leadsWith, containsSeq]

/-- C8 (amended): for every paragraph that does not contain the literal
text `INLINE_CODE_`, the protect–identity-translate–restore round trip
returns the paragraph verbatim; in particular the span `` `foo_bar` ``,
when present, appears unchanged in the output.  (Without the proviso the
span can be destroyed, as the counterexample shows.) -/
theorem c8_span_immunity_amended (p : List Char)
    (hb : containsSeq ICU p = false) :
    restoreInline (protectInline p).1 (protectInline p).2 = p ∧
    (containsSeq ("`foo_bar`".data) p = true →
      containsSeq ("`foo_bar`".data)
        (restoreInline (protectInline p).1 (protectInline p).2) = true) := by
  have hfree : ¬ Occurs ICU p := not_occurs_of_containsSeq_false hb
  obtain ⟨items, tf, hor, hok, hpic⟩ := picGo_struct p.length p (le_refl _) 0 hfree
  have hround : restoreInline (protectInline p).1 (protectInline p).2 = p := by
    show restoreInline (picGo 0 p).1 (picGo 0 p).2 = p
    rw [hpic]
    have hfree2 : ¬ Occurs ICU (([] : List Char) ++ origStr items tf) := by
      rw [List.nil_append, ← hor]
      exact hfree
    have h := lemC items 0 [] tf hok hfree2
    simp only [List.nil_append] at h
    rw [h]
    exact hor.symm
  exact ⟨hround, fun hf => by rw [hround]; exact hf⟩

theorem c8_span_immunity_amended_witness :
    containsSeq ICU ("x `foo_bar` y".data) = false ∧
    (restoreInline (protectInline ("x `foo_bar` y".data)).1
        (protectInline ("x `foo_bar` y".data)).2 = "x `foo_bar` y".data ∧
      (containsSeq ("`foo_bar`".data) ("x `foo_bar` y".data) = true →
        containsSeq ("`foo_bar`".data)
          (restoreInline (protectInline ("x `foo_bar` y".data)).1
            (protectInline ("x `foo_bar` y".data)).2) = true)) :=
  ⟨by decide, c8_span_immunity_amended _ (by decide)⟩


/-! ### Claim C6: groundwork on characters and `str.title` output -/

theorem char_eq_of_toNat {c d : Char} (h : c.toNat = d.toNat) : c = d := by
  have h2 : Char.ofNat c.toNat = Char.ofNat d.toNat := by rw [h]
  rwa [Char.ofNat_toNat, Char.ofNat_toNat] at h2

theorem charOfNat_valid {n : Nat} (h : n < 55296) : (Char.ofNat n).toNat = n := by
  rw [Char.ofNat, dif_pos (Or.inl h)]
  rfl

theorem toUpper_lower_toNat {c : Char} (h : 97 ≤ c.toNat ∧ c.toNat ≤ 122) :
    c.toUpper.toNat = c.toNat - 32 := by
  rw [Char.toUpper, if_pos ⟨h.1, h.2⟩]
  exact charOfNat_valid (by omega)

theorem toUpper_fix {c : Char} (h : ¬(97 ≤ c.toNat ∧ c.toNat ≤ 122)) : c.toUpper = c := by
  rw [Char.toUpper]
  exact if_neg (fun hc => h ⟨hc.1, hc.2⟩)

theorem toLower_upper_toNat {c : Char} (h : 65 ≤ c.toNat ∧ c.toNat ≤ 90) :
    c.toLower.toNat = c.toNat + 32 := by
  rw [Char.toLower, if_pos ⟨h.1, h.2⟩]
  exact charOfNat_valid (by omega)

theorem toLower_fix {c : Char} (h : ¬(65 ≤ c.toNat ∧ c.toNat ≤ 90)) : c.toLower = c := by
  rw [Char.toLower]
  exact if_neg (fun hc => h ⟨hc.1, hc.2⟩)

/-- Numeric reading of `slugChar`. -/
theorem slugChar_toNat {c : Char} (h : slugChar c = true) :
    (97 ≤ c.toNat ∧ c.toNat ≤ 122) ∨ (48 ≤ c.toNat ∧ c.toNat ≤ 57) ∨ c.toNat = 45 := by
  simp only [slugChar, Bool.or_eq_true, Bool.and_eq_true, decide_eq_true_eq] at h
  rcases h with (⟨h1, h2⟩ | ⟨h1, h2⟩) | h1
  · rw [Char.le_def] at h1 h2
    exact Or.inl ⟨h1, h2⟩
  · rw [Char.le_def] at h1 h2
    exact Or.inr (Or.inl ⟨h1, h2⟩)
  · subst h1
    exact Or.inr (Or.inr rfl)

/-- Numeric reading of `pySpace`. -/
theorem pySpace_toNat {c : Char} (h : pySpace c = true) :
    c.toNat = 32 ∨ c.toNat = 9 ∨ c.toNat = 10 ∨ c.toNat = 13 ∨ c.toNat = 11 ∨
      c.toNat = 12 := by
  simp only [pySpace, Bool.or_eq_true, decide_eq_true_eq] at h
  rcases h with ((((h | h) | h) | h) | h) | h <;> subst h <;> simp

/-- Numeric reading of `Char.isAlpha`. -/
theorem isAlpha_toNat_iff {c : Char} :
    c.isAlpha = true ↔ (65 ≤ c.toNat ∧ c.toNat ≤ 90) ∨ (97 ≤ c.toNat ∧ c.toNat ≤ 122) := by
  simp only [Char.isAlpha, Char.isUpper, Char.isLower, Bool.or_eq_true, Bool.and_eq_true,
    decide_eq_true_eq]
  constructor
  · rintro (⟨h1, h2⟩ | ⟨h1, h2⟩)
    · exact Or.inl ⟨h1, h2⟩
    · exact Or.inr ⟨h1, h2⟩
  · rintro (⟨h1, h2⟩ | ⟨h1, h2⟩)
    · exact Or.inl ⟨h1, h2⟩
    · exact Or.inr ⟨h1, h2⟩

/-- Characters of the title text: ASCII letters, digits or a space. -/
def titleClass (c : Char) : Prop :=
  (65 ≤ c.toNat ∧ c.toNat ≤ 90) ∨ (97 ≤ c.toNat ∧ c.toNat ≤ 122) ∨
    (48 ≤ c.toNat ∧ c.toNat ≤ 57) ∨ c.toNat = 32

/-- Characters entering `str.title` after the hyphen replacement:
lowercase letters, digits or a space. -/
def baseClass (c : Char) : Prop :=
  (97 ≤ c.toNat ∧ c.toNat ≤ 122) ∨ (48 ≤ c.toNat ∧ c.toNat ≤ 57) ∨ c.toNat = 32

theorem mem_pyStrip {u : List Char} {c : Char} (h : c ∈ pyStrip u) : c ∈ u := by
  rw [pyStrip] at h
  rw [List.mem_reverse] at h
  have h2 := List.Sublist.mem h (List.dropWhile_sublist pySpace)
  rw [List.mem_reverse] at h2
  exact List.Sublist.mem h2 (List.dropWhile_sublist pySpace)

theorem mem_titleGo {u : List Char} {c : Char} : ∀ {b : Bool}, c ∈ titleGo b u →
    ∃ d ∈ u, c = d ∨ c = d.toUpper ∨ c = d.toLower := by
  induction u with
  | nil =>
    intro b h
    simp [titleGo] at h
  | cons d u2 ih =>
    intro b h
    rw [titleGo] at h
    rcases List.mem_cons.mp h with h1 | h1
    · refine ⟨d, by simp, ?_⟩
      by_cases ha : d.isAlpha
      · rw [if_pos ha] at h1
        by_cases hb : b
        · rw [if_pos hb] at h1
          exact Or.inr (Or.inr h1)
        · rw [if_neg hb] at h1
          exact Or.inr (Or.inl h1)
      · rw [if_neg ha] at h1
        exact Or.inl h1
    · obtain ⟨d2, hd2, hc⟩ := ih h1
      exact ⟨d2, by simp [hd2], hc⟩

theorem titleClass_of {d : Char} (h : baseClass d) :
    titleClass d ∧ titleClass d.toUpper ∧ titleClass d.toLower := by
  rcases h with h | h | h
  · refine ⟨Or.inr (Or.inl h), ?_, ?_⟩
    · have h2 := toUpper_lower_toNat h
      exact Or.inl (by omega)
    · rw [toLower_fix (by omega)]
      exact Or.inr (Or.inl h)
  · refine ⟨Or.inr (Or.inr (Or.inl h)), ?_, ?_⟩
    · rw [toUpper_fix (by omega)]
      exact Or.inr (Or.inr (Or.inl h))
    · rw [toLower_fix (by omega)]
      exact Or.inr (Or.inr (Or.inl h))
  · refine ⟨Or.inr (Or.inr (Or.inr h)), ?_, ?_⟩
    · rw [toUpper_fix (by omega)]
      exact Or.inr (Or.inr (Or.inr h))
    · rw [toLower_fix (by omega)]
      exact Or.inr (Or.inr (Or.inr h))

/-- Well-formed slugs: every character is a slug character. -/
def SlugOK (g : List Char) : Prop := ∀ c ∈ g, slugChar c = true

theorem baseClass_of_mapped {g : List Char} (hg : SlugOK g) {c : Char}
    (h : c ∈ g.map (fun c => if c = '-' then ' ' else c)) : baseClass c := by
  obtain ⟨d, hd, hc⟩ := List.mem_map.mp h
  rcases slugChar_toNat (hg d hd) with h1 | h1 | h1
  · have hdm : d ≠ '-' := by
      intro he
      subst he
      simp at h1
    rw [if_neg hdm] at hc
    subst hc
    exact Or.inl h1
  · have hdm : d ≠ '-' := by
      intro he
      subst he
      simp at h1
    rw [if_neg hdm] at hc
    subst hc
    exact Or.inr (Or.inl h1)
  · have hdm : d = '-' := char_eq_of_toNat (by rw [h1]; rfl)
    rw [if_pos hdm] at hc
    subst hc
    exact Or.inr (Or.inr rfl)

/-- Every character of the produced title is a letter, a digit or a
space. -/
theorem title_chars {g : List Char} (hg : SlugOK g) {c : Char}
    (h : c ∈ slugToTitle g) : titleClass c := by
  rw [slugToTitle, pyTitle] at h
  obtain ⟨d, hd, hc⟩ := mem_titleGo h
  have hbase : baseClass d := baseClass_of_mapped hg (mem_pyStrip hd)
  rcases hc with rfl | rfl | rfl
  · exact (titleClass_of hbase).1
  · exact (titleClass_of hbase).2.1
  · exact (titleClass_of hbase).2.2

/-- The title text contains none of the delimiter characters of the
annotation patterns. -/
theorem titleClass_ne {c : Char} (h : titleClass c) :
    c ≠ '[' ∧ c ≠ ']' ∧ c ≠ '(' ∧ c ≠ ')' ∧ c ≠ ':' := by
  refine ⟨?_, ?_, ?_, ?_, ?_⟩ <;>
    · rintro rfl
      rcases h with h | h | h | h <;> simp_all

/-- The title never begins with a lowercase letter, in particular never
with `a`. -/
theorem title_head_ne {g : List Char} (hg : SlugOK g) {h0 : Char} {rest : List Char}
    (h : slugToTitle g = h0 :: rest) : h0 ≠ 'a' := by
  rw [slugToTitle, pyTitle] at h
  cases hu : pyStrip ((g.map (fun c => if c = '-' then ' ' else c))) with
  | nil =>
    rw [hu] at h
    simp [titleGo] at h
  | cons d u2 =>
    rw [hu, titleGo] at h
    injection h with h1 _
    have hdm : d ∈ pyStrip (g.map (fun c => if c = '-' then ' ' else c)) := by
      rw [hu]
      simp
    have hbase : baseClass d := baseClass_of_mapped hg (mem_pyStrip hdm)
    intro he
    rw [he] at h1
    by_cases ha : d.isAlpha
    · rw [if_pos ha, if_neg (by simp)] at h1
      rcases hbase with hb | hb | hb
      · have h2 := toUpper_lower_toNat hb
        have h3 : d.toUpper.toNat = 97 := by rw [h1]; rfl
        omega
      · rw [toUpper_fix (by omega)] at h1
        have h3 : d.toNat = 97 := by rw [h1]; rfl
        omega
      · rw [toUpper_fix (by omega)] at h1
        have h3 : d.toNat = 97 := by rw [h1]; rfl
        omega
    · rw [if_neg ha] at h1
      have h2 : d.toNat = 97 := by rw [h1]; rfl
      have h3 : d.isAlpha = true := isAlpha_toNat_iff.mpr (Or.inr (by omega))
      exact absurd h3 (by simp [ha])


/-! ### C6: matcher characterizations -/

theorem sep_eq_of_not_mem {τ : Char} : ∀ {A : List Char} {u B w : List Char},
    τ ∉ A → τ ∉ u → A ++ τ :: B = u ++ τ :: w → A = u ∧ B = w := by
  intro A
  induction A with
  | nil =>
    intro u B w _ hu h
    cases u with
    | nil =>
      injection h with _ h2
      exact ⟨rfl, h2⟩
    | cons u0 u2 =>
      injection h with h1 _
      exact absurd (by rw [h1]; simp : τ ∈ u0 :: u2) hu
  | cons a A2 ih =>
    intro u B w hA hu h
    cases u with
    | nil =>
      injection h with h1 _
      exact absurd (by rw [← h1]; simp : τ ∈ a :: A2) hA
    | cons u0 u2 =>
      injection h with h1 h2
      obtain ⟨h3, h4⟩ := ih (fun hm => hA (by simp [hm])) (fun hm => hu (by simp [hm])) h2
      exact ⟨by rw [h1, h3], h4⟩

/-- Splitting at a separator that occurs exactly once. -/
theorem sep_split_unique {τ : Char} {A B u w : List Char} (hA : τ ∉ A) (hB : τ ∉ B)
    (h : A ++ τ :: B = u ++ τ :: w) : u = A ∧ w = B := by
  have hcount := congrArg (List.count τ) h
  simp only [List.count_append, List.count_cons_self] at hcount
  rw [List.count_eq_zero_of_not_mem hA, List.count_eq_zero_of_not_mem hB] at hcount
  have hu : τ ∉ u := by
    intro hm
    have := List.count_pos_iff.mpr hm
    omega
  obtain ⟨h1, h2⟩ := sep_eq_of_not_mem hA hu h
  exact ⟨h1.symm, h2.symm⟩

theorem dropWhile_all_append {p : Char → Bool} : ∀ {A : List Char} (B : List Char),
    (∀ c ∈ A, p c = true) → (A ++ B).dropWhile p = B.dropWhile p := by
  intro A
  induction A with
  | nil => intro B _; rfl
  | cons a A2 ih =>
    intro B hA
    rw [List.cons_append, List.dropWhile_cons, if_pos (hA a (by simp))]
    exact ih B (fun c hc => hA c (by simp [hc]))

theorem takeWhile_all_append {p : Char → Bool} : ∀ {A : List Char} (B : List Char),
    (∀ c ∈ A, p c = true) → (A ++ B).takeWhile p = A ++ B.takeWhile p := by
  intro A
  induction A with
  | nil => intro B _; rfl
  | cons a A2 ih =>
    intro B hA
    rw [List.cons_append, List.takeWhile_cons, if_pos (hA a (by simp)), List.cons_append,
      ih B (fun c hc => hA c (by simp [hc]))]

theorem dropWhile_head_false {p : Char → Bool} : ∀ {l : List Char} {c : Char} {cs : List Char},
    l.dropWhile p = c :: cs → p c = false := by
  intro l
  induction l with
  | nil => intro c cs h; simp at h
  | cons d l2 ih =>
    intro c cs h
    rw [List.dropWhile_cons] at h
    by_cases hd : p d
    · rw [if_pos hd] at h
      exact ih h
    · rw [if_neg hd] at h
      injection h with h1 _
      rw [← h1]
      exact Bool.eq_false_iff.mpr hd

theorem parseWsSlug_some {t g r : List Char} (h : parseWsSlug t = some (g, r)) :
    ∃ ws, t = ws ++ (g ++ r) ∧ (∀ c ∈ ws, pySpace c = true) ∧ g ≠ [] ∧
      (∀ c ∈ g, slugChar c = true) ∧ (∀ c cs, r = c :: cs → slugChar c = false) := by
  unfold parseWsSlug at h
  split at h
  · exact absurd h (by simp)
  · rename_i hne
    injection h with h2
    injection h2 with h3 h4
    refine ⟨t.takeWhile pySpace, ?_, ?_, ?_, ?_, ?_⟩
    · rw [← h3, ← h4, List.takeWhile_append_dropWhile, List.takeWhile_append_dropWhile]
    · intro c hc
      exact List.mem_takeWhile_imp hc
    · rw [← h3]
      simpa using hne
    · intro c hc
      rw [← h3] at hc
      exact List.mem_takeWhile_imp hc
    · intro c cs hr
      rw [← h4] at hr
      exact dropWhile_head_false hr

theorem slugChar_not_pySpace {c : Char} (h : slugChar c = true) : pySpace c = false := by
  rcases slugChar_toNat h with h1 | h1 | h1 <;>
  · rcases hp : pySpace c with - | -
    · rfl
    · have := pySpace_toNat hp
      omega

theorem parseWsSlug_complete {ws g R : List Char} (hws : ∀ c ∈ ws, pySpace c = true)
    (hg1 : g ≠ []) (hg : ∀ c ∈ g, slugChar c = true)
    (hR : ∀ c cs, R = c :: cs → slugChar c = false) :
    parseWsSlug (ws ++ (g ++ R)) = some (g, R) := by
  obtain ⟨g0, g2, rfl⟩ : ∃ g0 g2, g = g0 :: g2 := by
    cases g with
    | nil => exact absurd rfl hg1
    | cons a b => exact ⟨a, b, rfl⟩
  have hdrop : (ws ++ (g0 :: g2 ++ R)).dropWhile pySpace = g0 :: g2 ++ R := by
    rw [dropWhile_all_append _ hws, List.cons_append, List.dropWhile_cons,
      if_neg (by simp [slugChar_not_pySpace (hg g0 (by simp))])]
  have htake : (g0 :: g2 ++ R).takeWhile slugChar = g0 :: g2 := by
    rw [takeWhile_all_append R hg]
    cases R with
    | nil => simp
    | cons c cs =>
      rw [List.takeWhile_cons, if_neg (by simp [hR c cs rfl])]
      simp
  have hdrop2 : (g0 :: g2 ++ R).dropWhile slugChar = R := by
    rw [dropWhile_all_append R hg]
    cases R with
    | nil => simp
    | cons c cs =>
      rw [List.dropWhile_cons, if_neg (by simp [hR c cs rfl])]
  unfold parseWsSlug
  rw [hdrop, htake, hdrop2, if_neg (by simp)]

theorem parseWsSlug_ne_none {ws g R : List Char} (hws : ∀ c ∈ ws, pySpace c = true)
    (hg1 : g ≠ []) (hg : ∀ c ∈ g, slugChar c = true) :
    parseWsSlug (ws ++ (g ++ R)) ≠ none := by
  obtain ⟨g0, g2, rfl⟩ : ∃ g0 g2, g = g0 :: g2 := by
    cases g with
    | nil => exact absurd rfl hg1
    | cons a b => exact ⟨a, b, rfl⟩
  have hdrop : (ws ++ (g0 :: g2 ++ R)).dropWhile pySpace = g0 :: g2 ++ R := by
    rw [dropWhile_all_append _ hws, List.cons_append, List.dropWhile_cons,
      if_neg (by simp [slugChar_not_pySpace (hg g0 (by simp))])]
  unfold parseWsSlug
  rw [hdrop]
  rw [if_neg ?hcond]
  · simp
  case hcond =>
    rw [List.cons_append, List.takeWhile_cons, if_pos (by simp [hg g0 (by simp)])]
    simp


theorem tm1_some {s g r : List Char} (h : tm1 s = some (g, r)) :
    ∃ ws, s = "[annotation:".data ++ (ws ++ (g ++ ']' :: r)) ∧
      (∀ c ∈ ws, pySpace c = true) ∧ g ≠ [] ∧ (∀ c ∈ g, slugChar c = true) := by
  unfold tm1 at h
  split at h
  · rename_i hl
    obtain ⟨t, ht⟩ := leadsWith_iff.mp hl
    have hdrop : s.drop 12 = t := by
      rw [ht, show (12 : Nat) = ("[annotation:".data).length from by decide, List.drop_left]
    rw [hdrop] at h
    obtain ⟨sr, hp, hif⟩ := Option.bind_eq_some.mp h
    split at hif
    · rename_i hh
      injection hif with h2
      injection h2 with h3 h4
      obtain ⟨sr1, sr2⟩ := sr
      simp only at h3 h4 hh
      obtain ⟨c0, cs0, hc⟩ : ∃ c0 cs0, sr2 = c0 :: cs0 := by
        cases sr2 with
        | nil => simp at hh
        | cons a b => exact ⟨a, b, rfl⟩
      rw [hc] at hh h4
      simp only [List.head?_cons, Option.some.injEq] at hh
      simp only [List.tail_cons] at h4
      obtain ⟨ws, hws1, hws2, hws3, hws4, -⟩ := parseWsSlug_some hp
      refine ⟨ws, ?_, hws2, ?_, ?_⟩
      · rw [ht, hws1, hc, hh, h3, h4]
      · rw [← h3]; exact hws3
      · rw [← h3]; exact hws4
    · exact absurd hif (by simp)
  · exact absurd h (by simp)

theorem tm1_ne_none {ws g R : List Char} (hws : ∀ c ∈ ws, pySpace c = true)
    (hg1 : g ≠ []) (hg : ∀ c ∈ g, slugChar c = true) :
    tm1 ("[annotation:".data ++ (ws ++ (g ++ ']' :: R))) ≠ none := by
  unfold tm1
  rw [if_pos (leadsWith_refl_append _ _)]
  rw [show ("[annotation:".data ++ (ws ++ (g ++ ']' :: R))).drop 12 = ws ++ (g ++ ']' :: R)
    from by rw [show (12 : Nat) = ("[annotation:".data).length from by decide, List.drop_left]]
  rw [parseWsSlug_complete hws hg1 hg (fun c cs hr => by injection hr with h1 _; rw [← h1]; decide)]
  simp

theorem tm2_some {s r : List Char} (h : tm2 s = some r) :
    ∃ ws, s = ']' :: (ws ++ '(' :: r) ∧ ws ≠ [] ∧ (∀ c ∈ ws, pySpace c = true) := by
  unfold tm2 at h
  split at h
  · rename_i hc
    obtain ⟨h1, h2, h3⟩ := hc
    injection h with h4
    obtain ⟨s0, st, hs⟩ : ∃ s0 st, s = s0 :: st := by
      cases s with
      | nil => simp at h1
      | cons a b => exact ⟨a, b, rfl⟩
    rw [hs] at h1 h2 h3 h4
    simp only [List.head?_cons, Option.some.injEq] at h1
    simp only [List.tail_cons] at h2 h3 h4
    obtain ⟨c0, cs0, hdw⟩ : ∃ c0 cs0, st.dropWhile pySpace = c0 :: cs0 := by
      cases hdd : st.dropWhile pySpace with
      | nil => rw [hdd] at h3; simp at h3
      | cons a b => exact ⟨a, b, rfl⟩
    rw [hdw] at h3 h4
    simp only [List.head?_cons, Option.some.injEq] at h3
    simp only [List.tail_cons] at h4
    refine ⟨st.takeWhile pySpace, ?_, by simpa using h2, fun c hc => List.mem_takeWhile_imp hc⟩
    rw [hs, h1, ← h4, ← h3, ← hdw, List.takeWhile_append_dropWhile]
  · exact absurd h (by simp)

theorem tm2_complete {ws R : List Char} (hne : ws ≠ [])
    (hws : ∀ c ∈ ws, pySpace c = true) :
    tm2 (']' :: (ws ++ '(' :: R)) = some R := by
  have htake : (ws ++ '(' :: R).takeWhile pySpace = ws := by
    rw [takeWhile_all_append _ hws, List.takeWhile_cons, if_neg (by decide)]
    simp
  have hdrop : (ws ++ '(' :: R).dropWhile pySpace = '(' :: R := by
    rw [dropWhile_all_append _ hws, List.dropWhile_cons, if_neg (by decide)]
  unfold tm2
  rw [if_pos ?hcond]
  · rw [List.tail_cons, hdrop, List.tail_cons]
  case hcond =>
    refine ⟨by simp, ?_, ?_⟩
    · rw [List.tail_cons, htake]
      simpa using hne
    · rw [List.tail_cons, hdrop]
      simp

theorem tm3_some {s g r : List Char} (h : tm3 s = some (g, r)) :
    ∃ ws, s = "(annotation:".data ++ (ws ++ (g ++ ')' :: r)) ∧
      (∀ c ∈ ws, pySpace c = true) ∧ g ≠ [] ∧ (∀ c ∈ g, slugChar c = true) := by
  unfold tm3 at h
  split at h
  · rename_i hl
    obtain ⟨t, ht⟩ := leadsWith_iff.mp hl
    have hdrop : s.drop 12 = t := by
      rw [ht, show (12 : Nat) = ("(annotation:".data).length from by decide, List.drop_left]
    rw [hdrop] at h
    obtain ⟨sr, hp, hif⟩ := Option.bind_eq_some.mp h
    split at hif
    · rename_i hh
      injection hif with h2
      injection h2 with h3 h4
      obtain ⟨sr1, sr2⟩ := sr
      simp only at h3 h4 hh
      obtain ⟨c0, cs0, hc⟩ : ∃ c0 cs0, sr2 = c0 :: cs0 := by
        cases sr2 with
        | nil => simp at hh
        | cons a b => exact ⟨a, b, rfl⟩
      rw [hc] at hh h4
      simp only [List.head?_cons, Option.some.injEq] at hh
      simp only [List.tail_cons] at h4
      obtain ⟨ws, hws1, hws2, hws3, hws4, -⟩ := parseWsSlug_some hp
      refine ⟨ws, ?_, hws2, ?_, ?_⟩
      · rw [ht, hws1, hc, hh, h3, h4]
      · rw [← h3]; exact hws3
      · rw [← h3]; exact hws4
    · exact absurd hif (by simp)
  · exact absurd h (by simp)

theorem tm3_complete {ws g R : List Char} (hws : ∀ c ∈ ws, pySpace c = true)
    (hg1 : g ≠ []) (hg : ∀ c ∈ g, slugChar c = true) :
    tm3 ("(annotation:".data ++ (ws ++ (g ++ ')' :: R))) = some (g, R) := by
  unfold tm3
  rw [if_pos (leadsWith_refl_append _ _)]
  rw [show ("(annotation:".data ++ (ws ++ (g ++ ')' :: R))).drop 12 = ws ++ (g ++ ')' :: R)
    from by rw [show (12 : Nat) = ("(annotation:".data).length from by decide, List.drop_left]]
  rw [parseWsSlug_complete hws hg1 hg (fun c cs hr => by injection hr with h1 _; rw [← h1]; decide)]
  simp

theorem tm4_some {prev : Option Char} {s g r : List Char} (h : tm4 prev s = some (g, r)) :
    prev ≠ some '(' ∧ ∃ ws, s = "annotation:".data ++ (ws ++ (g ++ r)) ∧
      (∀ c ∈ ws, pySpace c = true) ∧ g ≠ [] ∧ (∀ c ∈ g, slugChar c = true) ∧
      (∀ c cs, r = c :: cs → slugChar c = false) := by
  unfold tm4 at h
  split at h
  · exact absurd h (by simp)
  · rename_i hprev
    split at h
    · rename_i hl
      obtain ⟨t, ht⟩ := leadsWith_iff.mp hl
      have hdrop : s.drop 11 = t := by
        rw [ht, show (11 : Nat) = ("annotation:".data).length from by decide, List.drop_left]
      rw [hdrop] at h
      obtain ⟨ws, hws1, hws2, hws3, hws4, hws5⟩ := parseWsSlug_some h
      exact ⟨hprev, ws, by rw [ht, hws1], hws2, hws3, hws4, hws5⟩
    · exact absurd h (by simp)

theorem tm4_ne_none {prev : Option Char} {ws g R : List Char} (hprev : prev ≠ some '(')
    (hws : ∀ c ∈ ws, pySpace c = true) (hg1 : g ≠ []) (hg : ∀ c ∈ g, slugChar c = true) :
    tm4 prev ("annotation:".data ++ (ws ++ (g ++ R))) ≠ none := by
  unfold tm4
  rw [if_neg hprev, if_pos (leadsWith_refl_append _ _)]
  rw [show ("annotation:".data ++ (ws ++ (g ++ R))).drop 11 = ws ++ (g ++ R)
    from by rw [show (11 : Nat) = ("annotation:".data).length from by decide, List.drop_left]]
  exact parseWsSlug_ne_none hws hg1 hg

/-- `tm4` ignores the preceding character as long as it is not an opening
parenthesis. -/
theorem tm4_prev_irrel {p1 p2 : Option Char} {s : List Char} (h1 : p1 ≠ some '(')
    (h2 : p2 ≠ some '(') : tm4 p1 s = tm4 p2 s := by
  unfold tm4
  rw [if_neg h1, if_neg h2]


/-! ### C6: the replacement blocks -/

theorem slugChar_ne {c : Char} (h : slugChar c = true) :
    c ≠ '[' ∧ c ≠ ']' ∧ c ≠ '(' ∧ c ≠ ')' ∧ c ≠ ':' := by
  refine ⟨?_, ?_, ?_, ?_, ?_⟩ <;>
  · rintro rfl
    exact absurd h (by decide)

theorem notMem_annTarget {g : List Char} (hg : SlugOK g) :
    '[' ∉ annTarget g ∧ ']' ∉ annTarget g := by
  constructor <;>
  · intro hm
    rw [annTarget] at hm
    rcases List.mem_cons.mp hm with h1 | h1
    · exact absurd h1 (by decide)
    · rcases List.mem_append.mp h1 with h2 | h2
      · exact absurd h2 (by decide)
      · rcases List.mem_append.mp h2 with h3 | h3
        · first
          | exact (slugChar_ne (hg _ h3)).1 rfl
          | exact (slugChar_ne (hg _ h3)).2.1 rfl
        · exact absurd h3 (by decide)

theorem notMem_title {g : List Char} (hg : SlugOK g) :
    '[' ∉ slugToTitle g ∧ ']' ∉ slugToTitle g ∧ '(' ∉ slugToTitle g ∧
      ')' ∉ slugToTitle g ∧ ':' ∉ slugToTitle g := by
  refine ⟨?_, ?_, ?_, ?_, ?_⟩ <;>
  · intro hm
    have hcl := titleClass_ne (title_chars hg hm)
    first
    | exact hcl.1 rfl
    | exact hcl.2.1 rfl
    | exact hcl.2.2.1 rfl
    | exact hcl.2.2.2.1 rfl
    | exact hcl.2.2.2.2 rfl

/-- `annLink` split into title and target. -/
theorem annLink_eq (g : List Char) :
    annLink g = '[' :: (slugToTitle g ++ ']' :: annTarget g) := by
  rw [annLink, annTarget]
  simp [List.append_assoc]

theorem notMem_colon_pre_annTarget : (':' : Char) ∉ "(annotation".data := by decide

/-- The colon decomposition of `annTarget`. -/
theorem annTarget_colon (g : List Char) :
    annTarget g = "(annotation".data ++ ':' :: (g ++ [')']) := by
  rw [annTarget]
  simp

/-- The colon decomposition of `annLink`. -/
theorem annLink_colon (g : List Char) :
    annLink g = ('[' :: (slugToTitle g ++ ']' :: "(annotation".data)) ++ ':' :: (g ++ [')']) := by
  rw [annLink_eq, annTarget_colon]
  simp

theorem colon_notMem_slug_paren {g : List Char} (hg : SlugOK g) : (':' : Char) ∉ g ++ [')'] := by
  intro hm
  rcases List.mem_append.mp hm with h1 | h1
  · exact (slugChar_ne (hg _ h1)).2.2.2.2 rfl
  · exact absurd h1 (by decide)

theorem colon_notMem_annLink_pre {g : List Char} (hg : SlugOK g) :
    (':' : Char) ∉ '[' :: (slugToTitle g ++ ']' :: "(annotation".data) := by
  intro hm
  rcases List.mem_cons.mp hm with h1 | h1
  · exact absurd h1 (by decide)
  · rcases List.mem_append.mp h1 with h2 | h2
    · exact (notMem_title hg).2.2.2.2 h2
    · rcases List.mem_cons.mp h2 with h3 | h3
      · exact absurd h3 (by decide)
      · exact absurd h3 (by decide)

/-- Where `annotation:` sits inside `annTarget`: only after the opening
parenthesis. -/
theorem annTarget_annPos {g u w : List Char} (hg : SlugOK g)
    (h : annTarget g = u ++ ("annotation:".data ++ w)) : u = ['('] := by
  have h2 : "(annotation".data ++ ':' :: (g ++ [')'])
      = (u ++ "annotation".data) ++ ':' :: w := by
    rw [← annTarget_colon, h]
    simp [List.append_assoc]
  have h3 := sep_split_unique notMem_colon_pre_annTarget (colon_notMem_slug_paren hg) h2
  have h4 : u ++ "annotation".data = ['('] ++ "annotation".data := h3.1.trans (by decide)
  exact (List.append_inj' h4 rfl).1

/-- Where `annotation:` sits inside `annLink`: only after the opening
parenthesis of the target. -/
theorem annLink_annPos {g u w : List Char} (hg : SlugOK g)
    (h : annLink g = u ++ ("annotation:".data ++ w)) :
    u = '[' :: (slugToTitle g ++ ']' :: ['(']) := by
  have h2 : ('[' :: (slugToTitle g ++ ']' :: "(annotation".data)) ++ ':' :: (g ++ [')'])
      = (u ++ "annotation".data) ++ ':' :: w := by
    rw [← annLink_colon, h]
    simp [List.append_assoc]
  have h3 := sep_split_unique (colon_notMem_annLink_pre hg) (colon_notMem_slug_paren hg) h2
  have h4 : u ++ "annotation".data
      = ('[' :: (slugToTitle g ++ ']' :: ['('])) ++ "annotation".data := by
    rw [h3.1]
    simp
  exact (List.append_inj' h4 rfl).1


theorem getLast_append_right {u v : List Char} (hv : v ≠ []) :
    (u ++ v).getLast? = v.getLast? :=
  List.getLast?_append_of_ne_nil u hv

/-- Inside a block whose only `annotation:` occurrence follows an opening
parenthesis and whose last character is a closing parenthesis, `tm4` never
fires at a proper offset. -/
theorem tm4_block_inside {S u v B : List Char}
    (hform : ∀ u2 w, S = u2 ++ ("annotation:".data ++ w) → u2.getLast? = some '(')
    (hlast : S.getLast? = some ')')
    (hsplit : S = u ++ v) (hv : v ≠ []) :
    tm4 u.getLast? (v ++ B) = none := by
  cases htm : tm4 u.getLast? (v ++ B) with
  | none => rfl
  | some val =>
    obtain ⟨val1, val2⟩ := val
    obtain ⟨hprev, ws, heq, -, -, -, -⟩ := tm4_some htm
    rcases List.append_eq_append_iff.mp heq with ⟨a2, ha1, ha2⟩ | ⟨c2, hc1, hc2⟩
    · have hvl : v.getLast hv ∈ "annotation:".data := by
        rw [ha1]
        exact List.mem_append.mpr (Or.inl (List.getLast_mem hv))
      have hvl2 : v.getLast? = some ')' := by
        rw [← hlast, hsplit]
        exact (getLast_append_right hv).symm
      have hvl3 : v.getLast hv = ')' := by
        have h5 := List.getLast?_eq_getLast v hv
        rw [h5] at hvl2
        injection hvl2
      rw [hvl3] at hvl
      exact absurd hvl (by decide)
    · exact absurd (hform u c2 (by rw [hsplit, hc1])) hprev

theorem annTarget_last (g : List Char) : (annTarget g).getLast? = some ')' := by
  have h : annTarget g = ("(annotation:".data ++ g) ++ [')'] := by
    rw [annTarget]
    simp
  rw [h, List.getLast?_concat]

theorem annLink_last {g : List Char} : (annLink g).getLast? = some ')' := by
  have h : annLink g = ('[' :: (slugToTitle g ++ (']' :: "(annotation:".data ++ g))) ++ [')'] := by
    rw [annLink_eq, annTarget]
    simp
  rw [h, List.getLast?_concat]

theorem notMem_annTarget_tail_paren {g : List Char} (hg : SlugOK g) :
    '(' ∉ "annotation:".data ++ (g ++ [')']) := by
  intro hm
  rcases List.mem_append.mp hm with h1 | h1
  · exact absurd h1 (by decide)
  · rcases List.mem_append.mp h1 with h2 | h2
    · exact (slugChar_ne (hg _ h2)).2.2.1 rfl
    · exact absurd h2 (by decide)

theorem notMem_annLink_tail_lb {g : List Char} (hg : SlugOK g) :
    '[' ∉ slugToTitle g ++ ']' :: annTarget g := by
  intro hm
  rcases List.mem_append.mp hm with h1 | h1
  · exact (notMem_title hg).1 h1
  · rcases List.mem_cons.mp h1 with h2 | h2
    · exact absurd h2 (by decide)
    · exact (notMem_annTarget hg).1 h2

/-- `tm1` never fires inside `annTarget`. -/
theorem blockT_tm1 {g u v B : List Char} (hg : SlugOK g)
    (hsplit : annTarget g = u ++ v) (hv : v ≠ []) : tm1 (v ++ B) = none := by
  cases htm : tm1 (v ++ B) with
  | none => rfl
  | some val =>
    obtain ⟨val1, val2⟩ := val
    obtain ⟨ws, heq, -, -, -⟩ := tm1_some htm
    obtain ⟨h0, v2, rfl⟩ : ∃ h0 v2, v = h0 :: v2 := by
      cases v with
      | nil => exact absurd rfl hv
      | cons a b => exact ⟨a, b, rfl⟩
    rw [show "[annotation:".data = '[' :: "annotation:".data from by decide] at heq
    simp only [List.cons_append] at heq
    injection heq with h1 _
    have hmem : '[' ∈ annTarget g := by
      rw [hsplit, ← h1]
      simp
    exact absurd hmem (notMem_annTarget hg).1

/-- `tm2` never fires inside `annTarget`. -/
theorem blockT_tm2 {g u v B : List Char} (hg : SlugOK g)
    (hsplit : annTarget g = u ++ v) (hv : v ≠ []) : tm2 (v ++ B) = none := by
  cases htm : tm2 (v ++ B) with
  | none => rfl
  | some val =>
    obtain ⟨ws, heq, -, -⟩ := tm2_some htm
    obtain ⟨h0, v2, rfl⟩ : ∃ h0 v2, v = h0 :: v2 := by
      cases v with
      | nil => exact absurd rfl hv
      | cons a b => exact ⟨a, b, rfl⟩
    simp only [List.cons_append] at heq
    injection heq with h1 _
    have hmem : ']' ∈ annTarget g := by
      rw [hsplit, ← h1]
      simp
    exact absurd hmem (notMem_annTarget hg).2

/-- A `tm3` match inside `annTarget` is the canonical target itself. -/
theorem blockT_tm3 {g u v B g2 r2 : List Char} (hg : SlugOK g)
    (hsplit : annTarget g = u ++ v) (hv : v ≠ [])
    (htm : tm3 (v ++ B) = some (g2, r2)) : v ++ B = annTarget g2 ++ r2 := by
  obtain ⟨ws, heq, hws, hg2ne, hg2⟩ := tm3_some htm
  cases u with
  | nil =>
    rw [List.nil_append] at hsplit
    subst hsplit
    have hcancel : g ++ ')' :: B = ws ++ (g2 ++ ')' :: r2) := by
      have h2 : "(annotation:".data ++ (g ++ ')' :: B)
          = "(annotation:".data ++ (ws ++ (g2 ++ ')' :: r2)) := by
        rw [← heq, annTarget]
        simp
      exact List.append_cancel_left h2
    have hws_nil : ws = [] := by
      cases hws0 : ws with
      | nil => rfl
      | cons w0 ws2 =>
        rw [hws0] at hcancel
        have hw0 : pySpace w0 = true := hws w0 (by rw [hws0]; simp)
        cases g with
        | nil =>
          simp only [List.nil_append, List.cons_append] at hcancel
          injection hcancel with hca _
          rw [← hca] at hw0
          exact absurd hw0 (by decide)
        | cons g0 gt =>
          simp only [List.cons_append] at hcancel
          injection hcancel with hca _
          rw [← hca] at hw0
          rw [slugChar_not_pySpace (hg g0 (by simp))] at hw0
          exact absurd hw0 (by simp)
    rw [hws_nil, List.nil_append] at hcancel
    have hsep := sep_eq_of_not_mem
      (fun hm => (slugChar_ne (hg _ hm)).2.2.2.1 rfl)
      (fun hm => (slugChar_ne (hg2 _ hm)).2.2.2.1 rfl) hcancel
    rw [← hsep.1, ← hsep.2]
  | cons u0 u2 =>
    obtain ⟨h0, v2, rfl⟩ : ∃ h0 v2, v = h0 :: v2 := by
      cases v with
      | nil => exact absurd rfl hv
      | cons a b => exact ⟨a, b, rfl⟩
    rw [show "(annotation:".data = '(' :: "annotation:".data from by decide] at heq
    simp only [List.cons_append] at heq
    injection heq with h1 _
    have htail : annTarget g = '(' :: ("annotation:".data ++ (g ++ [')'])) := by
      rw [annTarget]
    rw [htail] at hsplit
    simp only [List.cons_append] at hsplit
    injection hsplit with _ h3
    have hmem0 : '(' ∈ u2 ++ h0 :: v2 := by
      rw [← h1]
      simp
    rw [← h3] at hmem0
    have hmem : '(' ∈ "annotation:".data ++ (g ++ [')']) := by simpa using hmem0
    exact absurd hmem (notMem_annTarget_tail_paren hg)

/-- `tm4` never fires inside `annTarget` (the canonical position is
blocked by the lookbehind). -/
theorem blockT_tm4 {g u v B : List Char} (hg : SlugOK g)
    (hsplit : annTarget g = u ++ v) (hv : v ≠ []) (p : Option Char)
    (hp : u ≠ [] → p = u.getLast?) :
    tm4 p (v ++ B) = none := by
  cases u with
  | nil =>
    rw [List.nil_append] at hsplit
    subst hsplit
    have hh : annTarget g ++ B = '(' :: ("annotation:".data ++ (g ++ [')']) ++ B) := by
      rw [annTarget]
      simp [List.append_assoc]
    rw [hh]
    unfold tm4
    split
    · rfl
    · rw [if_neg ?hcond]
      case hcond =>
        rw [show "annotation:".data = 'a' :: "nnotation:".data from by decide]
        simp [leadsWith]
  | cons u0 u2 =>
    rw [hp (by simp)]
    refine tm4_block_inside ?_ (annTarget_last g) hsplit hv
    intro u2b w h
    rw [annTarget_annPos hg h]
    rfl

/-- `tm1` never fires inside `annLink`. -/
theorem blockL_tm1 {g u v B : List Char} (hg : SlugOK g)
    (hsplit : annLink g = u ++ v) (hv : v ≠ []) : tm1 (v ++ B) = none := by
  cases htm : tm1 (v ++ B) with
  | none => rfl
  | some val =>
    obtain ⟨val1, val2⟩ := val
    obtain ⟨ws, heq, -, -, -⟩ := tm1_some htm
    rw [show "[annotation:".data = '[' :: 'a' :: "nnotation:".data from by decide] at heq
    cases u with
    | nil =>
      rw [List.nil_append] at hsplit
      subst hsplit
      rw [annLink_eq] at heq
      simp only [List.cons_append] at heq
      injection heq with _ h2
      cases hT : slugToTitle g with
      | nil =>
        rw [hT] at h2
        simp only [List.nil_append, List.cons_append] at h2
        injection h2 with h3 _
        exact absurd h3 (by decide)
      | cons t0 T2 =>
        rw [hT] at h2
        simp only [List.cons_append] at h2
        injection h2 with h3 _
        exact absurd h3 (title_head_ne hg hT)
    | cons u0 u2 =>
      obtain ⟨h0, v2, rfl⟩ : ∃ h0 v2, v = h0 :: v2 := by
        cases v with
        | nil => exact absurd rfl hv
        | cons a b => exact ⟨a, b, rfl⟩
      simp only [List.cons_append] at heq
      injection heq with h1 _
      rw [annLink_eq] at hsplit
      simp only [List.cons_append] at hsplit
      injection hsplit with _ h3
      have hmem0 : '[' ∈ u2 ++ h0 :: v2 := by
        rw [← h1]
        simp
      rw [← h3] at hmem0
      exact absurd hmem0 (notMem_annLink_tail_lb hg)

/-- `tm2` never fires inside `annLink`. -/
theorem blockL_tm2 {g u v B : List Char} (hg : SlugOK g)
    (hsplit : annLink g = u ++ v) (hv : v ≠ []) : tm2 (v ++ B) = none := by
  cases htm : tm2 (v ++ B) with
  | none => rfl
  | some val =>
    obtain ⟨ws, heq, hwsne, hws⟩ := tm2_some htm
    obtain ⟨h0, v2, rfl⟩ : ∃ h0 v2, v = h0 :: v2 := by
      cases v with
      | nil => exact absurd rfl hv
      | cons a b => exact ⟨a, b, rfl⟩
    simp only [List.cons_append] at heq
    injection heq with h1 h2
    rw [h1] at hsplit
    have hlk : ('[' :: slugToTitle g) ++ ']' :: annTarget g = u ++ ']' :: v2 := by
      rw [← hsplit, annLink_eq]
      simp
    have hsep := sep_split_unique
      (fun hm => by
        rcases List.mem_cons.mp hm with h3 | h3
        · exact absurd h3 (by decide)
        · exact (notMem_title hg).2.1 h3)
      (notMem_annTarget hg).2 hlk
    obtain ⟨w0, ws2, rfl⟩ : ∃ w0 ws2, ws = w0 :: ws2 := by
      cases ws with
      | nil => exact absurd rfl hwsne
      | cons a b => exact ⟨a, b, rfl⟩
    rw [hsep.2] at h2
    have htg : annTarget g ++ B = '(' :: ("annotation:".data ++ (g ++ [')']) ++ B) := by
      rw [annTarget]
      simp [List.append_assoc]
    rw [htg] at h2
    simp only [List.cons_append] at h2
    injection h2 with h3 _
    have hw0 : pySpace w0 = true := hws w0 (by simp)
    rw [← h3] at hw0
    exact absurd hw0 (by decide)

/-- A `tm3` match inside `annLink` is the canonical target. -/
theorem blockL_tm3 {g u v B g2 r2 : List Char} (hg : SlugOK g)
    (hsplit : annLink g = u ++ v) (hv : v ≠ [])
    (htm : tm3 (v ++ B) = some (g2, r2)) : v ++ B = annTarget g2 ++ r2 := by
  obtain ⟨ws, heq, -, -, -⟩ := tm3_some htm
  obtain ⟨h0, v2, rfl⟩ : ∃ h0 v2, v = h0 :: v2 := by
    cases v with
    | nil => exact absurd rfl hv
    | cons a b => exact ⟨a, b, rfl⟩
  rw [show "(annotation:".data = '(' :: "annotation:".data from by decide] at heq
  simp only [List.cons_append] at heq
  injection heq with h1 _
  rw [h1] at hsplit
  have hlk : ('[' :: (slugToTitle g ++ [']'])) ++ '(' :: ("annotation:".data ++ (g ++ [')']))
      = u ++ '(' :: v2 := by
    rw [← hsplit, annLink_eq, annTarget]
    simp [List.append_assoc]
  have hsep := sep_split_unique
    (fun hm => by
      rcases List.mem_cons.mp hm with h3 | h3
      · exact absurd h3 (by decide)
      · rcases List.mem_append.mp h3 with h4 | h4
        · exact (notMem_title hg).2.2.1 h4
        · exact absurd h4 (by decide))
    (notMem_annTarget_tail_paren hg) hlk
  have hva : h0 :: v2 = annTarget g := by
    rw [annTarget, h1, hsep.2]
  rw [hva] at htm ⊢
  exact blockT_tm3 hg (by rw [List.nil_append]) (by rw [annTarget]; simp) htm

/-- `tm4` never fires inside `annLink`. -/
theorem blockL_tm4 {g u v B : List Char} (hg : SlugOK g)
    (hsplit : annLink g = u ++ v) (hv : v ≠ []) (p : Option Char)
    (hp : u ≠ [] → p = u.getLast?) :
    tm4 p (v ++ B) = none := by
  cases u with
  | nil =>
    rw [List.nil_append] at hsplit
    subst hsplit
    have hh : annLink g ++ B = '[' :: ((slugToTitle g ++ ']' :: annTarget g) ++ B) := by
      rw [annLink_eq]
      simp
    rw [hh]
    unfold tm4
    split
    · rfl
    · rw [if_neg ?hcond]
      case hcond =>
        rw [show "annotation:".data = 'a' :: "nnotation:".data from by decide]
        simp [leadsWith]
  | cons u0 u2 =>
    rw [hp (by simp)]
    refine tm4_block_inside ?_ annLink_last hsplit hv
    intro u2b w h
    rw [annLink_annPos hg h]
    have hcc : '[' :: (slugToTitle g ++ ']' :: ['('])
        = ('[' :: (slugToTitle g ++ [']'])) ++ ['('] := by
      simp
    rw [hcc, List.getLast?_concat]


/-! ### C6: scan combinators -/

theorem split_block {A B X Y : List Char} (h : A ++ B = X ++ Y) :
    (∃ v, v ≠ [] ∧ A = X ++ v ∧ Y = v ++ B) ∨ (∃ w, X = A ++ w ∧ B = w ++ Y) := by
  rcases List.append_eq_append_iff.mp h with ⟨a2, h1, h2⟩ | ⟨c2, h1, h2⟩
  · exact Or.inr ⟨a2, h1, h2⟩
  · cases c2 with
    | nil =>
      right
      refine ⟨[], ?_, ?_⟩
      · rw [h1]
        simp
      · rw [h2]
        simp
    | cons x c22 => exact Or.inl ⟨x :: c22, by simp, h1, h2⟩

/-- Transfer of a candidate match across the first divergence between a
pass's input and output: if the output's head piece avoids the divergence
character, the piece is also an input prefix. -/
theorem prefix_transfer {OUT cs mtail R : List Char} {τ : Char}
    (hout : OUT = mtail ++ R)
    (hdiv : OUT = cs ∨ ∃ F t1 t2, cs = F ++ t1 ∧ OUT = F ++ τ :: t2)
    (hτ : τ ∉ mtail) :
    ∃ R2, cs = mtail ++ R2 := by
  rcases hdiv with h | ⟨F, t1, t2, h1, h2⟩
  · exact ⟨R, by rw [← h, hout]⟩
  · rw [hout] at h2
    rcases List.append_eq_append_iff.mp h2 with ⟨a2, ha1, ha2⟩ | ⟨c2, hc1, hc2⟩
    · exact ⟨a2 ++ t1, by rw [h1, ha1]; simp [List.append_assoc]⟩
    · cases c2 with
      | nil =>
        refine ⟨t1, ?_⟩
        rw [h1, hc1]
        simp
      | cons x c22 =>
        injection hc2 with hx _
        rw [← hx] at hc1
        exact absurd (by rw [hc1]; simp : τ ∈ mtail) hτ

theorem dropWhile_eq_self {p : Char → Bool} {l : List Char}
    (h : ∀ c ∈ l, p c = false) : l.dropWhile p = l := by
  cases l with
  | nil => rfl
  | cons a l2 =>
    rw [List.dropWhile_cons, if_neg (by simp [h a (by simp)])]

theorem pyStrip_slug {g : List Char} (hg : ∀ c ∈ g, slugChar c = true) :
    pyStrip g = g := by
  rw [pyStrip, dropWhile_eq_self (fun c hc => slugChar_not_pySpace (hg c hc)),
    dropWhile_eq_self (fun c hc => slugChar_not_pySpace (hg c (by simpa using hc)))]
  simp

theorem annPass1_cons_none {c : Char} {cs : List Char} (h : tm1 (c :: cs) = none) :
    annPass1 (c :: cs) = c :: annPass1 cs := by
  simp only [annPass1]
  split
  · rename_i sr heq
    rw [h] at heq
    simp at heq
  · rfl

theorem annPass1_cons_some {c : Char} {cs g r : List Char}
    (h : tm1 (c :: cs) = some (g, r)) :
    annPass1 (c :: cs) = annLink (pyStrip g) ++ annPass1 r := by
  simp only [annPass1]
  split
  · rename_i sr heq
    rw [h] at heq
    injection heq with h2
    rw [← h2]
  · rename_i heq
    rw [h] at heq
    simp at heq

theorem annPass2_cons_none {c : Char} {cs : List Char} (h : tm2 (c :: cs) = none) :
    annPass2 (c :: cs) = c :: annPass2 cs := by
  simp only [annPass2]
  split
  · rename_i r heq
    rw [h] at heq
    simp at heq
  · rfl

theorem annPass2_cons_some {c : Char} {cs r : List Char} (h : tm2 (c :: cs) = some r) :
    annPass2 (c :: cs) = ']' :: '(' :: annPass2 r := by
  simp only [annPass2]
  split
  · rename_i r2 heq
    rw [h] at heq
    injection heq with h2
    rw [← h2]
  · rename_i heq
    rw [h] at heq
    simp at heq

theorem annPass3_cons_none {c : Char} {cs : List Char} (h : tm3 (c :: cs) = none) :
    annPass3 (c :: cs) = c :: annPass3 cs := by
  simp only [annPass3]
  split
  · rename_i sr heq
    rw [h] at heq
    simp at heq
  · rfl

theorem annPass3_cons_some {c : Char} {cs g r : List Char}
    (h : tm3 (c :: cs) = some (g, r)) :
    annPass3 (c :: cs) = annTarget g ++ annPass3 r := by
  simp only [annPass3]
  split
  · rename_i sr heq
    rw [h] at heq
    injection heq with h2
    rw [← h2]
  · rename_i heq
    rw [h] at heq
    simp at heq

theorem pass4Go_cons_none {p : Option Char} {c : Char} {cs : List Char}
    (h : tm4 p (c :: cs) = none) :
    pass4Go p (c :: cs) = c :: pass4Go (some c) cs := by
  simp only [pass4Go]
  split
  · rename_i sr heq
    rw [h] at heq
    simp at heq
  · rfl

theorem pass4Go_cons_some {p : Option Char} {c : Char} {cs g r : List Char}
    (h : tm4 p (c :: cs) = some (g, r)) :
    pass4Go p (c :: cs) = annLink g ++ pass4Go g.getLast? r := by
  simp only [pass4Go]
  split
  · rename_i sr heq
    rw [h] at heq
    injection heq with h2
    rw [← h2]
  · rename_i heq
    rw [h] at heq
    simp at heq

/-- First divergence of pass 1: the output either is the input or departs
from it at an opening bracket. -/
theorem annPass1_div : ∀ (s : List Char), annPass1 s = s ∨
    ∃ F t1 t2, s = F ++ t1 ∧ annPass1 s = F ++ '[' :: t2 := by
  intro s
  induction s using annPass1.induct with
  | case1 =>
    left
    simp [annPass1]
  | case2 c cs sr h =>
    right
    obtain ⟨g, r⟩ := sr
    refine ⟨[], c :: cs, slugToTitle (pyStrip g) ++
      (']' :: annTarget (pyStrip g)) ++ annPass1 r, by simp, ?_⟩
    rw [annPass1_cons_some h, annLink_eq]
    simp [List.append_assoc]
  | case3 c cs h ih =>
    rcases ih with h2 | ⟨F, t1, t2, h3, h4⟩
    · left
      rw [annPass1_cons_none h, h2]
    · right
      refine ⟨c :: F, t1, t2, by rw [h3]; rfl, ?_⟩
      rw [annPass1_cons_none h, h4]
      rfl


/-- First divergence of pass 2: both sides keep the closing bracket; the
output departs right after it. -/
theorem annPass2_div : ∀ (s : List Char), annPass2 s = s ∨
    ∃ F t1 t2, s = F ++ ']' :: t1 ∧ annPass2 s = F ++ ']' :: '(' :: t2 := by
  intro s
  induction s using annPass2.induct with
  | case1 =>
    left
    simp [annPass2]
  | case2 c cs r h =>
    right
    obtain ⟨ws, heq, -, -⟩ := tm2_some h
    injection heq with h1 h2
    exact ⟨[], cs, annPass2 r, by rw [h1]; rfl, by rw [annPass2_cons_some h]; rfl⟩
  | case3 c cs h ih =>
    rcases ih with h2 | ⟨F, t1, t2, h3, h4⟩
    · left
      rw [annPass2_cons_none h, h2]
    · right
      refine ⟨c :: F, t1, t2, by rw [h3]; rfl, ?_⟩
      rw [annPass2_cons_none h, h4]
      rfl

/-- First divergence of pass 3: both sides keep the opening parenthesis. -/
theorem annPass3_div : ∀ (s : List Char), annPass3 s = s ∨
    ∃ F t1 t2, s = F ++ '(' :: t1 ∧ annPass3 s = F ++ '(' :: t2 := by
  intro s
  induction s using annPass3.induct with
  | case1 =>
    left
    simp [annPass3]
  | case2 c cs sr h =>
    right
    obtain ⟨g, r⟩ := sr
    obtain ⟨ws, heq, -, -, -⟩ := tm3_some h
    rw [show "(annotation:".data = '(' :: "annotation:".data from by decide] at heq
    injection heq with h1 h2
    refine ⟨[], cs, "annotation:".data ++ (g ++ [')']) ++ annPass3 r, by rw [h1]; rfl, ?_⟩
    rw [annPass3_cons_some h, annTarget]
    simp [List.append_assoc]
  | case3 c cs h ih =>
    rcases ih with h2 | ⟨F, t1, t2, h3, h4⟩
    · left
      rw [annPass3_cons_none h, h2]
    · right
      refine ⟨c :: F, t1, t2, by rw [h3]; rfl, ?_⟩
      rw [annPass3_cons_none h, h4]
      rfl

/-- First divergence of pass 4: the output departs at an opening
bracket. -/
theorem pass4Go_div : ∀ (s : List Char) (p : Option Char), pass4Go p s = s ∨
    ∃ F t1 t2, s = F ++ t1 ∧ pass4Go p s = F ++ '[' :: t2 := by
  intro s p
  induction p, s using pass4Go.induct with
  | case1 p =>
    left
    simp [pass4Go]
  | case2 p c cs sr h =>
    right
    obtain ⟨g, r⟩ := sr
    refine ⟨[], c :: cs, slugToTitle g ++ (']' :: annTarget g) ++ pass4Go g.getLast? r,
      by simp, ?_⟩
    rw [pass4Go_cons_some h, annLink_eq]
    simp [List.append_assoc]
  | case3 p c cs h ih =>
    rcases ih with h2 | ⟨F, t1, t2, h3, h4⟩
    · left
      rw [pass4Go_cons_none h, h2]
    · right
      refine ⟨c :: F, t1, t2, by rw [h3]; rfl, ?_⟩
      rw [pass4Go_cons_none h, h4]
      rfl


/-- Variant of the transfer for a candidate whose head piece may end with
the divergence character, when the input shares that character. -/
theorem prefix_transfer2 {OUT cs mtail R : List Char} {τ : Char}
    (hout : OUT = mtail ++ R)
    (hdiv : OUT = cs ∨ ∃ F t1 t2, cs = F ++ τ :: t1 ∧ OUT = F ++ τ :: t2)
    (hτ : ∀ u v, mtail = u ++ τ :: v → v = []) :
    ∃ R2, cs = mtail ++ R2 := by
  rcases hdiv with h | ⟨F, t1, t2, h1, h2⟩
  · exact ⟨R, by rw [← h, hout]⟩
  · rw [hout] at h2
    rcases List.append_eq_append_iff.mp h2 with ⟨a2, ha1, ha2⟩ | ⟨c2, hc1, hc2⟩
    · exact ⟨a2 ++ τ :: t1, by rw [h1, ha1]; simp [List.append_assoc]⟩
    · cases c2 with
      | nil =>
        refine ⟨τ :: t1, ?_⟩
        rw [h1, hc1]
        simp
      | cons x c22 =>
        injection hc2 with hx _
        rw [← hx] at hc1
        have hc22 : c22 = [] := hτ F c22 hc1
        rw [hc22] at hc1
        refine ⟨t1, ?_⟩
        rw [h1, hc1]
        simp

theorem only_last {τ : Char} {A u v : List Char} (hA : τ ∉ A)
    (h : A ++ [τ] = u ++ τ :: v) : v = [] :=
  (sep_split_unique hA (by simp) h).2

/-- No pass-1 match anywhere. -/
def NoM1 (t : List Char) : Prop := ∀ X Y, t = X ++ Y → tm1 Y = none

/-- No pass-2 match anywhere. -/
def NoM2 (t : List Char) : Prop := ∀ X Y, t = X ++ Y → tm2 Y = none

/-- Every pass-3 match is already canonical. -/
def Can3 (t : List Char) : Prop :=
  ∀ X Y g r, t = X ++ Y → tm3 Y = some (g, r) → Y = annTarget g ++ r

/-- No pass-4 match anywhere (the preceding character of a position is the
last character of the text before it). -/
def NoM4 (t : List Char) : Prop := ∀ X Y, t = X ++ Y → tm4 X.getLast? Y = none

theorem NoM1_tail {c : Char} {cs : List Char} (h : NoM1 (c :: cs)) : NoM1 cs :=
  fun X Y hxy => h (c :: X) Y (by rw [hxy]; rfl)

theorem NoM2_tail {c : Char} {cs : List Char} (h : NoM2 (c :: cs)) : NoM2 cs :=
  fun X Y hxy => h (c :: X) Y (by rw [hxy]; rfl)

theorem Can3_tail {c : Char} {cs : List Char} (h : Can3 (c :: cs)) : Can3 cs :=
  fun X Y g r hxy htm => h (c :: X) Y g r (by rw [hxy]; rfl) htm

theorem Can3_drop {A t : List Char} (h : Can3 (A ++ t)) : Can3 t :=
  fun X Y g r hxy htm => h (A ++ X) Y g r (by rw [hxy]; simp [List.append_assoc]) htm

/-- The output of pass 1 has no pass-1 match. -/
theorem noM1_annPass1 : ∀ (L : Nat) (s : List Char), s.length ≤ L →
    NoM1 (annPass1 s) := by
  intro L
  induction L with
  | zero =>
    intro s hs X Y hxy
    have hnil : s = [] := by
      cases s with
      | nil => rfl
      | cons a b => simp at hs
    subst hnil
    have h0 : annPass1 [] = [] := by simp [annPass1]
    rw [h0] at hxy
    rcases List.append_eq_nil.mp hxy.symm with ⟨-, h2⟩
    rw [h2]
    decide
  | succ L ihL =>
    intro s hs X Y hxy
    cases s with
    | nil =>
      have h0 : annPass1 [] = [] := by simp [annPass1]
      rw [h0] at hxy
      rcases List.append_eq_nil.mp hxy.symm with ⟨-, h2⟩
      rw [h2]
      decide
    | cons c cs =>
      have hlen : cs.length ≤ L := by
        simp only [List.length_cons] at hs
        omega
      cases h3 : tm1 (c :: cs) with
      | none =>
        rw [annPass1_cons_none h3] at hxy
        cases X with
        | nil =>
          rw [List.nil_append] at hxy
          subst hxy
          cases htm : tm1 (c :: annPass1 cs) with
          | none => rfl
          | some val =>
            exfalso
            obtain ⟨g2, r2⟩ := val
            obtain ⟨ws, heq, hws, hgne, hgs⟩ := tm1_some htm
            rw [show "[annotation:".data = '[' :: "annotation:".data from by decide] at heq
            simp only [List.cons_append] at heq
            injection heq with hc hout2
            have hout3 : annPass1 cs
                = ("annotation:".data ++ (ws ++ (g2 ++ [']']))) ++ r2 := by
              rw [hout2]
              simp [List.append_assoc]
            have hτ : '[' ∉ "annotation:".data ++ (ws ++ (g2 ++ [']'])) := by
              intro hm
              rcases List.mem_append.mp hm with h5 | h5
              · exact absurd h5 (by decide)
              · rcases List.mem_append.mp h5 with h6 | h6
                · exact absurd (hws _ h6) (by decide)
                · rcases List.mem_append.mp h6 with h7 | h7
                  · exact absurd (hgs _ h7) (by decide)
                  · exact absurd h7 (by decide)
            obtain ⟨R2, hR2⟩ := prefix_transfer hout3 (annPass1_div cs) hτ
            have hfull : tm1 (c :: cs) ≠ none := by
              have hcfull : c :: cs = "[annotation:".data ++ (ws ++ (g2 ++ ']' :: R2)) := by
                rw [hc, hR2, show "[annotation:".data = '[' :: "annotation:".data from by decide]
                simp [List.append_assoc]
              rw [hcfull]
              exact tm1_ne_none hws hgne hgs
            exact hfull h3
        | cons x X2 =>
          injection hxy with _ hxy2
          exact ihL cs hlen X2 Y hxy2
      | some val =>
        obtain ⟨g, r⟩ := val
        obtain ⟨ws, hin, hws, hgne, hgs⟩ := tm1_some h3
        have hr : r.length ≤ L := by
          have := tm1_rest_lt h3
          simp only [List.length_cons] at this
          omega
        rw [annPass1_cons_some h3, pyStrip_slug hgs] at hxy
        rcases split_block hxy with ⟨v, hvne, hsp, hY⟩ | ⟨w, hX, hB⟩
        · rw [hY]
          exact blockL_tm1 hgs hsp hvne
        · exact ihL r hr w Y hB


theorem NoM1_drop {A t : List Char} (h : NoM1 (A ++ t)) : NoM1 t :=
  fun X Y hxy => h (A ++ X) Y (by rw [hxy]; simp [List.append_assoc])

theorem NoM2_drop {A t : List Char} (h : NoM2 (A ++ t)) : NoM2 t :=
  fun X Y hxy => h (A ++ X) Y (by rw [hxy]; simp [List.append_assoc])

theorem tm1_nil : tm1 [] = none := by decide

theorem tm2_nil : tm2 [] = none := by decide

theorem tm3_nil : tm3 [] = none := by decide

theorem tm2_rb_paren (Z : List Char) : tm2 (']' :: '(' :: Z) = none := by
  unfold tm2
  rw [if_neg]
  rintro ⟨-, h2, -⟩
  rw [List.tail_cons, List.takeWhile_cons, if_neg (by decide)] at h2
  exact h2 rfl

/-- The output of pass 2 has no pass-2 match. -/
theorem noM2_annPass2 : ∀ (L : Nat) (s : List Char), s.length ≤ L →
    NoM2 (annPass2 s) := by
  intro L
  induction L with
  | zero =>
    intro s hs X Y hxy
    have hnil : s = [] := by
      cases s with
      | nil => rfl
      | cons a b => simp at hs
    subst hnil
    have h0 : annPass2 [] = [] := by simp [annPass2]
    rw [h0] at hxy
    rcases List.append_eq_nil.mp hxy.symm with ⟨-, h2⟩
    rw [h2]
    decide
  | succ L ihL =>
    intro s hs X Y hxy
    cases s with
    | nil =>
      have h0 : annPass2 [] = [] := by simp [annPass2]
      rw [h0] at hxy
      rcases List.append_eq_nil.mp hxy.symm with ⟨-, h2⟩
      rw [h2]
      decide
    | cons c cs =>
      have hlen : cs.length ≤ L := by
        simp only [List.length_cons] at hs
        omega
      cases h3 : tm2 (c :: cs) with
      | none =>
        rw [annPass2_cons_none h3] at hxy
        cases X with
        | nil =>
          rw [List.nil_append] at hxy
          subst hxy
          cases htm : tm2 (c :: annPass2 cs) with
          | none => rfl
          | some r2 =>
            exfalso
            obtain ⟨ws, heq, hwsne, hws⟩ := tm2_some htm
            injection heq with hc hout2
            have hout3 : annPass2 cs = (ws ++ ['(']) ++ r2 := by
              rw [hout2]
              simp [List.append_assoc]
            have hdiv : annPass2 cs = cs ∨ ∃ F t1 t2, cs = F ++ t1 ∧
                annPass2 cs = F ++ ']' :: t2 := by
              rcases annPass2_div cs with h4 | ⟨F, t1, t2, h5, h6⟩
              · exact Or.inl h4
              · exact Or.inr ⟨F, ']' :: t1, '(' :: t2, h5, h6⟩
            have hτ : ']' ∉ ws ++ ['('] := by
              intro hm
              rcases List.mem_append.mp hm with h5 | h5
              · exact absurd (hws _ h5) (by decide)
              · exact absurd h5 (by decide)
            obtain ⟨R2, hR2⟩ := prefix_transfer hout3 hdiv hτ
            have hfull : tm2 (c :: cs) ≠ none := by
              have hcfull : c :: cs = ']' :: (ws ++ '(' :: R2) := by
                rw [hc, hR2]
                simp [List.append_assoc]
              rw [hcfull, tm2_complete hwsne hws]
              simp
            exact hfull h3
        | cons x X2 =>
          injection hxy with _ hxy2
          exact ihL cs hlen X2 Y hxy2
      | some r =>
        obtain ⟨ws, hin, hwsne, hws⟩ := tm2_some h3
        have hr : r.length ≤ L := by
          have := tm2_rest_lt h3
          simp only [List.length_cons] at this
          omega
        rw [annPass2_cons_some h3] at hxy
        cases X with
        | nil =>
          rw [List.nil_append] at hxy
          subst hxy
          exact tm2_rb_paren (annPass2 r)
        | cons x X2 =>
          injection hxy with hx hxy2
          cases X2 with
          | nil =>
            have hxy3 : '(' :: annPass2 r = Y := hxy2
            subst hxy3
            cases htm : tm2 ('(' :: annPass2 r) with
            | none => rfl
            | some r2 =>
              obtain ⟨ws2, heq, -, -⟩ := tm2_some htm
              injection heq with hc _
              exact absurd hc (by decide)
          | cons x2 X3 =>
            injection hxy2 with _ hxy3
            exact ihL r hr X3 Y hxy3

/-- Every pass-3 match in the output of pass 3 is canonical. -/
theorem can3_annPass3 : ∀ (L : Nat) (s : List Char), s.length ≤ L →
    Can3 (annPass3 s) := by
  intro L
  induction L with
  | zero =>
    intro s hs X Y g r hxy htm
    have hnil : s = [] := by
      cases s with
      | nil => rfl
      | cons a b => simp at hs
    subst hnil
    have h0 : annPass3 [] = [] := by simp [annPass3]
    rw [h0] at hxy
    rcases List.append_eq_nil.mp hxy.symm with ⟨-, h2⟩
    rw [h2, tm3_nil] at htm
    exact absurd htm (by simp)
  | succ L ihL =>
    intro s hs X Y g r hxy htm
    cases s with
    | nil =>
      have h0 : annPass3 [] = [] := by simp [annPass3]
      rw [h0] at hxy
      rcases List.append_eq_nil.mp hxy.symm with ⟨-, h2⟩
      rw [h2, tm3_nil] at htm
      exact absurd htm (by simp)
    | cons c cs =>
      have hlen : cs.length ≤ L := by
        simp only [List.length_cons] at hs
        omega
      cases h3 : tm3 (c :: cs) with
      | none =>
        rw [annPass3_cons_none h3] at hxy
        cases X with
        | nil =>
          exfalso
          rw [List.nil_append] at hxy
          subst hxy
          obtain ⟨ws, heq, hws, hgne, hgs⟩ := tm3_some htm
          rw [show "(annotation:".data = '(' :: "annotation:".data from by decide] at heq
          simp only [List.cons_append] at heq
          injection heq with hc hout2
          have hout3 : annPass3 cs
              = ("annotation:".data ++ (ws ++ (g ++ [')']))) ++ r := by
            rw [hout2]
            simp [List.append_assoc]
          have hdiv : annPass3 cs = cs ∨ ∃ F t1 t2, cs = F ++ t1 ∧
              annPass3 cs = F ++ '(' :: t2 := by
            rcases annPass3_div cs with h4 | ⟨F, t1, t2, h5, h6⟩
            · exact Or.inl h4
            · exact Or.inr ⟨F, '(' :: t1, t2, h5, h6⟩
          have hτ : '(' ∉ "annotation:".data ++ (ws ++ (g ++ [')'])) := by
            intro hm
            rcases List.mem_append.mp hm with h5 | h5
            · exact absurd h5 (by decide)
            · rcases List.mem_append.mp h5 with h6 | h6
              · exact absurd (hws _ h6) (by decide)
              · rcases List.mem_append.mp h6 with h7 | h7
                · exact absurd (hgs _ h7) (by decide)
                · exact absurd h7 (by decide)
          obtain ⟨R2, hR2⟩ := prefix_transfer hout3 hdiv hτ
          have hfull : tm3 (c :: cs) ≠ none := by
            have hcfull : c :: cs = "(annotation:".data ++ (ws ++ (g ++ ')' :: R2)) := by
              rw [hc, hR2, show "(annotation:".data = '(' :: "annotation:".data from by decide]
              simp [List.append_assoc]
            rw [hcfull, tm3_complete hws hgne hgs]
            simp
          exact hfull h3
        | cons x X2 =>
          injection hxy with _ hxy2
          exact ihL cs hlen X2 Y g r hxy2 htm
      | some val =>
        obtain ⟨g0, r0⟩ := val
        obtain ⟨ws, hin, hws, hgne, hgs⟩ := tm3_some h3
        have hr : r0.length ≤ L := by
          have := tm3_rest_lt h3
          simp only [List.length_cons] at this
          omega
        rw [annPass3_cons_some h3] at hxy
        rcases split_block hxy with ⟨v, hvne, hsp, hY⟩ | ⟨w, hX, hB⟩
        · rw [hY] at htm ⊢
          exact blockT_tm3 hgs hsp hvne htm
        · exact ihL r0 hr w Y g r hB htm


/-- The lookbehind character of a scan position: the last character of the
consumed output, or the inherited one at the very start. -/
def lastOr (p : Option Char) (l : List Char) : Option Char :=
  match l with
  | [] => p
  | _ :: _ => l.getLast?

theorem lastOr_shift (p : Option Char) (c : Char) (X : List Char) :
    lastOr p (c :: X) = lastOr (some c) X := by
  cases X with
  | nil => rfl
  | cons x xs =>
    show (c :: x :: xs).getLast? = (x :: xs).getLast?
    exact List.getLast?_cons_cons

theorem tm4_nil (p : Option Char) : tm4 p [] = none := by
  unfold tm4
  split
  · rfl
  · rw [if_neg]
    rw [show "annotation:".data = 'a' :: "nnotation:".data from by decide]
    simp [leadsWith]

/-- The output of pass 4 has no pass-4 match, whatever the inherited
lookbehind. -/
theorem noM4_pass4Go : ∀ (L : Nat) (s : List Char) (p : Option Char), s.length ≤ L →
    ∀ X Y, pass4Go p s = X ++ Y → tm4 (lastOr p X) Y = none := by
  intro L
  induction L with
  | zero =>
    intro s p hs X Y hxy
    have hnil : s = [] := by
      cases s with
      | nil => rfl
      | cons a b => simp at hs
    subst hnil
    have h0 : pass4Go p [] = [] := by simp [pass4Go]
    rw [h0] at hxy
    rcases List.append_eq_nil.mp hxy.symm with ⟨h1, h2⟩
    rw [h2, h1]
    exact tm4_nil p
  | succ L ihL =>
    intro s p hs X Y hxy
    cases s with
    | nil =>
      have h0 : pass4Go p [] = [] := by simp [pass4Go]
      rw [h0] at hxy
      rcases List.append_eq_nil.mp hxy.symm with ⟨h1, h2⟩
      rw [h2, h1]
      exact tm4_nil p
    | cons c cs =>
      have hlen : cs.length ≤ L := by
        simp only [List.length_cons] at hs
        omega
      cases h3 : tm4 p (c :: cs) with
      | none =>
        rw [pass4Go_cons_none h3] at hxy
        cases X with
        | nil =>
          rw [List.nil_append] at hxy
          subst hxy
          cases htm : tm4 (lastOr p []) (c :: pass4Go (some c) cs) with
          | none => rfl
          | some val =>
            exfalso
            obtain ⟨g2, r2⟩ := val
            obtain ⟨hprev, ws, heq, hws, hgne, hgs, -⟩ := tm4_some htm
            rw [show "annotation:".data = 'a' :: "nnotation:".data from by decide] at heq
            simp only [List.cons_append] at heq
            injection heq with hc hout2
            have hout3 : pass4Go (some c) cs
                = ("nnotation:".data ++ (ws ++ g2)) ++ r2 := by
              rw [hout2]
              simp [List.append_assoc]
            have hτ : '[' ∉ "nnotation:".data ++ (ws ++ g2) := by
              intro hm
              rcases List.mem_append.mp hm with h5 | h5
              · exact absurd h5 (by decide)
              · rcases List.mem_append.mp h5 with h6 | h6
                · exact absurd (hws _ h6) (by decide)
                · exact absurd (hgs _ h6) (by decide)
            obtain ⟨R2, hR2⟩ := prefix_transfer hout3 (pass4Go_div cs (some c)) hτ
            have hfull : tm4 p (c :: cs) ≠ none := by
              have hcfull : c :: cs = "annotation:".data ++ (ws ++ (g2 ++ R2)) := by
                rw [hc, hR2, show "annotation:".data = 'a' :: "nnotation:".data from by decide]
                simp [List.append_assoc]
              rw [hcfull]
              exact tm4_ne_none hprev hws hgne hgs
            exact hfull h3
        | cons x X2 =>
          injection hxy with hcx hxy2
          rw [lastOr_shift, ← hcx]
          exact ihL cs (some c) hlen X2 Y hxy2
      | some val =>
        obtain ⟨g, r⟩ := val
        obtain ⟨-, ws, hin, hws, hgne, hgs, -⟩ := tm4_some h3
        have hr : r.length ≤ L := by
          have := (tm4_rest_lt h3).1
          simp only [List.length_cons] at this
          omega
        rw [pass4Go_cons_some h3] at hxy
        rcases split_block hxy with ⟨v, hvne, hsp, hY⟩ | ⟨w, hX, hB⟩
        · rw [hY]
          refine blockL_tm4 hgs hsp hvne (lastOr p X) ?_
          intro hXne
          cases X with
          | nil => exact absurd rfl hXne
          | cons x X2 => rfl
        · have hirr : tm4 (lastOr p X) Y = tm4 (lastOr g.getLast? w) Y := by
            cases w with
            | nil =>
              rw [hX]
              have h5 : lastOr p (annLink g ++ []) = some ')' := by
                rw [List.append_nil]
                have h6 : annLink g ≠ [] := by
                  rw [annLink_eq]
                  simp
                cases hA : annLink g with
                | nil => exact absurd hA h6
                | cons a as =>
                  show (a :: as).getLast? = some ')'
                  rw [← hA, annLink_last]
              rw [h5]
              have hgl : g.getLast? ≠ some '(' := by
                obtain ⟨g0, g2, rfl⟩ : ∃ g0 g2, g = g0 :: g2 := by
                  cases g with
                  | nil => exact absurd rfl hgne
                  | cons a b => exact ⟨a, b, rfl⟩
                intro hq
                have hm : (g0 :: g2).getLast (by simp) ∈ g0 :: g2 :=
                  List.getLast_mem (by simp)
                rw [List.getLast?_eq_getLast _ (by simp)] at hq
                injection hq with hq2
                rw [hq2] at hm
                exact (slugChar_ne (hgs _ hm)).2.2.1 rfl
              exact tm4_prev_irrel (by simp) hgl
            | cons x xs =>
              rw [hX]
              have h5 : lastOr p (annLink g ++ x :: xs) = (x :: xs).getLast? := by
                cases hA : annLink g ++ x :: xs with
                | nil => simp at hA
                | cons a as =>
                  show (a :: as).getLast? = (x :: xs).getLast?
                  rw [← hA]
                  exact getLast_append_right (by simp)
              rw [h5]
              rfl
          rw [hirr]
          exact ihL r g.getLast? hr w Y hB


theorem tm1_head_ne {c : Char} {Z : List Char} (h : c ≠ '[') : tm1 (c :: Z) = none := by
  cases htm : tm1 (c :: Z) with
  | none => rfl
  | some val =>
    obtain ⟨g, r⟩ := val
    obtain ⟨ws, heq, -, -, -⟩ := tm1_some htm
    rw [show "[annotation:".data = '[' :: "annotation:".data from by decide] at heq
    injection heq with h1 _
    exact absurd h1 h

theorem tm2_head_ne {c : Char} {Z : List Char} (h : c ≠ ']') : tm2 (c :: Z) = none := by
  cases htm : tm2 (c :: Z) with
  | none => rfl
  | some r =>
    obtain ⟨ws, heq, -, -⟩ := tm2_some htm
    injection heq with h1 _
    exact absurd h1 h

theorem tm3_head_ne {c : Char} {Z : List Char} (h : c ≠ '(') : tm3 (c :: Z) = none := by
  cases htm : tm3 (c :: Z) with
  | none => rfl
  | some val =>
    obtain ⟨g, r⟩ := val
    obtain ⟨ws, heq, -, -, -⟩ := tm3_some htm
    rw [show "(annotation:".data = '(' :: "annotation:".data from by decide] at heq
    injection heq with h1 _
    exact absurd h1 h

/-- Pass 2 creates no pass-1 match. -/
theorem noM1_annPass2 : ∀ (L : Nat) (s : List Char), s.length ≤ L → NoM1 s →
    NoM1 (annPass2 s) := by
  intro L
  induction L with
  | zero =>
    intro s hs hN X Y hxy
    have hnil : s = [] := by
      cases s with
      | nil => rfl
      | cons a b => simp at hs
    subst hnil
    have h0 : annPass2 [] = [] := by simp [annPass2]
    rw [h0] at hxy
    rcases List.append_eq_nil.mp hxy.symm with ⟨-, h2⟩
    rw [h2]
    exact tm1_nil
  | succ L ihL =>
    intro s hs hN X Y hxy
    cases s with
    | nil =>
      have h0 : annPass2 [] = [] := by simp [annPass2]
      rw [h0] at hxy
      rcases List.append_eq_nil.mp hxy.symm with ⟨-, h2⟩
      rw [h2]
      exact tm1_nil
    | cons c cs =>
      have hlen : cs.length ≤ L := by
        simp only [List.length_cons] at hs
        omega
      cases h3 : tm2 (c :: cs) with
      | none =>
        rw [annPass2_cons_none h3] at hxy
        cases X with
        | nil =>
          rw [List.nil_append] at hxy
          subst hxy
          cases htm : tm1 (c :: annPass2 cs) with
          | none => rfl
          | some val =>
            exfalso
            obtain ⟨g2, r2⟩ := val
            obtain ⟨ws, heq, hws, hgne, hgs⟩ := tm1_some htm
            rw [show "[annotation:".data = '[' :: "annotation:".data from by decide] at heq
            simp only [List.cons_append] at heq
            injection heq with hc hout2
            have hout3 : annPass2 cs
                = (("annotation:".data ++ (ws ++ g2)) ++ [']']) ++ r2 := by
              rw [hout2]
              simp [List.append_assoc]
            have hdiv : annPass2 cs = cs ∨ ∃ F t1 t2, cs = F ++ ']' :: t1 ∧
                annPass2 cs = F ++ ']' :: t2 := by
              rcases annPass2_div cs with h4 | ⟨F, t1, t2, h5, h6⟩
              · exact Or.inl h4
              · exact Or.inr ⟨F, t1, '(' :: t2, h5, h6⟩
            have hnm : ']' ∉ "annotation:".data ++ (ws ++ g2) := by
              intro hm
              rcases List.mem_append.mp hm with h5 | h5
              · exact absurd h5 (by decide)
              · rcases List.mem_append.mp h5 with h6 | h6
                · exact absurd (hws _ h6) (by decide)
                · exact absurd (hgs _ h6) (by decide)
            obtain ⟨R2, hR2⟩ := prefix_transfer2 hout3 hdiv (fun u v hm => only_last hnm hm)
            have hfull : tm1 (c :: cs) ≠ none := by
              have hcfull : c :: cs = "[annotation:".data ++ (ws ++ (g2 ++ ']' :: R2)) := by
                rw [hc, hR2, show "[annotation:".data = '[' :: "annotation:".data from by decide]
                simp [List.append_assoc]
              rw [hcfull]
              exact tm1_ne_none hws hgne hgs
            exact hfull (hN [] (c :: cs) rfl)
        | cons x X2 =>
          injection hxy with _ hxy2
          exact ihL cs hlen (NoM1_tail hN) X2 Y hxy2
      | some r =>
        obtain ⟨ws, hin, hwsne, hws⟩ := tm2_some h3
        have hr : r.length ≤ L := by
          have := tm2_rest_lt h3
          simp only [List.length_cons] at this
          omega
        have hNr : NoM1 r := by
          refine NoM1_drop (A := ']' :: (ws ++ ['('])) ?_
          have h5 : (']' :: (ws ++ ['('])) ++ r = c :: cs := by
            rw [hin]
            simp [List.append_assoc]
          rw [h5]
          exact hN
        rw [annPass2_cons_some h3] at hxy
        cases X with
        | nil =>
          rw [List.nil_append] at hxy
          subst hxy
          exact tm1_head_ne (by decide)
        | cons x X2 =>
          injection hxy with hx hxy2
          cases X2 with
          | nil =>
            have hxy3 : '(' :: annPass2 r = Y := hxy2
            subst hxy3
            exact tm1_head_ne (by decide)
          | cons x2 X3 =>
            injection hxy2 with _ hxy3
            exact ihL r hr hNr X3 Y hxy3

/-- Pass 3 creates no pass-1 match. -/
theorem noM1_annPass3 : ∀ (L : Nat) (s : List Char), s.length ≤ L → NoM1 s →
    NoM1 (annPass3 s) := by
  intro L
  induction L with
  | zero =>
    intro s hs hN X Y hxy
    have hnil : s = [] := by
      cases s with
      | nil => rfl
      | cons a b => simp at hs
    subst hnil
    have h0 : annPass3 [] = [] := by simp [annPass3]
    rw [h0] at hxy
    rcases List.append_eq_nil.mp hxy.symm with ⟨-, h2⟩
    rw [h2]
    exact tm1_nil
  | succ L ihL =>
    intro s hs hN X Y hxy
    cases s with
    | nil =>
      have h0 : annPass3 [] = [] := by simp [annPass3]
      rw [h0] at hxy
      rcases List.append_eq_nil.mp hxy.symm with ⟨-, h2⟩
      rw [h2]
      exact tm1_nil
    | cons c cs =>
      have hlen : cs.length ≤ L := by
        simp only [List.length_cons] at hs
        omega
      cases h3 : tm3 (c :: cs) with
      | none =>
        rw [annPass3_cons_none h3] at hxy
        cases X with
        | nil =>
          rw [List.nil_append] at hxy
          subst hxy
          cases htm : tm1 (c :: annPass3 cs) with
          | none => rfl
          | some val =>
            exfalso
            obtain ⟨g2, r2⟩ := val
            obtain ⟨ws, heq, hws, hgne, hgs⟩ := tm1_some htm
            rw [show "[annotation:".data = '[' :: "annotation:".data from by decide] at heq
            simp only [List.cons_append] at heq
            injection heq with hc hout2
            have hout3 : annPass3 cs
                = ("annotation:".data ++ (ws ++ (g2 ++ [']']))) ++ r2 := by
              rw [hout2]
              simp [List.append_assoc]
            have hdiv : annPass3 cs = cs ∨ ∃ F t1 t2, cs = F ++ t1 ∧
                annPass3 cs = F ++ '(' :: t2 := by
              rcases annPass3_div cs with h4 | ⟨F, t1, t2, h5, h6⟩
              · exact Or.inl h4
              · exact Or.inr ⟨F, '(' :: t1, t2, h5, h6⟩
            have hτ : '(' ∉ "annotation:".data ++ (ws ++ (g2 ++ [']'])) := by
              intro hm
              rcases List.mem_append.mp hm with h5 | h5
              · exact absurd h5 (by decide)
              · rcases List.mem_append.mp h5 with h6 | h6
                · exact absurd (hws _ h6) (by decide)
                · rcases List.mem_append.mp h6 with h7 | h7
                  · exact absurd (hgs _ h7) (by decide)
                  · exact absurd h7 (by decide)
            obtain ⟨R2, hR2⟩ := prefix_transfer hout3 hdiv hτ
            have hfull : tm1 (c :: cs) ≠ none := by
              have hcfull : c :: cs = "[annotation:".data ++ (ws ++ (g2 ++ ']' :: R2)) := by
                rw [hc, hR2, show "[annotation:".data = '[' :: "annotation:".data from by decide]
                simp [List.append_assoc]
              rw [hcfull]
              exact tm1_ne_none hws hgne hgs
            exact hfull (hN [] (c :: cs) rfl)
        | cons x X2 =>
          injection hxy with _ hxy2
          exact ihL cs hlen (NoM1_tail hN) X2 Y hxy2
      | some val =>
        obtain ⟨g0, r0⟩ := val
        obtain ⟨ws, hin, hws, hgne, hgs⟩ := tm3_some h3
        have hr : r0.length ≤ L := by
          have := tm3_rest_lt h3
          simp only [List.length_cons] at this
          omega
        have hNr : NoM1 r0 := by
          refine NoM1_drop (A := "(annotation:".data ++ (ws ++ (g0 ++ [')']))) ?_
          have h5 : ("(annotation:".data ++ (ws ++ (g0 ++ [')']))) ++ r0 = c :: cs := by
            rw [hin]
            simp [List.append_assoc]
          rw [h5]
          exact hN
        rw [annPass3_cons_some h3] at hxy
        rcases split_block hxy with ⟨v, hvne, hsp, hY⟩ | ⟨w, hX, hB⟩
        · rw [hY]
          exact blockT_tm1 hgs hsp hvne
        · exact ihL r0 hr hNr w Y hB


/-- Pass 4 creates no pass-1 match. -/
theorem noM1_pass4Go : ∀ (L : Nat) (s : List Char) (p : Option Char), s.length ≤ L →
    NoM1 s → NoM1 (pass4Go p s) := by
  intro L
  induction L with
  | zero =>
    intro s p hs hN X Y hxy
    have hnil : s = [] := by
      cases s with
      | nil => rfl
      | cons a b => simp at hs
    subst hnil
    have h0 : pass4Go p [] = [] := by simp [pass4Go]
    rw [h0] at hxy
    rcases List.append_eq_nil.mp hxy.symm with ⟨-, h2⟩
    rw [h2]
    exact tm1_nil
  | succ L ihL =>
    intro s p hs hN X Y hxy
    cases s with
    | nil =>
      have h0 : pass4Go p [] = [] := by simp [pass4Go]
      rw [h0] at hxy
      rcases List.append_eq_nil.mp hxy.symm with ⟨-, h2⟩
      rw [h2]
      exact tm1_nil
    | cons c cs =>
      have hlen : cs.length ≤ L := by
        simp only [List.length_cons] at hs
        omega
      cases h3 : tm4 p (c :: cs) with
      | none =>
        rw [pass4Go_cons_none h3] at hxy
        cases X with
        | nil =>
          rw [List.nil_append] at hxy
          subst hxy
          cases htm : tm1 (c :: pass4Go (some c) cs) with
          | none => rfl
          | some val =>
            exfalso
            obtain ⟨g2, r2⟩ := val
            obtain ⟨ws, heq, hws, hgne, hgs⟩ := tm1_some htm
            rw [show "[annotation:".data = '[' :: "annotation:".data from by decide] at heq
            simp only [List.cons_append] at heq
            injection heq with hc hout2
            have hout3 : pass4Go (some c) cs
                = ("annotation:".data ++ (ws ++ (g2 ++ [']']))) ++ r2 := by
              rw [hout2]
              simp [List.append_assoc]
            have hτ : '[' ∉ "annotation:".data ++ (ws ++ (g2 ++ [']'])) := by
              intro hm
              rcases List.mem_append.mp hm with h5 | h5
              · exact absurd h5 (by decide)
              · rcases List.mem_append.mp h5 with h6 | h6
                · exact absurd (hws _ h6) (by decide)
                · rcases List.mem_append.mp h6 with h7 | h7
                  · exact absurd (hgs _ h7) (by decide)
                  · exact absurd h7 (by decide)
            obtain ⟨R2, hR2⟩ := prefix_transfer hout3 (pass4Go_div cs (some c)) hτ
            have hfull : tm1 (c :: cs) ≠ none := by
              have hcfull : c :: cs = "[annotation:".data ++ (ws ++ (g2 ++ ']' :: R2)) := by
                rw [hc, hR2, show "[annotation:".data = '[' :: "annotation:".data from by decide]
                simp [List.append_assoc]
              rw [hcfull]
              exact tm1_ne_none hws hgne hgs
            exact hfull (hN [] (c :: cs) rfl)
        | cons x X2 =>
          injection hxy with _ hxy2
          exact ihL cs (some c) hlen (NoM1_tail hN) X2 Y hxy2
      | some val =>
        obtain ⟨g, r⟩ := val
        obtain ⟨-, ws, hin, hws, hgne, hgs, -⟩ := tm4_some h3
        have hr : r.length ≤ L := by
          have := (tm4_rest_lt h3).1
          simp only [List.length_cons] at this
          omega
        have hNr : NoM1 r := by
          refine NoM1_drop (A := "annotation:".data ++ (ws ++ g)) ?_
          have h5 : ("annotation:".data ++ (ws ++ g)) ++ r = c :: cs := by
            rw [hin]
            simp [List.append_assoc]
          rw [h5]
          exact hN
        rw [pass4Go_cons_some h3] at hxy
        rcases split_block hxy with ⟨v, hvne, hsp, hY⟩ | ⟨w, hX, hB⟩
        · rw [hY]
          exact blockL_tm1 hgs hsp hvne
        · exact ihL r g.getLast? hr hNr w Y hB

/-- Pass 3 creates no pass-2 match. -/
theorem noM2_annPass3 : ∀ (L : Nat) (s : List Char), s.length ≤ L → NoM2 s →
    NoM2 (annPass3 s) := by
  intro L
  induction L with
  | zero =>
    intro s hs hN X Y hxy
    have hnil : s = [] := by
      cases s with
      | nil => rfl
      | cons a b => simp at hs
    subst hnil
    have h0 : annPass3 [] = [] := by simp [annPass3]
    rw [h0] at hxy
    rcases List.append_eq_nil.mp hxy.symm with ⟨-, h2⟩
    rw [h2]
    exact tm2_nil
  | succ L ihL =>
    intro s hs hN X Y hxy
    cases s with
    | nil =>
      have h0 : annPass3 [] = [] := by simp [annPass3]
      rw [h0] at hxy
      rcases List.append_eq_nil.mp hxy.symm with ⟨-, h2⟩
      rw [h2]
      exact tm2_nil
    | cons c cs =>
      have hlen : cs.length ≤ L := by
        simp only [List.length_cons] at hs
        omega
      cases h3 : tm3 (c :: cs) with
      | none =>
        rw [annPass3_cons_none h3] at hxy
        cases X with
        | nil =>
          rw [List.nil_append] at hxy
          subst hxy
          cases htm : tm2 (c :: annPass3 cs) with
          | none => rfl
          | some r2 =>
            exfalso
            obtain ⟨ws, heq, hwsne, hws⟩ := tm2_some htm
            injection heq with hc hout2
            have hout3 : annPass3 cs = (ws ++ ['(']) ++ r2 := by
              rw [hout2]
              simp [List.append_assoc]
            have hdiv : annPass3 cs = cs ∨ ∃ F t1 t2, cs = F ++ '(' :: t1 ∧
                annPass3 cs = F ++ '(' :: t2 := annPass3_div cs
            have hnm : '(' ∉ ws :=
              fun hm => absurd (hws _ hm) (by decide)
            obtain ⟨R2, hR2⟩ := prefix_transfer2 hout3 hdiv (fun u v hm => only_last hnm hm)
            have hfull : tm2 (c :: cs) ≠ none := by
              have hcfull : c :: cs = ']' :: (ws ++ '(' :: R2) := by
                rw [hc, hR2]
                simp [List.append_assoc]
              rw [hcfull, tm2_complete hwsne hws]
              simp
            exact hfull (hN [] (c :: cs) rfl)
        | cons x X2 =>
          injection hxy with _ hxy2
          exact ihL cs hlen (NoM2_tail hN) X2 Y hxy2
      | some val =>
        obtain ⟨g0, r0⟩ := val
        obtain ⟨ws, hin, hws, hgne, hgs⟩ := tm3_some h3
        have hr : r0.length ≤ L := by
          have := tm3_rest_lt h3
          simp only [List.length_cons] at this
          omega
        have hNr : NoM2 r0 := by
          refine NoM2_drop (A := "(annotation:".data ++ (ws ++ (g0 ++ [')']))) ?_
          have h5 : ("(annotation:".data ++ (ws ++ (g0 ++ [')']))) ++ r0 = c :: cs := by
            rw [hin]
            simp [List.append_assoc]
          rw [h5]
          exact hN
        rw [annPass3_cons_some h3] at hxy
        rcases split_block hxy with ⟨v, hvne, hsp, hY⟩ | ⟨w, hX, hB⟩
        · rw [hY]
          exact blockT_tm2 hgs hsp hvne
        · exact ihL r0 hr hNr w Y hB

/-- Pass 4 creates no pass-2 match. -/
theorem noM2_pass4Go : ∀ (L : Nat) (s : List Char) (p : Option Char), s.length ≤ L →
    NoM2 s → NoM2 (pass4Go p s) := by
  intro L
  induction L with
  | zero =>
    intro s p hs hN X Y hxy
    have hnil : s = [] := by
      cases s with
      | nil => rfl
      | cons a b => simp at hs
    subst hnil
    have h0 : pass4Go p [] = [] := by simp [pass4Go]
    rw [h0] at hxy
    rcases List.append_eq_nil.mp hxy.symm with ⟨-, h2⟩
    rw [h2]
    exact tm2_nil
  | succ L ihL =>
    intro s p hs hN X Y hxy
    cases s with
    | nil =>
      have h0 : pass4Go p [] = [] := by simp [pass4Go]
      rw [h0] at hxy
      rcases List.append_eq_nil.mp hxy.symm with ⟨-, h2⟩
      rw [h2]
      exact tm2_nil
    | cons c cs =>
      have hlen : cs.length ≤ L := by
        simp only [List.length_cons] at hs
        omega
      cases h3 : tm4 p (c :: cs) with
      | none =>
        rw [pass4Go_cons_none h3] at hxy
        cases X with
        | nil =>
          rw [List.nil_append] at hxy
          subst hxy
          cases htm : tm2 (c :: pass4Go (some c) cs) with
          | none => rfl
          | some r2 =>
            exfalso
            obtain ⟨ws, heq, hwsne, hws⟩ := tm2_some htm
            injection heq with hc hout2
            have hout3 : pass4Go (some c) cs = (ws ++ ['(']) ++ r2 := by
              rw [hout2]
              simp [List.append_assoc]
            have hτ : '[' ∉ ws ++ ['('] := by
              intro hm
              rcases List.mem_append.mp hm with h5 | h5
              · exact absurd (hws _ h5) (by decide)
              · exact absurd h5 (by decide)
            obtain ⟨R2, hR2⟩ := prefix_transfer hout3 (pass4Go_div cs (some c)) hτ
            have hfull : tm2 (c :: cs) ≠ none := by
              have hcfull : c :: cs = ']' :: (ws ++ '(' :: R2) := by
                rw [hc, hR2]
                simp [List.append_assoc]
              rw [hcfull, tm2_complete hwsne hws]
              simp
            exact hfull (hN [] (c :: cs) rfl)
        | cons x X2 =>
          injection hxy with _ hxy2
          exact ihL cs (some c) hlen (NoM2_tail hN) X2 Y hxy2
      | some val =>
        obtain ⟨g, r⟩ := val
        obtain ⟨-, ws, hin, hws, hgne, hgs, -⟩ := tm4_some h3
        have hr : r.length ≤ L := by
          have := (tm4_rest_lt h3).1
          simp only [List.length_cons] at this
          omega
        have hNr : NoM2 r := by
          refine NoM2_drop (A := "annotation:".data ++ (ws ++ g)) ?_
          have h5 : ("annotation:".data ++ (ws ++ g)) ++ r = c :: cs := by
            rw [hin]
            simp [List.append_assoc]
          rw [h5]
          exact hN
        rw [pass4Go_cons_some h3] at hxy
        rcases split_block hxy with ⟨v, hvne, hsp, hY⟩ | ⟨w, hX, hB⟩
        · rw [hY]
          exact blockL_tm2 hgs hsp hvne
        · exact ihL r g.getLast? hr hNr w Y hB

/-- Pass 4 keeps every pass-3 match canonical. -/
theorem can3_pass4Go : ∀ (L : Nat) (s : List Char) (p : Option Char), s.length ≤ L →
    Can3 s → Can3 (pass4Go p s) := by
  intro L
  induction L with
  | zero =>
    intro s p hs hC X Y g r hxy htm
    have hnil : s = [] := by
      cases s with
      | nil => rfl
      | cons a b => simp at hs
    subst hnil
    have h0 : pass4Go p [] = [] := by simp [pass4Go]
    rw [h0] at hxy
    rcases List.append_eq_nil.mp hxy.symm with ⟨-, h2⟩
    rw [h2, tm3_nil] at htm
    exact absurd htm (by simp)
  | succ L ihL =>
    intro s p hs hC X Y g r hxy htm
    cases s with
    | nil =>
      have h0 : pass4Go p [] = [] := by simp [pass4Go]
      rw [h0] at hxy
      rcases List.append_eq_nil.mp hxy.symm with ⟨-, h2⟩
      rw [h2, tm3_nil] at htm
      exact absurd htm (by simp)
    | cons c cs =>
      have hlen : cs.length ≤ L := by
        simp only [List.length_cons] at hs
        omega
      cases h3 : tm4 p (c :: cs) with
      | none =>
        rw [pass4Go_cons_none h3] at hxy
        cases X with
        | nil =>
          rw [List.nil_append] at hxy
          subst hxy
          obtain ⟨ws, heq, hws, hgne, hgs⟩ := tm3_some htm
          rw [show "(annotation:".data = '(' :: "annotation:".data from by decide] at heq
          simp only [List.cons_append] at heq
          injection heq with hc hout2
          have hout3 : pass4Go (some c) cs
              = ("annotation:".data ++ (ws ++ (g ++ [')']))) ++ r := by
            rw [hout2]
            simp [List.append_assoc]
          have hτ : '[' ∉ "annotation:".data ++ (ws ++ (g ++ [')'])) := by
            intro hm
            rcases List.mem_append.mp hm with h5 | h5
            · exact absurd h5 (by decide)
            · rcases List.mem_append.mp h5 with h6 | h6
              · exact absurd (hws _ h6) (by decide)
              · rcases List.mem_append.mp h6 with h7 | h7
                · exact absurd (hgs _ h7) (by decide)
                · exact absurd h7 (by decide)
          obtain ⟨R2, hR2⟩ := prefix_transfer hout3 (pass4Go_div cs (some c)) hτ
          have hcfull : c :: cs = "(annotation:".data ++ (ws ++ (g ++ ')' :: R2)) := by
            rw [hc, hR2, show "(annotation:".data = '(' :: "annotation:".data from by decide]
            simp [List.append_assoc]
          have hinm : tm3 (c :: cs) = some (g, R2) := by
            rw [hcfull]
            exact tm3_complete hws hgne hgs
          have hcan := hC [] (c :: cs) g R2 rfl hinm
          have h6 : (g ++ [')']) ++ R2 = ws ++ (g ++ ')' :: R2) := by
            have h7 : "(annotation:".data ++ ((g ++ [')']) ++ R2)
                = "(annotation:".data ++ (ws ++ (g ++ ')' :: R2)) := by
              rw [← hcfull, hcan, annTarget]
              simp [List.append_assoc]
            exact List.append_cancel_left h7
          have hwsnil : ws = [] := by
            have h8 := congrArg List.length h6
            simp only [List.length_append, List.length_cons, List.length_nil] at h8
            rw [← List.length_eq_zero]
            omega
          rw [hout2, hc, hwsnil, annTarget]
          simp [List.append_assoc]
        | cons x X2 =>
          injection hxy with _ hxy2
          exact ihL cs (some c) hlen (Can3_tail hC) X2 Y g r hxy2 htm
      | some val =>
        obtain ⟨g0, r0⟩ := val
        obtain ⟨-, ws, hin, hws, hgne, hgs, -⟩ := tm4_some h3
        have hr : r0.length ≤ L := by
          have := (tm4_rest_lt h3).1
          simp only [List.length_cons] at this
          omega
        have hCr : Can3 r0 := by
          refine Can3_drop (A := "annotation:".data ++ (ws ++ g0)) ?_
          have h5 : ("annotation:".data ++ (ws ++ g0)) ++ r0 = c :: cs := by
            rw [hin]
            simp [List.append_assoc]
          rw [h5]
          exact hC
        rw [pass4Go_cons_some h3] at hxy
        rcases split_block hxy with ⟨v, hvne, hsp, hY⟩ | ⟨w, hX, hB⟩
        · rw [hY] at htm ⊢
          exact blockL_tm3 hgs hsp hvne htm
        · exact ihL r0 g0.getLast? hr hCr w Y g r hB htm


theorem lastOr_none (X : List Char) : lastOr none X = X.getLast? := by
  cases X with
  | nil => rfl
  | cons x xs => rfl

/-- A string with no pass-1 match is a fixed point of pass 1. -/
theorem annPass1_stable : ∀ (t : List Char), NoM1 t → annPass1 t = t := by
  intro t
  induction t with
  | nil =>
    intro _
    simp [annPass1]
  | cons c cs ih =>
    intro hN
    rw [annPass1_cons_none (hN [] (c :: cs) rfl), ih (NoM1_tail hN)]

/-- A string with no pass-2 match is a fixed point of pass 2. -/
theorem annPass2_stable : ∀ (t : List Char), NoM2 t → annPass2 t = t := by
  intro t
  induction t with
  | nil =>
    intro _
    simp [annPass2]
  | cons c cs ih =>
    intro hN
    rw [annPass2_cons_none (hN [] (c :: cs) rfl), ih (NoM2_tail hN)]

/-- A string whose pass-3 matches are all canonical is a fixed point of
pass 3. -/
theorem annPass3_stable : ∀ (L : Nat) (t : List Char), t.length ≤ L → Can3 t →
    annPass3 t = t := by
  intro L
  induction L with
  | zero =>
    intro t ht hC
    have hnil : t = [] := by
      cases t with
      | nil => rfl
      | cons a b => simp at ht
    subst hnil
    simp [annPass3]
  | succ L ihL =>
    intro t ht hC
    cases t with
    | nil => simp [annPass3]
    | cons c cs =>
      have hlen : cs.length ≤ L := by
        simp only [List.length_cons] at ht
        omega
      cases h3 : tm3 (c :: cs) with
      | none =>
        rw [annPass3_cons_none h3, ihL cs hlen (Can3_tail hC)]
      | some val =>
        obtain ⟨g, r⟩ := val
        have hcan := hC [] (c :: cs) g r rfl h3
        have hr : r.length ≤ L := by
          have := tm3_rest_lt h3
          simp only [List.length_cons] at this
          omega
        have hCr : Can3 r := Can3_drop (hcan ▸ hC)
        rw [annPass3_cons_some h3, ihL r hr hCr]
        exact hcan.symm

/-- A string with no pass-4 match is a fixed point of pass 4. -/
theorem pass4Go_stable : ∀ (t : List Char) (p : Option Char),
    (∀ X Y, t = X ++ Y → tm4 (lastOr p X) Y = none) → pass4Go p t = t := by
  intro t
  induction t with
  | nil =>
    intro p _
    simp [pass4Go]
  | cons c cs ih =>
    intro p hN
    have h0 : tm4 p (c :: cs) = none := hN [] (c :: cs) rfl
    rw [pass4Go_cons_none h0]
    rw [ih (some c) (fun X Y hxy => by
      have := hN (c :: X) Y (by rw [hxy]; rfl)
      rwa [lastOr_shift] at this)]

/-- C6: the annotation normalizer is idempotent — applying the four
ordered rewrite passes a second time leaves the first application's output
unchanged, for every input string; in particular no already-canonical
annotation link is ever double-wrapped. -/
theorem c6_normalize_idempotent (s : List Char) :
    normalizeAnnoLinks (normalizeAnnoLinks s) = normalizeAnnoLinks s := by
  have h1 : NoM1 (normalizeAnnoLinks s) := by
    rw [normalizeAnnoLinks, annPass4]
    exact noM1_pass4Go _ _ none (le_refl _)
      (noM1_annPass3 _ _ (le_refl _)
        (noM1_annPass2 _ _ (le_refl _)
          (noM1_annPass1 _ _ (le_refl _))))
  have h2 : NoM2 (normalizeAnnoLinks s) := by
    rw [normalizeAnnoLinks, annPass4]
    exact noM2_pass4Go _ _ none (le_refl _)
      (noM2_annPass3 _ _ (le_refl _)
        (noM2_annPass2 _ _ (le_refl _)))
  have h3 : Can3 (normalizeAnnoLinks s) := by
    rw [normalizeAnnoLinks, annPass4]
    exact can3_pass4Go _ _ none (le_refl _)
      (can3_annPass3 _ _ (le_refl _))
  have h4 : ∀ X Y, normalizeAnnoLinks s = X ++ Y → tm4 (lastOr none X) Y = none := by
    intro X Y hxy
    have h5 : annPass4 (annPass3 (annPass2 (annPass1 s))) = X ++ Y := by
      rw [← normalizeAnnoLinks]
      exact hxy
    rw [annPass4] at h5
    exact noM4_pass4Go _ _ none (le_refl _) X Y h5
  conv_lhs => rw [normalizeAnnoLinks]
  rw [annPass1_stable _ h1, annPass2_stable _ h2,
    annPass3_stable _ _ (le_refl _) h3, annPass4]
  exact pass4Go_stable _ none h4


end NKS
